import Mathlib

/-!
# Verification of the tanni-js reactive core and compiler

This file embeds the reactive runtime (`reactivity.ts`), the template parser
(`parser.ts`) and the code generator (`codegen.ts`) of the tanni-js repository
as executable Lean definitions, and proves (or refutes) the specified
properties about them.

## Reactive core embedding

The runtime is a dependency-tracking graph of signals, memos and effects with
a process-wide scheduler state (`currentComputation`, `batchDepth`,
`pendingComputations`).  We embed it as an explicit state machine:

* values are `Nat` (JS `Object.is` on primitive values is decidable equality);
* JS `Set`s are insertion-ordered duplicate-free lists (`setAdd`/`setDel`),
  which matches JS `Set` iteration order;
* user computation bodies (effect bodies, memo functions, `untrack`
  callbacks) are represented syntactically: a body is a tree of reads
  (whose continuation may depend on the value read, so conditional
  dependencies are expressible), `onCleanup` registrations and an explicit
  `throw`; cleanup callbacks are opaque tokens whose invocation is logged;
* every observable action (memo recomputation, effect run together with the
  values it read, cleanup invocation) is appended to a log, so the temporal
  claims become statements about the log;
* the only unbounded recursion in the source (`notifySubscribers` cascading
  through `Memo.execute`, and `flushPending` repeating until the pending set
  is empty — the spec itself notes this can loop forever) is totalized with
  an explicit `fuel` parameter; a run that exhausts its fuel reports
  failure, and all theorems are stated with sufficient fuel.
-/

set_option autoImplicit false

namespace Tanni

/-- JS primitive values; `Object.is` on them is plain decidable equality. -/
abbrev Value := Nat

/-- A `Source` in the graph: a `Signal` or a `Memo` (a memo is both a source
and a computation), identified by index. -/
inductive Src where
  | sig (i : Nat)
  | memo (i : Nat)
deriving DecidableEq, Repr

/-- A `Computation` in the graph: a `Memo` or an effect created by
`createEffect`, identified by index. -/
inductive Comp where
  | memo (i : Nat)
  | eff (i : Nat)
deriving DecidableEq, Repr

/-- JS `Set.add`: append if absent (JS sets iterate in insertion order). -/
def setAdd {α : Type} [DecidableEq α] (xs : List α) (x : α) : List α :=
  if x ∈ xs then xs else xs ++ [x]

/-- JS `Set.delete`. -/
def setDel {α : Type} [DecidableEq α] (xs : List α) (x : α) : List α :=
  xs.filter (fun y => y ≠ x)

/-- Syntactic memo function: a sequence of signal/memo reads (the
continuation may inspect the value read) ending in a returned value, or an
exception thrown by user code. -/
inductive MBody where
  | ret (v : Value)
  | readS (i : Nat) (k : Value → MBody)
  | readM (i : Nat) (k : Value → MBody)
  | throwM

/-- Syntactic effect body / `untrack` callback: reads, `onCleanup`
registrations (cleanup callbacks are opaque tokens), and exceptions. -/
inductive EBody where
  | done
  | readS (i : Nat) (k : Value → EBody)
  | readM (i : Nat) (k : Value → EBody)
  | reg (tok : Nat) (k : EBody)
  | throwE

/-- Observable events: a memo recomputation (with the values it read), an
effect run (with the values it read), and a cleanup-callback invocation. -/
inductive Ev where
  | memoRun (i : Nat) (vals : List Value)
  | effRun (i : Nat) (vals : List Value)
  | clean (tok : Nat)
deriving DecidableEq, Repr

/-- The whole mutable state of the runtime module: per-signal value and
subscriber set, per-memo cached value (`none` before the first computation,
mirroring the initially-`undefined` `value!` field) and subscriber set,
per-computation dependency set and cleanup list, and the scheduler state
(`currentComputation`, `batchDepth`, `pendingComputations`), plus the event
log. -/
@[ext]
structure RState where
  sigVal : Nat → Value
  sigSubs : Nat → List Comp
  memoVal : Nat → Option Value
  memoSubs : Nat → List Comp
  deps : Comp → List Src
  cleanups : Comp → List Nat
  cur : Option Comp
  depth : Nat
  pending : List Comp
  log : List Ev

/-- The static part of a scenario: which memo function / effect body each
index denotes. -/
structure World where
  memoFn : Nat → MBody
  effFn : Nat → EBody

/-- Subscriber set of a source. -/
def subsOf (s : RState) (src : Src) : List Comp :=
  match src with
  | .sig i => s.sigSubs i
  | .memo i => s.memoSubs i

/-- Update the subscriber set of a source. -/
def modifySubs (s : RState) (src : Src) (f : List Comp → List Comp) : RState :=
  match src with
  | .sig i => { s with sigSubs := fun j => if j = i then f (s.sigSubs j) else s.sigSubs j }
  | .memo i => { s with memoSubs := fun j => if j = i then f (s.memoSubs j) else s.memoSubs j }

/-- `trackDependency(source)`: if a computation is currently executing,
mutually register it as a subscriber of the source and the source as its
dependency. -/
def trackDependency (s : RState) (src : Src) : RState :=
  match s.cur with
  | none => s
  | some c =>
      let s1 := modifySubs s src (fun subs => setAdd subs c)
      { s1 with deps := fun d => if d = c then setAdd (s1.deps d) src else s1.deps d }

/-- The unsubscription loop of `cleanupComputation`:
`for (const source of computation.deps) source.subscribers.delete(computation)`. -/
def unsubscribeAll (c : Comp) : RState → List Src → RState
  | s, [] => s
  | s, src :: rest => unsubscribeAll c (modifySubs s src (fun subs => setDel subs c)) rest

/-- Run the captured cleanup callbacks in registration order (each one is an
opaque token; running it is logged). -/
def fireCleanups : RState → List Nat → RState
  | s, [] => s
  | s, t :: rest => fireCleanups { s with log := s.log ++ [.clean t] } rest

/-- `cleanupComputation(computation)`: unsubscribe from every tracked
dependency, clear the dependency set, then take the registered cleanup list
(clearing it first) and run every callback in registration order. -/
def cleanupComputation (s : RState) (c : Comp) : RState :=
  let s1 := unsubscribeAll c s (s.deps c)
  let s2 := { s1 with deps := fun d => if d = c then [] else s1.deps d }
  let cs := s2.cleanups c
  let s3 := { s2 with cleanups := fun d => if d = c then [] else s2.cleanups d }
  fireCleanups s3 cs

/-- Interpret an effect body / callback: `Signal.read` and `Memo.read` call
`trackDependency` then return the current value; `onCleanup` throws if no
computation is executing, else pushes the callback onto the current
computation's cleanup list. Returns the trace of reads (source and value)
and whether the body completed without throwing. -/
def runEBody : RState → EBody → List (Src × Value) → RState × List (Src × Value) × Bool
  | s, .done, tr => (s, tr, true)
  | s, .readS i k, tr =>
      let s1 := trackDependency s (.sig i)
      let v := s1.sigVal i
      runEBody s1 (k v) (tr ++ [(.sig i, v)])
  | s, .readM i k, tr =>
      let s1 := trackDependency s (.memo i)
      let v := (s1.memoVal i).getD 0
      runEBody s1 (k v) (tr ++ [(.memo i, v)])
  | s, .reg tok k, tr =>
      match s.cur with
      | none => (s, tr, false)
      | some c =>
          runEBody
            { s with cleanups := fun d => if d = c then s.cleanups d ++ [tok] else s.cleanups d }
            k tr
  | s, .throwE, tr => (s, tr, false)

/-- Interpret a memo function; result value is `none` when it threw. -/
def runMBody : RState → MBody → List (Src × Value) → RState × List (Src × Value) × Option Value
  | s, .ret v, tr => (s, tr, some v)
  | s, .readS i k, tr =>
      let s1 := trackDependency s (.sig i)
      let v := s1.sigVal i
      runMBody s1 (k v) (tr ++ [(.sig i, v)])
  | s, .readM i k, tr =>
      let s1 := trackDependency s (.memo i)
      let v := (s1.memoVal i).getD 0
      runMBody s1 (k v) (tr ++ [(.memo i, v)])
  | s, .throwM, tr => (s, tr, none)

/-- Generic queue runner: run `step` on each element in order, aborting when
a step reports an exception (a JS `for` loop stops when an iteration
throws). -/
def runQueue (step : RState → Comp → RState × Bool) : RState → List Comp → RState × Bool
  | s, [] => (s, true)
  | s, c :: rest =>
      let r := step s c
      if r.2 then runQueue step r.1 rest else r

/-- `execute` of a computation (the body of `Memo.execute` and of the effect
object built by `createEffect`): run `cleanupComputation`, save and set
`currentComputation`, run the user body, restore `currentComputation` on
every exit path (the `finally`), then — for a memo — compare the fresh value
with the cached one and notify the memo's subscribers only if it changed.
Cascading notification is totalized by `fuel`. -/
def execute : Nat → World → RState → Comp → RState × Bool
  | 0, _, s, _ => (s, false)
  | _ + 1, w, s, .eff i =>
      let s1 := cleanupComputation s (.eff i)
      let prev := s1.cur
      let s2 := { s1 with cur := some (Comp.eff i) }
      let r := runEBody s2 (w.effFn i) []
      let s4 := { r.1 with cur := prev }
      if r.2.2 then
        ({ s4 with log := s4.log ++ [.effRun i (r.2.1.map Prod.snd)] }, true)
      else (s4, false)
  | fuel + 1, w, s, .memo i =>
      let s1 := cleanupComputation s (.memo i)
      let prev := s1.cur
      let s2 := { s1 with cur := some (Comp.memo i) }
      let r := runMBody s2 (w.memoFn i) []
      let s4 := { r.1 with cur := prev }
      match r.2.2 with
      | none => (s4, false)
      | some v =>
          let s5 := { s4 with log := s4.log ++ [.memoRun i (r.2.1.map Prod.snd)] }
          if some v = s5.memoVal i then (s5, true)
          else
            let s6 := { s5 with memoVal := fun j => if j = i then some v else s5.memoVal j }
            runQueue
              (fun s c =>
                if 0 < s.depth then ({ s with pending := setAdd s.pending c }, true)
                else execute fuel w s c)
              s6 (s6.memoSubs i)

/-- `runComputation(computation)`: enqueue into the pending set while a
batch is open, else execute immediately. -/
def runComputation (fuel : Nat) (w : World) (s : RState) (c : Comp) : RState × Bool :=
  if 0 < s.depth then ({ s with pending := setAdd s.pending c }, true)
  else execute fuel w s c

/-- `notifySubscribers(subscribers)`: iterate over a snapshot
(`Array.from`) of the subscriber set, running each entry. The list passed
in is the snapshot. -/
def notifySubscribers (fuel : Nat) (w : World) (s : RState) (queue : List Comp) : RState × Bool :=
  runQueue (runComputation fuel w) s queue

/-- `Signal.write(next)`: no-op when `Object.is(value, next)`, else update
the value and notify a snapshot of the subscribers. -/
def Signal.write (fuel : Nat) (w : World) (s : RState) (i : Nat) (v : Value) : RState × Bool :=
  if v = s.sigVal i then (s, true)
  else
    let s1 := { s with sigVal := fun j => if j = i then v else s.sigVal j }
    notifySubscribers fuel w s1 (s1.sigSubs i)

/-- `flushPending()`: when the pending set is nonempty, snapshot it, clear
it, execute every entry, and repeat while executing refilled it. -/
def flushPending (w : World) : Nat → RState → RState × Bool
  | 0, s => (s, false)
  | fuel + 1, s =>
      if s.pending = [] then (s, true)
      else
        let queue := s.pending
        let s1 := { s with pending := [] }
        let r := runQueue (execute fuel w) s1 queue
        if r.2 then
          if r.1.pending = [] then (r.1, true) else flushPending w fuel r.1
        else r

/-- `createEffect(fn)`: build a fresh computation (its dependency and
cleanup sets start empty in the initial state) and execute it once. -/
def createEffect (fuel : Nat) (w : World) (s : RState) (i : Nat) : RState × Bool :=
  execute fuel w s (.eff i)

/-- `createMemo(fn)` / `new Memo(fn)`: the constructor executes eagerly;
the cached value starts out undefined (`none`). -/
def createMemo (fuel : Nat) (w : World) (s : RState) (i : Nat) : RState × Bool :=
  execute fuel w s (.memo i)

/-- `untrack(fn)`: clear `currentComputation` around the callback and
restore it on every exit path. -/
def untrack (s : RState) (b : EBody) : RState × Bool :=
  let prev := s.cur
  let s1 := { s with cur := none }
  let r := runEBody s1 b []
  ({ r.1 with cur := prev }, r.2.2)

/-- Driver operations: the external writes (and nested batches of writes)
the claims quantify over. -/
inductive Op where
  | write (i : Nat) (v : Value)
  | batchOps (ops : List Op)

mutual
/-- Run one driver operation. `batch(fn)` increments the depth, runs the
body, then (in the `finally`) decrements the depth and flushes when it
returned to zero — even when the body threw. -/
def runOp (fuel : Nat) (w : World) (s : RState) : Op → RState × Bool
  | .write i v => Signal.write fuel w s i v
  | .batchOps ops =>
      let s1 := { s with depth := s.depth + 1 }
      let r : RState × Bool := runOps fuel w s1 ops
      let s3 := { r.1 with depth := r.1.depth - 1 }
      match s3.depth with
      | 0 =>
          let r2 := flushPending w fuel s3
          (r2.1, r.2 && r2.2)
      | _ + 1 => (s3, r.2)

/-- Run a list of driver operations in order, aborting on a thrown
exception. -/
def runOps (fuel : Nat) (w : World) (s : RState) : List Op → RState × Bool
  | [] => (s, true)
  | op :: rest =>
      let r := runOp fuel w s op
      if r.2 then runOps fuel w r.1 rest else r
end

/-- The runtime module's initial state: given initial signal values, no
subscriptions, no memo has computed yet, no batch is open, nothing pending. -/
def initState (sv : Nat → Value) : RState where
  sigVal := sv
  sigSubs := fun _ => []
  memoVal := fun _ => none
  memoSubs := fun _ => []
  deps := fun _ => []
  cleanups := fun _ => []
  cur := none
  depth := 0
  pending := []
  log := []

/-- Number of occurrences of an event in a log. -/
def countEv (e : Ev) (l : List Ev) : Nat :=
  (l.filter (fun x => x = e)).length

/-- Diamond world for the memo claims: memo 1 reads signal 0; memo 2 reads
signal 0 and memo 1 (`m2 = a + m1`).  Signal 0 thus reaches memo 2 both
directly and through memo 1. -/
def diamondMemoWorld : World where
  memoFn := fun i =>
    if i = 1 then .readS 0 (fun a => .ret a)
    else .readS 0 (fun a => .readM 1 (fun m => .ret (a + m)))
  effFn := fun _ => .done

/-- Initial setup for `diamondMemoWorld`: signal 0 starts at `0`;
`createMemo` 1 then `createMemo` 2 (both compute eagerly). -/
def diamondMemoInit : RState :=
  (createMemo 10 diamondMemoWorld
    (createMemo 10 diamondMemoWorld (initState fun _ => 0) 1).1 2).1

/-- Diamond world for the effect claims: memo 1 reads signal 0; effect 0
reads signal 0 and then memo 1.  Signal 0 thus reaches effect 0 both
directly and through memo 1. -/
def diamondEffWorld : World where
  memoFn := fun _ => .readS 0 (fun a => .ret a)
  effFn := fun _ => .readS 0 (fun _ => .readM 1 (fun _ => .done))

/-- Initial setup for `diamondEffWorld`: signal 0 starts at `0`;
`createMemo` 1 then `createEffect` 0. -/
def diamondEffInit : RState :=
  (createEffect 10 diamondEffWorld
    (createMemo 10 diamondEffWorld (initState fun _ => 0) 1).1 0).1

/-!
## Pure predictions of body runs

Running a body only reads values and never changes them, so its trace, its
registered cleanups and its termination behaviour are pure functions of the
signal/memo value maps.  These functions let the lemmas below characterize
`runEBody`/`runMBody` completely.
-/

/-- The read trace (source and value, in order) a body produces against
fixed value maps; reads after a `throw` are cut off. -/
def ebodyTrace (sv : Nat → Value) (mv : Nat → Option Value) : EBody → List (Src × Value)
  | .done => []
  | .readS i k => (Src.sig i, sv i) :: ebodyTrace sv mv (k (sv i))
  | .readM i k => (Src.memo i, (mv i).getD 0) :: ebodyTrace sv mv (k ((mv i).getD 0))
  | .reg _ k => ebodyTrace sv mv k
  | .throwE => []

/-- The cleanup tokens a body registers, in registration order. -/
def ebodyRegs (sv : Nat → Value) (mv : Nat → Option Value) : EBody → List Nat
  | .done => []
  | .readS i k => ebodyRegs sv mv (k (sv i))
  | .readM i k => ebodyRegs sv mv (k ((mv i).getD 0))
  | .reg t k => t :: ebodyRegs sv mv k
  | .throwE => []

/-- Whether a body completes without throwing. -/
def ebodyOk (sv : Nat → Value) (mv : Nat → Option Value) : EBody → Bool
  | .done => true
  | .readS i k => ebodyOk sv mv (k (sv i))
  | .readM i k => ebodyOk sv mv (k ((mv i).getD 0))
  | .reg _ k => ebodyOk sv mv k
  | .throwE => false

/-- Read trace of a memo function against fixed value maps. -/
def mbodyTrace (sv : Nat → Value) (mv : Nat → Option Value) : MBody → List (Src × Value)
  | .ret _ => []
  | .readS i k => (Src.sig i, sv i) :: mbodyTrace sv mv (k (sv i))
  | .readM i k => (Src.memo i, (mv i).getD 0) :: mbodyTrace sv mv (k ((mv i).getD 0))
  | .throwM => []

/-- Result value of a memo function (`none` when it throws). -/
def mbodyVal (sv : Nat → Value) (mv : Nat → Option Value) : MBody → Option Value
  | .ret v => some v
  | .readS i k => mbodyVal sv mv (k (sv i))
  | .readM i k => mbodyVal sv mv (k ((mv i).getD 0))
  | .throwM => none

/-- State after a body run by computation `c` that performed `reads` (in
order) and registered `regs`: `c` is added to the subscriber set of every
source read, every source read is folded into `c`'s dependency set, and the
registered tokens are appended to `c`'s cleanup list.  Values, the log and
the scheduler state are untouched. -/
def afterBody (s : RState) (c : Comp) (reads : List Src) (regs : List Nat) : RState :=
  { s with
    sigSubs := fun i => if Src.sig i ∈ reads then setAdd (s.sigSubs i) c else s.sigSubs i,
    memoSubs := fun i => if Src.memo i ∈ reads then setAdd (s.memoSubs i) c else s.memoSubs i,
    deps := fun d => if d = c then List.foldl setAdd (s.deps c) reads else s.deps d,
    cleanups := fun d => if d = c then s.cleanups d ++ regs else s.cleanups d }

/-- Sources read by effect `j`'s body against the current values. -/
def effReads (w : World) (s : RState) (j : Nat) : List Src :=
  (ebodyTrace s.sigVal s.memoVal (w.effFn j)).map Prod.fst

/-- Values read by effect `j`'s body against the current values. -/
def effVals (w : World) (s : RState) (j : Nat) : List Value :=
  (ebodyTrace s.sigVal s.memoVal (w.effFn j)).map Prod.snd

/-- Predicted state after a full (non-throwing) `execute` of effect `j`:
first `cleanupComputation` (unsubscribe from every old dependency, clear
deps, fire and clear the old cleanups), then the body run (re-subscribe and
re-register), then the run event. -/
def execEff (w : World) (s : RState) (j : Nat) : RState :=
  { s with
    sigSubs := fun i =>
      let cleaned := if Src.sig i ∈ s.deps (.eff j)
        then setDel (s.sigSubs i) (.eff j) else s.sigSubs i
      if Src.sig i ∈ effReads w s j then setAdd cleaned (.eff j) else cleaned
    memoSubs := fun i =>
      let cleaned := if Src.memo i ∈ s.deps (.eff j)
        then setDel (s.memoSubs i) (.eff j) else s.memoSubs i
      if Src.memo i ∈ effReads w s j then setAdd cleaned (.eff j) else cleaned
    deps := fun d => if d = .eff j then List.foldl setAdd [] (effReads w s j) else s.deps d
    cleanups := fun d => if d = .eff j
      then ebodyRegs s.sigVal s.memoVal (w.effFn j) else s.cleanups d
    log := s.log ++ (s.cleanups (.eff j)).map Ev.clean ++ [.effRun j (effVals w s j)] }

/-- The state right after `Signal.write` updates the value, before
notification. -/
def writtenState (s : RState) (i : Nat) (v : Value) : RState :=
  { s with sigVal := fun j => if j = i then v else s.sigVal j }

/-- World with a single effect that reads signal 0 (used as the concrete
witness input for several claims). -/
def singleEffWorld : World where
  memoFn := fun _ => .ret 0
  effFn := fun _ => .readS 0 (fun _ => .done)

/-- Initial setup for `singleEffWorld`: signal 0 starts at `0`;
`createEffect` 0 runs once and subscribes. -/
def singleEffInit : RState :=
  (createEffect 10 singleEffWorld (initState fun _ => 0) 0).1

/-- World with a single effect that reads signal 0 and registers cleanup
token `7` on each run. -/
def cleanupEffWorld : World where
  memoFn := fun _ => .ret 0
  effFn := fun _ => .readS 0 (fun _ => .reg 7 .done)

/-- Initial setup for `cleanupEffWorld`. -/
def cleanupEffInit : RState :=
  (createEffect 10 cleanupEffWorld (initState fun _ => 0) 0).1

/-- Hand-written concrete state used as witness input: effect 0 is
subscribed to signal 0, mutually registered, with one pending cleanup
token `7`. -/
def mutualState : RState :=
  { initState (fun _ => 0) with
    sigSubs := fun i => if i = 0 then [Comp.eff 0] else [],
    deps := fun d => if d = Comp.eff 0 then [Src.sig 0] else [],
    cleanups := fun d => if d = Comp.eff 0 then [7] else [] }

/-- Concrete state with a current computation, used as witness input for
the tracking claims. -/
def cur0State : RState :=
  { initState (fun _ => 0) with cur := some (Comp.eff 0) }

mutual
/-- Flatten a driver operation into its sequence of raw writes (nested
batches contribute their writes in order; batch boundaries are transparent
while the outermost batch is open). -/
def flattenOp : Op → List (Nat × Value)
  | .write i v => [(i, v)]
  | .batchOps ops => flattenOpList ops

/-- Flatten a list of driver operations into raw writes. -/
def flattenOpList : List Op → List (Nat × Value)
  | [] => []
  | op :: rest => flattenOp op ++ flattenOpList rest
end

/-- Pure simulation of a write sequence performed while a batch is open:
each write that actually changes the value updates the value map and folds
the (constant) subscriber snapshot of the written signal into the pending
set; indistinguishable writes are skipped. -/
def simWrites (subs : Nat → List Comp) :
    (Nat → Value) → List Comp → List (Nat × Value) → (Nat → Value) × List Comp
  | sv, pend, [] => (sv, pend)
  | sv, pend, (i, v) :: rest =>
      if v = sv i then simWrites subs sv pend rest
      else simWrites subs (fun j => if j = i then v else sv j)
        (List.foldl setAdd pend (subs i)) rest

/-- Straight-line memo function: read the given signals in order, then
return `f` of the values read. -/
def memoBodyGo (f : List Value → Value) : List Nat → List Value → MBody
  | [], acc => .ret (f acc.reverse)
  | d :: ds, acc => .readS d (fun v => memoBodyGo f ds (v :: acc))

/-- Memo function tracking exactly the signals `ds`. -/
def memoBody (ds : List Nat) (f : List Value → Value) : MBody :=
  memoBodyGo f ds []

/-- Invariant of the single-path memo world: memo 0 tracks exactly the
signals `ds` (each of which has memo 0 as its only subscriber), caches `f`
of their current values, and is subscribed to by exactly the effects `es`;
no batch is open, nothing is pending, no computation is running, and no
cleanups are registered. -/
def MemoInv (ds es : List Nat) (f : List Value → Value) (s : RState) : Prop :=
  s.depth = 0 ∧ s.pending = [] ∧ s.cur = none ∧
  ds.Nodup ∧ es.Nodup ∧
  (∀ d ∈ ds, s.sigSubs d = [Comp.memo 0]) ∧
  (∀ i, i ∉ ds → s.sigSubs i = []) ∧
  s.deps (Comp.memo 0) = ds.map Src.sig ∧
  s.memoVal 0 = some (f (ds.map s.sigVal)) ∧
  s.memoSubs 0 = es.map Comp.eff ∧
  s.cleanups (Comp.memo 0) = [] ∧
  (∀ j, s.cleanups (Comp.eff j) = []) ∧
  (∀ j ∈ es, s.deps (Comp.eff j) = [Src.memo 0])

/-- World for the memo witness: memo 0 mirrors signal 0, effect 5 reads
memo 0. -/
def memoWitWorld : World where
  memoFn := fun m => if m = 0 then memoBody [0] (fun vs => vs.headI) else .ret 0
  effFn := fun _ => .readM 0 (fun _ => .done)

/-- Hand-written state satisfying `MemoInv [0] [5] (fun vs => vs.headI)`. -/
def memoInvState : RState :=
  { initState (fun _ => 0) with
    sigSubs := fun i => if i = 0 then [Comp.memo 0] else [],
    memoVal := fun m => if m = 0 then some 0 else none,
    memoSubs := fun m => if m = 0 then [Comp.eff 5] else [],
    deps := fun d =>
      if d = Comp.memo 0 then [Src.sig 0]
      else if d = Comp.eff 5 then [Src.memo 0] else [] }

/-!
## The template parser (`parser.ts`, `parseTemplate`)

The parser walks the template source left to right keeping a stack of open
elements.  Character classes mirror the source regexes; the main loop is
totalized by fuel (one unit per iteration; every iteration consumes at
least one character, so `length + 1` units suffice).
-/

/-- A raw attribute as produced by `parseAttributes`: `value` is `none` for
a bare attribute without `=`. -/
structure RawAttribute where
  name : String
  value : Option String
deriving DecidableEq

/-- Parsed template nodes (`ElementNode` / `TextNode`). -/
inductive TemplateNode where
  | element (tag : String) (attrs : List RawAttribute) (children : List TemplateNode)
  | text (content : String)

/-- JS `\s` for the characters relevant here. -/
def isJsSpace (c : Char) : Bool :=
  c = ' ' || c = '\t' || c = '\n' || c = '\r' || c = '\x0b' || c = '\x0c'

/-- Tag-name continuation characters, regex `[\w-]`. -/
def isTagNameChar (c : Char) : Bool :=
  c.isAlphanum || c = '_' || c = '-'

/-- Attribute-name start characters, regex `[:@A-Za-z_]`. -/
def isAttrNameStart (c : Char) : Bool :=
  c = ':' || c = '@' || c.isAlpha || c = '_'

/-- Attribute-name continuation characters, regex `[\w:.-]`. -/
def isAttrNameChar (c : Char) : Bool :=
  c.isAlphanum || c = '_' || c = ':' || c = '.' || c = '-'

/-- Unquoted attribute-value characters, regex `[^\s"'=<>` ++ backtick ++ `]`. -/
def isBareValueChar (c : Char) : Bool :=
  !(isJsSpace c || c = '"' || c = '\x27' || c = '=' || c = '<' || c = '>' || c = '\x60')

/-- `String.prototype.indexOf` for a single character (relative index). -/
def findChar (c : Char) : List Char → Option Nat
  | [] => none
  | x :: xs => if x = c then some 0 else (findChar c xs).map (· + 1)

/-- `String.prototype.indexOf` for a substring (relative index). -/
def findSub (pat : List Char) : List Char → Option Nat
  | [] => if pat.isEmpty then some 0 else none
  | x :: xs => if pat.isPrefixOf (x :: xs) then some 0 else (findSub pat xs).map (· + 1)

/-- `String.prototype.trim`. -/
def trimChars (cs : List Char) : List Char :=
  List.reverse (List.dropWhile isJsSpace (List.reverse (List.dropWhile isJsSpace cs)))

/-- The attribute scanner of `matchOpenTag`: advance until `>` at the top
level, skipping over quoted spans (`indexOf` of the matching quote; an
unterminated quote fails the whole tag).  Returns the number of characters
before the `>`. -/
def scanToGt : Nat → List Char → Option Nat
  | _, [] => none
  | 0, _ => none
  | fuel + 1, c :: cs =>
      if c = '"' || c = '\x27' then
        match findChar c cs with
        | none => none
        | some k => (scanToGt fuel (cs.drop (k + 1))).map (fun r => r + (k + 2))
      else if c = '>' then some 0
      else (scanToGt fuel cs).map (· + 1)

/-- `replace(/\/\s*$/, '')`: drop one trailing slash and the whitespace
after it, if present. -/
def removeSlashEnd (cs : List Char) : List Char :=
  match List.dropWhile isJsSpace cs.reverse with
  | '/' :: r => r.reverse
  | _ => cs

/-- `matchOpenTag(source, start)` on the remaining input: regex
`^<\s*([A-Za-z][\w-]*)` for the tag name, then the quote-aware scan for
`>`; self-closing iff the trimmed raw attribute text ends in `/`.  Returns
tag name, raw attribute text, the self-closing flag and the matched
length. -/
def matchOpenTag (rem : List Char) : Option (String × List Char × Bool × Nat) :=
  match rem with
  | '<' :: rest =>
      let sp := rest.takeWhile isJsSpace
      match rest.drop sp.length with
      | c :: cs =>
          if c.isAlpha then
            let nameTail := cs.takeWhile isTagNameChar
            let tag := c :: nameTail
            let afterName := cs.drop nameTail.length
            match scanToGt (afterName.length + 1) afterName with
            | none => none
            | some alen =>
                let attrsRaw := afterName.take alen
                let selfClosing := (trimChars attrsRaw).getLast? == some '/'
                let attrs := if selfClosing then removeSlashEnd attrsRaw else attrsRaw
                some (tag.asString, attrs, selfClosing,
                  1 + sp.length + tag.length + alen + 1)
          else none
      | [] => none
  | _ => none

/-- The closing-tag regex `^<\/\s*([A-Za-z][\w-]*)\s*>`: returns the tag
name and the matched length. -/
def matchCloseTag (rem : List Char) : Option (String × Nat) :=
  match rem with
  | '<' :: '/' :: rest =>
      let sp := rest.takeWhile isJsSpace
      match rest.drop sp.length with
      | c :: cs =>
          if c.isAlpha then
            let nameTail := cs.takeWhile isTagNameChar
            let tag := c :: nameTail
            let afterName := cs.drop nameTail.length
            let sp2 := afterName.takeWhile isJsSpace
            match afterName.drop sp2.length with
            | '>' :: _ =>
                some (tag.asString, 2 + sp.length + tag.length + sp2.length + 1)
            | _ => none
          else none
      | [] => none
  | _ => none

/-- `parseAttributes(raw)`: successive matches of the attribute regex
`([:@A-Za-z_][\w:.-]*)` with the optional value group
(double-quoted, single-quoted or bare); when the optional value group
cannot match, scanning resumes right after the name. -/
def parseAttrsLoop : Nat → List Char → List RawAttribute
  | 0, _ => []
  | fuel + 1, cs =>
      match cs with
      | [] => []
      | c :: rest =>
          if isAttrNameStart c then
            let nameTail := rest.takeWhile isAttrNameChar
            let name := (c :: nameTail).asString
            let afterName := rest.drop nameTail.length
            let sp := afterName.takeWhile isJsSpace
            match afterName.drop sp.length with
            | '=' :: afterEq =>
                let sp2 := afterEq.takeWhile isJsSpace
                match afterEq.drop sp2.length with
                | '"' :: vs =>
                    match findChar '"' vs with
                    | some k =>
                        ⟨name, some (vs.take k).asString⟩ :: parseAttrsLoop fuel (vs.drop (k + 1))
                    | none => ⟨name, none⟩ :: parseAttrsLoop fuel afterName
                | '\x27' :: vs =>
                    match findChar '\x27' vs with
                    | some k =>
                        ⟨name, some (vs.take k).asString⟩ :: parseAttrsLoop fuel (vs.drop (k + 1))
                    | none => ⟨name, none⟩ :: parseAttrsLoop fuel afterName
                | v =>
                    let bare := v.takeWhile isBareValueChar
                    if bare.isEmpty then ⟨name, none⟩ :: parseAttrsLoop fuel afterName
                    else ⟨name, some bare.asString⟩ :: parseAttrsLoop fuel (v.drop bare.length)
            | _ => ⟨name, none⟩ :: parseAttrsLoop fuel afterName
          else parseAttrsLoop fuel rest

/-- An open element on the parser stack: tag, attributes, and the children
collected so far. -/
def PFrame : Type := String × List RawAttribute × List TemplateNode

/-- `appendChild(stack, root, node)`: push onto the children of the top
open element, or onto the root when the stack is empty. -/
def appendNode (stack : List PFrame) (root : List TemplateNode) (node : TemplateNode) :
    List PFrame × List TemplateNode :=
  match stack with
  | [] => ([], root ++ [node])
  | (t, a, kids) :: rest => ((t, a, kids ++ [node]) :: rest, root)

/-- The main loop of `parseTemplate`: comments are skipped; a closing tag
pops the stack and must match the popped tag (a mismatch or an empty stack
is the fatal `Mismatched closing tag` error); an opening tag pushes (or,
when self-closing, appends directly); text runs that are pure whitespace
are dropped.  Leftover open elements at the end are the `Unclosed tag`
error.  A completed element is appended to its parent when it closes,
which yields the same tree `appendChild`-on-open builds by mutation. -/
def parseLoop : Nat → List Char → List PFrame → List TemplateNode →
    Except String (List TemplateNode)
  | 0, _, _, _ => .error "Parser fuel exhausted."
  | fuel + 1, rem, stack, root =>
      match rem with
      | [] =>
          match stack with
          | (t, _, _) :: _ => .error ("Unclosed tag <" ++ t ++ ">.")
          | [] => .ok root
      | '<' :: rest =>
          if ['!', '-', '-'].isPrefixOf rest then
            match findSub ['-', '-', '>'] (rest.drop 3) with
            | none => parseLoop fuel [] stack root
            | some k => parseLoop fuel ((rest.drop 3).drop (k + 3)) stack root
          else if ['/'].isPrefixOf rest then
            match matchCloseTag ('<' :: rest) with
            | none =>
                .error ("Invalid closing tag near: " ++ (('<' :: rest).take 20).asString)
            | some (tag, len) =>
                match stack with
                | [] => .error ("Mismatched closing tag </" ++ tag ++ ">.")
                | (t, a, kids) :: stack2 =>
                    if t = tag then
                      let r := appendNode stack2 root (.element t a kids)
                      parseLoop fuel (('<' :: rest).drop len) r.1 r.2
                    else .error ("Mismatched closing tag </" ++ tag ++ ">.")
          else
            match matchOpenTag ('<' :: rest) with
            | none =>
                .error ("Invalid opening tag near: " ++ (('<' :: rest).take 20).asString)
            | some (tag, attrs, selfClosing, len) =>
                let pattrs := parseAttrsLoop (attrs.length + 1) attrs
                if selfClosing then
                  let r := appendNode stack root (.element tag pattrs [])
                  parseLoop fuel (('<' :: rest).drop len) r.1 r.2
                else parseLoop fuel (('<' :: rest).drop len) ((tag, pattrs, []) :: stack) root
      | _ :: _ =>
          match findChar '<' rem with
          | none =>
              if (trimChars rem).isEmpty then parseLoop fuel [] stack root
              else
                let r := appendNode stack root (.text rem.asString)
                parseLoop fuel [] r.1 r.2
          | some k =>
              if (trimChars (rem.take k)).isEmpty then parseLoop fuel (rem.drop k) stack root
              else
                let r := appendNode stack root (.text (rem.take k).asString)
                parseLoop fuel (rem.drop k) r.1 r.2

/-- `parseTemplate(templateSource)`: run the loop on the whole source with
an empty stack and root. -/
def parseTemplate (source : String) : Except String (List TemplateNode) :=
  parseLoop (source.length + 1) source.data [] []

/-- Substring test (used to state what an error message does not
contain). -/
def hasSubstr (pat hay : List Char) : Bool :=
  (findSub pat hay).isSome

/-!
## The code generator (`codegen.ts`)

The generator keeps a context of emitted lines, the indent level, a counter
for fresh identifiers and the set of delegated event names.  The mutually
recursive emit functions are totalized by fuel (decremented on every call;
any fuel larger than the tree size is enough, and exhaustion reports
failure).  Literal braces, apostrophes and backticks inside emitted code
are written with `\x7b`, `\x7d`, `\x27`, `\x60` escapes.
-/

/-- A text segment of a transformed text node (`TextSegment`). -/
inductive TSeg where
  | static (value : String)
  | dynamic (expression : String)

/-- A static attribute (`{ name, value }`). -/
structure NamedValue where
  name : String
  value : String

/-- A dynamic binding or event binding (`{ name, expression }`). -/
structure NamedExpr where
  name : String
  expression : String

/-- A parsed `tn-for` expression (`ForDirective`). -/
structure ForExpression where
  itemAlias : String
  indexAlias : Option String
  listExpression : String

/-- The element's directive map; field `dIf` is the source's `if` and so
on (those field names are Lean keywords).  Presence of `dIf`/`dElseIf`
models JS truthiness of the stored expression string. -/
structure DirectiveMap where
  dIf : Option String
  dElseIf : Option String
  dElse : Bool
  dFor : Option ForExpression

mutual
/-- `TransformElementNode`. -/
inductive TransformElementNode where
  | mk (tag : String) (isComponent : Bool) (attributes : List NamedValue)
      (bindings : List NamedExpr) (events : List NamedExpr)
      (directives : DirectiveMap) (children : List TransformNode)

/-- `TransformNode`: a transformed text or element node. -/
inductive TransformNode where
  | text (segments : List TSeg)
  | element (e : TransformElementNode)
end

def TransformElementNode.tag : TransformElementNode → String
  | .mk t _ _ _ _ _ _ => t

def TransformElementNode.isComponent : TransformElementNode → Bool
  | .mk _ c _ _ _ _ _ => c

def TransformElementNode.attributes : TransformElementNode → List NamedValue
  | .mk _ _ a _ _ _ _ => a

def TransformElementNode.bindings : TransformElementNode → List NamedExpr
  | .mk _ _ _ b _ _ _ => b

def TransformElementNode.events : TransformElementNode → List NamedExpr
  | .mk _ _ _ _ ev _ _ => ev

def TransformElementNode.directives : TransformElementNode → DirectiveMap
  | .mk _ _ _ _ _ d _ => d

def TransformElementNode.children : TransformElementNode → List TransformNode
  | .mk _ _ _ _ _ _ ch => ch

/-- `CodegenContext`. -/
structure CodegenContext where
  lines : List String
  indent : Nat
  identifier : Nat
  delegatedEvents : List String

/-- `'  '.repeat(indent)`. -/
def indentRepeat : Nat → String
  | 0 => ""
  | n + 1 => "  " ++ indentRepeat n

/-- `pushLine(context, line)`. -/
def pushLine : CodegenContext → String → CodegenContext
  | ⟨lines, indent, ident, ev⟩, line =>
      ⟨lines ++ [indentRepeat indent ++ line], indent, ident, ev⟩

/-- `context.indent += 1`. -/
def indentInc : CodegenContext → CodegenContext
  | ⟨lines, indent, ident, ev⟩ => ⟨lines, indent + 1, ident, ev⟩

/-- `context.indent -= 1`. -/
def indentDec : CodegenContext → CodegenContext
  | ⟨lines, indent, ident, ev⟩ => ⟨lines, indent - 1, ident, ev⟩

/-- `context.delegatedEvents.add(name)`. -/
def addDelegated : CodegenContext → String → CodegenContext
  | ⟨lines, indent, ident, ev⟩, name => ⟨lines, indent, ident, setAdd ev name⟩

/-- `createIdentifier(context, base)`. -/
def createIdentifier : CodegenContext → String → CodegenContext × String
  | ⟨lines, indent, ident, ev⟩, base =>
      (⟨lines, indent, ident + 1, ev⟩, "__" ++ base ++ toString ident)

/-- `declareNode(context, expression)`. -/
def declareNode (ctx : CodegenContext) (expression : String) : CodegenContext × String :=
  match createIdentifier ctx "node" with
  | (ctx1, name) => (pushLine ctx1 ("const " ++ name ++ " = " ++ expression ++ ";"), name)

/-- `JSON.stringify` escaping for one character (the escapes relevant to
generated code). -/
def jsonEscChar (c : Char) : List Char :=
  if c = '"' then ['\\', '"']
  else if c = '\\' then ['\\', '\\']
  else if c = '\n' then ['\\', 'n']
  else if c = '\r' then ['\\', 'r']
  else if c = '\t' then ['\\', 't']
  else [c]

/-- `JSON.stringify` of a string. -/
def jsonString (s : String) : String :=
  "\"" ++ ((s.data.map jsonEscChar).flatten).asString ++ "\""

/-- `String.prototype.trim` on `String`. -/
def trimStr (s : String) : String :=
  (trimChars s.data).asString

/-- `name.toLowerCase()`. -/
def lowerStr (s : String) : String :=
  (s.data.map Char.toLower).asString

/-- `name.charAt(0).toUpperCase() + name.slice(1)`. -/
def capitalizeJs (s : String) : String :=
  match s.data with
  | [] => ""
  | c :: rest => (c.toUpper :: rest).asString

/-- JS `\w`. -/
def isWordChar (c : Char) : Bool :=
  c.isAlphanum || c = '_'

/-- `String.prototype.startsWith` (on the character lists, so that it
evaluates by reduction). -/
def strStarts (s pre : String) : Bool :=
  pre.data.isPrefixOf s.data

/-- `String.prototype.slice(n)` on characters. -/
def strDrop (s : String) (n : Nat) : String :=
  (s.data.drop n).asString

/-- The regex test `^\w+\s*=>` (arrow function head). -/
def arrowHead (s : String) : Bool :=
  let ws := s.data.takeWhile isWordChar
  !ws.isEmpty && ['=', '>'].isPrefixOf ((s.data.drop ws.length).dropWhile isJsSpace)

/-- `toEventHandler(expression)`: a bare identifier (regex `^\w+$`) is
emitted verbatim; an expression that already starts like a function —
with `(`, with `function`, or matching `^\w+\s*=>` — is emitted verbatim;
anything else is wrapped as an arrow function with an `event` parameter. -/
def toEventHandler (expression : String) : String :=
  let trimmed := trimStr expression
  if !trimmed.data.isEmpty && trimmed.data.all isWordChar then trimmed
  else if strStarts trimmed "(" || strStarts trimmed "function" || arrowHead trimmed then
    trimmed
  else "(event) => \x7b " ++ trimmed ++ "; \x7d"

/-- Modelled from the spec (claim C10's wording): the generated handler is
the binding expression verbatim when the trimmed expression is a bare
identifier or already starts like a function/arrow expression; any other
expression is wrapped as an `(event) => ...` arrow whose body is the
expression followed by `;`. -/
def eventHandlerSpec (expression : String) : String :=
  let trimmed := trimStr expression
  if (!trimmed.data.isEmpty && trimmed.data.all isWordChar) ||
      (strStarts trimmed "(" || strStarts trimmed "function" || arrowHead trimmed) then
    trimmed
  else "(event) => \x7b " ++ trimmed ++ "; \x7d"

/-- `removeControlFlow(node)`: same node with an empty directive map. -/
def removeControlFlow (e : TransformElementNode) : TransformElementNode :=
  .mk e.tag e.isComponent e.attributes e.bindings e.events ⟨none, none, false, none⟩ e.children

/-- Whether a transform node is a text node all of whose segments are
static whitespace (the inter-branch filler skipped by chain collection). -/
def isWhitespaceText : TransformNode → Bool
  | .text segs =>
      segs.all (fun s =>
        match s with
        | .static v => (trimChars v.data).isEmpty
        | .dynamic _ => false)
  | .element _ => false

/-- The chain-collection loop of `emitChildren`: walk the siblings after a
`tn-if` element, skipping whitespace-only text, collecting `tn-else-if`
elements (and stopping right after a `tn-else` element); returns the
collected branches and the remaining siblings. -/
def collectChain : List TransformNode → List TransformElementNode × List TransformNode
  | [] => ([], [])
  | n :: rest =>
      if isWhitespaceText n then collectChain rest
      else
        match n with
        | .element e =>
            if e.directives.dElse then ([e], rest)
            else if e.directives.dElseIf.isSome then
              match collectChain rest with
              | (branches, remaining) => (e :: branches, remaining)
            else ([], n :: rest)
        | .text _ => ([], n :: rest)

/-- `emitTextNode`: declare a text node, append it, then either set static
data once or wrap the interpolation in an effect. -/
def emitTextNode (ctx : CodegenContext) (segments : List TSeg) (parentName : String) :
    CodegenContext :=
  match declareNode ctx "document.createTextNode(\x27\x27)" with
  | (ctx0, name) =>
      let ctx1 := pushLine ctx0 (parentName ++ ".append(" ++ name ++ ");")
      let hasDynamic := segments.any (fun s =>
        match s with
        | .dynamic _ => true
        | .static _ => false)
      if !hasDynamic then
        let staticValue := String.join (segments.map (fun s =>
          match s with
          | .static v => v
          | .dynamic _ => ""))
        pushLine ctx1 (name ++ ".data = " ++ jsonString staticValue ++ ";")
      else
        let ctx2 := indentInc (pushLine ctx1 "createEffect(() => \x7b")
        let valueExpression := String.intercalate " + " (segments.map (fun s =>
          match s with
          | .static v => jsonString v
          | .dynamic ex => "String(" ++ ex ++ ")"))
        let ctx4 := pushLine ctx2 (name ++ ".data = " ++ valueExpression ++ ";")
        pushLine (indentDec ctx4) "\x7d);"

/-- The static-attribute loop of `emitPlainElement`. -/
def emitAttrs (el : String) : CodegenContext → List NamedValue → CodegenContext
  | ctx, [] => ctx
  | ctx, a :: rest =>
      emitAttrs el
        (pushLine ctx (el ++ ".setAttribute(" ++ jsonString a.name ++ ", " ++
          jsonString a.value ++ ");"))
        rest

/-- The dynamic-binding loop of `emitPlainElement`: each binding becomes an
effect that removes the attribute on `null`/`false` and sets the
stringified value otherwise. -/
def emitBindings (el : String) : CodegenContext → List NamedExpr → CodegenContext
  | ctx, [] => ctx
  | ctx, b :: rest =>
      match createIdentifier (indentInc (pushLine ctx "createEffect(() => \x7b")) "attrValue" with
      | (ctx2, vname) =>
          let ctx3 := pushLine ctx2 ("const " ++ vname ++ " = " ++ b.expression ++ ";")
          let ctx4 := indentInc (pushLine ctx3
            ("if (" ++ vname ++ " == null || " ++ vname ++ " === false) \x7b"))
          let ctx6 := pushLine ctx4 (el ++ ".removeAttribute(" ++ jsonString b.name ++ ");")
          let ctx8 := indentInc (pushLine (indentDec ctx6) "\x7d else \x7b")
          let ctx10 := pushLine ctx8 (el ++ ".setAttribute(" ++ jsonString b.name ++
            ", String(" ++ vname ++ "));")
          let ctx12 := pushLine (indentDec ctx10) "\x7d"
          emitBindings el (pushLine (indentDec ctx12) "\x7d);") rest

/-- The event loop of `emitPlainElement`: record the lowercased event name
for delegation and assign `toEventHandler` of the expression into the
element's delegated-handler table. -/
def emitEvents (el : String) : CodegenContext → List NamedExpr → CodegenContext
  | ctx, [] => ctx
  | ctx, ev :: rest =>
      let ctx1 := addDelegated ctx (lowerStr ev.name)
      let ctx2 := pushLine ctx1 (el ++ ".__tnDelegatedHandlers ??= \x7b\x7d;")
      let ctx3 := pushLine ctx2 (el ++ ".__tnDelegatedHandlers[" ++
        jsonString (lowerStr ev.name) ++ "] = " ++ toEventHandler ev.expression ++ ";")
      emitEvents el ctx3 rest

/-- The prop-entry list of `emitComponentElement`: static attributes as
JSON pairs, bindings as getters, events as `on`-capitalized props whose
value is `toEventHandler` of the expression. -/
def propEntriesOf (e : TransformElementNode) : List String :=
  e.attributes.map (fun a => jsonString a.name ++ ": " ++ jsonString a.value) ++
  e.bindings.map (fun b =>
    "get " ++ jsonString b.name ++ "() \x7b return " ++ b.expression ++ "; \x7d") ++
  e.events.map (fun ev =>
    jsonString ("on" ++ capitalizeJs ev.name) ++ ": " ++ toEventHandler ev.expression)

mutual
/-- `emitChildren`: walk the child list; a `tn-if` element starts a
conditional chain (collected with `collectChain` and emitted once for the
whole chain); an orphan `tn-else-if`/`tn-else` is a fatal error; everything
else goes through `emitNode`. -/
def emitChildren : Nat → CodegenContext → List TransformNode → String → CodegenContext × Bool
  | 0, ctx, _, _ => (ctx, false)
  | fuel + 1, ctx, children, parentName =>
      match children with
      | [] => (ctx, true)
      | child :: rest =>
          match child with
          | .element e =>
              if e.directives.dIf.isSome then
                match collectChain rest with
                | (branches, remaining) =>
                    match emitConditionalChain fuel ctx (e :: branches) parentName with
                    | (c, true) => emitChildren fuel c remaining parentName
                    | (c, false) => (c, false)
              else if e.directives.dElseIf.isSome || e.directives.dElse then (ctx, false)
              else
                match emitNode fuel ctx child parentName with
                | (c, true) => emitChildren fuel c rest parentName
                | (c, false) => (c, false)
          | .text _ =>
              match emitNode fuel ctx child parentName with
              | (c, true) => emitChildren fuel c rest parentName
              | (c, false) => (c, false)

/-- `emitNode`: text, `tn-for`, lone `tn-if`, or a plain element. -/
def emitNode : Nat → CodegenContext → TransformNode → String → CodegenContext × Bool
  | 0, ctx, _, _ => (ctx, false)
  | fuel + 1, ctx, node, parentName =>
      match node with
      | .text segs => (emitTextNode ctx segs parentName, true)
      | .element e =>
          if e.directives.dFor.isSome then emitForNode fuel ctx e parentName
          else if e.directives.dIf.isSome then emitConditionalChain fuel ctx [e] parentName
          else emitPlainElement fuel ctx e parentName

/-- `emitPlainElement`: components are delegated; a DOM element is
declared, appended, then attributes, bindings, events and children are
emitted. -/
def emitPlainElement : Nat → CodegenContext → TransformElementNode → String →
    CodegenContext × Bool
  | 0, ctx, _, _ => (ctx, false)
  | fuel + 1, ctx, e, parentName =>
      if e.isComponent then emitComponentElement fuel ctx e parentName
      else
        match declareNode ctx ("document.createElement(" ++ jsonString e.tag ++ ")") with
        | (ctx0, el) =>
            let ctx1 := pushLine ctx0 (parentName ++ ".append(" ++ el ++ ");")
            let ctx2 := emitAttrs el ctx1 e.attributes
            let ctx3 := emitBindings el ctx2 e.bindings
            let ctx4 := emitEvents el ctx3 e.events
            emitChildren fuel ctx4 e.children el

/-- `emitComponentElement`: build the prop entries, declare the component
call, append it, then emit the children into it. -/
def emitComponentElement : Nat → CodegenContext → TransformElementNode → String →
    CodegenContext × Bool
  | 0, ctx, _, _ => (ctx, false)
  | fuel + 1, ctx, e, parentName =>
      let propEntries := propEntriesOf e
      let propsArg :=
        if propEntries.length > 0 then
          "\x7b " ++ String.intercalate ", " propEntries ++ " \x7d"
        else "\x7b\x7d"
      match declareNode ctx (e.tag ++ "(" ++ propsArg ++ ")") with
      | (ctx0, cname) =>
          let ctx1 := pushLine ctx0 (parentName ++ ".append(" ++ cname ++ ");")
          emitChildren fuel ctx1 e.children cname

/-- `emitConditionalChain`: exactly one `tn-if` marker comment is declared
and appended for the whole chain, then a single effect re-renders the
first matching branch between the clause headers emitted by
`emitChainBranches`. -/
def emitConditionalChain : Nat → CodegenContext → List TransformElementNode → String →
    CodegenContext × Bool
  | 0, ctx, _, _ => (ctx, false)
  | fuel + 1, ctx, chain, parentName =>
      match declareNode ctx "document.createComment(\x27tn-if\x27)" with
      | (ctx0, endMarker) =>
          let ctx1 := pushLine ctx0 (parentName ++ ".append(" ++ endMarker ++ ");")
          match createIdentifier ctx1 "ifNodes" with
          | (ctxA, nodesName) =>
              let ctx2 := pushLine ctxA ("let " ++ nodesName ++ " = [];")
              let ctx4 := indentInc (pushLine ctx2 "createEffect(() => \x7b")
              let ctx6 := indentInc (pushLine ctx4
                ("for (const __n of " ++ nodesName ++ ") \x7b"))
              let ctx7 := pushLine ctx6 ("if (__n.parentNode === " ++ parentName ++ ") " ++
                parentName ++ ".removeChild(__n);")
              let ctx9 := pushLine (indentDec ctx7) "\x7d"
              let ctx10 := pushLine ctx9 (nodesName ++ " = [];")
              match emitChainBranches fuel ctx10 chain parentName endMarker nodesName with
              | (c, true) =>
                  let ctx11 := pushLine c "\x7d"
                  (pushLine (indentDec ctx11) "\x7d);", true)
              | (c, false) => (c, false)

/-- The branch loop of `emitConditionalChain`: one clause header per
branch (`if` for the head's `tn-if`, `else if` per `tn-else-if`, bare
`else` otherwise), then the branch element — directives cleared — rendered
into a fragment and spliced in before the marker. -/
def emitChainBranches : Nat → CodegenContext → List TransformElementNode → String → String →
    String → CodegenContext × Bool
  | 0, ctx, _, _, _, _ => (ctx, false)
  | fuel + 1, ctx, chain, parentName, endMarker, nodesName =>
      match chain with
      | [] => (ctx, true)
      | b :: rest =>
          let ctx1 :=
            match b.directives.dIf with
            | some e => pushLine ctx ("if (" ++ e ++ ") \x7b")
            | none =>
                match b.directives.dElseIf with
                | some e => pushLine ctx ("\x7d else if (" ++ e ++ ") \x7b")
                | none => pushLine ctx "\x7d else \x7b"
          match declareNode (indentInc ctx1) "document.createDocumentFragment()" with
          | (ctxF, frag) =>
              match emitPlainElement fuel ctxF (removeControlFlow b) frag with
              | (c, true) =>
                  match createIdentifier c "branchNodes" with
                  | (ctxB, bn) =>
                      let ctx3 := pushLine ctxB ("const " ++ bn ++ " = Array.from(" ++ frag ++
                        ".childNodes);")
                      let ctx4 := pushLine ctx3 ("for (const __n of " ++ bn ++ ") " ++
                        parentName ++ ".insertBefore(__n, " ++ endMarker ++ ");")
                      let ctx5 := pushLine ctx4 (nodesName ++ " = " ++ bn ++ ";")
                      emitChainBranches fuel (indentDec ctx5) rest parentName endMarker
                        nodesName
              | (c, false) => (c, false)

/-- `emitForNode`: marker comment, closure-local node list, and one effect
that re-renders the whole list. -/
def emitForNode : Nat → CodegenContext → TransformElementNode → String → CodegenContext × Bool
  | 0, ctx, _, _ => (ctx, false)
  | fuel + 1, ctx, e, parentName =>
      match e.directives.dFor with
      | none => (ctx, true)
      | some fd =>
          match declareNode ctx "document.createComment(\x27tn-for\x27)" with
          | (ctx0, endMarker) =>
              let ctx1 := pushLine ctx0 (parentName ++ ".append(" ++ endMarker ++ ");")
              match createIdentifier ctx1 "forNodes" with
              | (ctxA, renderedName) =>
                  let ctx2 := pushLine ctxA ("let " ++ renderedName ++ " = [];")
                  let ctx4 := indentInc (pushLine ctx2 "createEffect(() => \x7b")
                  let ctx6 := indentInc (pushLine ctx4
                    ("for (const node of " ++ renderedName ++ ") \x7b"))
                  let ctx7 := pushLine ctx6 ("if (node.parentNode === " ++ parentName ++
                    ") " ++ parentName ++ ".removeChild(node);")
                  let ctx9 := pushLine (indentDec ctx7) "\x7d"
                  let ctx10 := pushLine ctx9 (renderedName ++ " = [];")
                  match createIdentifier ctx10 "forList" with
                  | (ctxB, listName) =>
                      let ctx11 := pushLine ctxB ("const " ++ listName ++ " = " ++
                        fd.listExpression ++ " ?? [];")
                      let ctx13 := indentInc (pushLine ctx11
                        ("for (let __i = 0; __i < " ++ listName ++ ".length; __i += 1) \x7b"))
                      let ctx14 := pushLine ctx13 ("const " ++ fd.itemAlias ++ " = " ++
                        listName ++ "[__i];")
                      let ctx15 :=
                        match fd.indexAlias with
                        | some ia => pushLine ctx14 ("const " ++ ia ++ " = __i;")
                        | none => ctx14
                      match declareNode ctx15 "document.createDocumentFragment()" with
                      | (ctxC, frag) =>
                          match emitPlainElement fuel ctxC (removeControlFlow e) frag with
                          | (c, true) =>
                              match createIdentifier c "loopNodes" with
                              | (ctxD, ln) =>
                                  let ctx16 := pushLine ctxD ("const " ++ ln ++
                                    " = Array.from(" ++ frag ++ ".childNodes);")
                                  let ctx17 := pushLine ctx16 ("for (const node of " ++ ln ++
                                    ") " ++ parentName ++ ".insertBefore(node, " ++
                                    endMarker ++ ");")
                                  let ctx18 := pushLine ctx17 (renderedName ++ ".push(..." ++
                                    ln ++ ");")
                                  let ctx20 := pushLine (indentDec ctx18) "\x7d"
                                  (pushLine (indentDec ctx20) "\x7d);", true)
                          | (c, false) => (c, false)
end

/-- Number of emitted lines satisfying a predicate. -/
def countLines (p : String → Bool) (ls : List String) : Nat :=
  (ls.filter p).length

/-- Whether a line mentions the conditional marker comment. -/
def markerLine (l : String) : Bool :=
  hasSubstr ("document.createComment(\x27tn-if\x27)".data) l.data

/-- An empty generation context. -/
def emptyCtx : CodegenContext :=
  { lines := [], indent := 0, identifier := 0, delegatedEvents := [] }

/-- The marker-declaration content test on a character list: `const __node`,
a nonempty digit string (the identifier counter), then exactly
` = document.createComment('tn-if');`. -/
def markerCore (t : List Char) : Bool :=
  ("const __node".data.isPrefixOf t &&
    !((t.drop 12).takeWhile Char.isDigit).isEmpty) &&
  decide ((t.drop 12).dropWhile Char.isDigit =
    " = document.createComment(\x27tn-if\x27);".data)

/-- Whether a line is exactly the declaration of a conditional-chain
marker comment: optional two-space indentation, then `const __node`, the
numeric identifier, then ` = document.createComment('tn-if');`. -/
def isMarkerDeclLine (l : String) : Bool :=
  markerCore (l.data.dropWhile (fun c => c = ' '))

/-- A generated line other than a clause header or a marker declaration:
it is not a marker declaration, and it consists of indentation at least
`k` followed by content starting with a non-space character. -/
def BodyLine (k : Nat) (l : String) : Prop :=
  isMarkerDeclLine l = false ∧
  ∃ (j : Nat) (c : String), k ≤ j ∧ c.data.head? ≠ some ' ' ∧ c ≠ "" ∧
    l = indentRepeat j ++ c

/-- The clause header emitted by `emitChainBranches` for one branch:
`if` for a `tn-if` branch, `else if` for a `tn-else-if` branch, bare
`else` otherwise (the source's dispatch order). -/
def branchHeader (b : TransformElementNode) : String :=
  match b.directives.dIf with
  | some e => "if (" ++ e ++ ") \x7b"
  | none =>
      match b.directives.dElseIf with
      | some e => "\x7d else if (" ++ e ++ ") \x7b"
      | none => "\x7d else \x7b"

/-- The shape of the sibling tail that completes a conditional chain:
whitespace-only text nodes are skipped, `tn-else-if` elements (no `tn-if`,
no `tn-else`) are collected in order, and a final `tn-else` element
(no `tn-if`, no `tn-else-if`) closes the chain, leaving the remaining
siblings untouched. -/
inductive ChainTail : List TransformNode → List TransformElementNode → List TransformNode →
    Prop where
  | last (e : TransformElementNode) (rest : List TransformNode)
      (h1 : e.directives.dIf = none) (h2 : e.directives.dElseIf = none)
      (h3 : e.directives.dElse = true) :
      ChainTail (.element e :: rest) [e] rest
  | ws (n : TransformNode) (sibs : List TransformNode) (bs : List TransformElementNode)
      (rest : List TransformNode) (hw : isWhitespaceText n = true)
      (ht : ChainTail sibs bs rest) : ChainTail (n :: sibs) bs rest
  | elseIf (e : TransformElementNode) (s : String) (sibs : List TransformNode)
      (bs : List TransformElementNode) (rest : List TransformNode)
      (h1 : e.directives.dIf = none) (h2 : e.directives.dElseIf = some s)
      (h3 : e.directives.dElse = false) (ht : ChainTail sibs bs rest) :
      ChainTail (.element e :: sibs) (e :: bs) rest

mutual
/-- A transform node free of control-flow directives, recursively. -/
inductive PlainN : TransformNode → Prop where
  | text (segs : List TSeg) : PlainN (.text segs)
  | element (e : TransformElementNode) (h : PlainE e) : PlainN (.element e)

/-- An element whose directive map is empty and whose children are plain. -/
inductive PlainE : TransformElementNode → Prop where
  | mk (tag : String) (comp : Bool) (attrs : List NamedValue)
      (binds evs : List NamedExpr) (children : List TransformNode)
      (h : PlainL children) :
      PlainE (.mk tag comp attrs binds evs ⟨none, none, false, none⟩ children)

/-- A list of plain transform nodes. -/
inductive PlainL : List TransformNode → Prop where
  | nil : PlainL []
  | cons (n : TransformNode) (rest : List TransformNode) (h1 : PlainN n)
      (h2 : PlainL rest) : PlainL (n :: rest)
end

/-- The invariant of a plain-content emission: the indentation level is
restored and every added line is a `BodyLine` of the entry indentation. -/
def EmitSpec (ctx r : CodegenContext) : Prop :=
  r.indent = ctx.indent ∧
  ∃ added, r.lines = ctx.lines ++ added ∧ ∀ l ∈ added, BodyLine ctx.indent l

/-!
## The template transformer (`transformNode`)

The attribute-classification loop is translated from the source
`transformNode`; the current revision's `tn-else-if`/`tn-else` handling is
not present under `src/`, so those two branches are modelled from the
spec (see `transformAttrsLoop`).
-/

/-- JS truthiness of an optional attribute value (`!attr.value`): absent
and empty string are both falsy. -/
def hasVal : Option String → Bool
  | none => false
  | some v => !(v == "")

/-- The component test, regex `^[A-Z]`. -/
def startsUpper (s : String) : Bool :=
  match s.data with
  | [] => false
  | c :: _ => c.isUpper

/-- `parseForDirective(value)`: the regex
`^\s*(\w+)(?:\s*,\s*(\w+))?\s+in\s+(.+)\s*$` — item alias, optional index
alias, then the list expression (trimmed). -/
def parseForDirective (value : String) : Except String ForExpression :=
  let fail : Except String ForExpression :=
    .error ("Invalid tn-for expression \"" ++ value ++
      "\". Expected \"item in list\" or \"item, index in list\".")
  let s1 := value.data.dropWhile isJsSpace
  let ident := s1.takeWhile isWordChar
  if ident.isEmpty then fail
  else
    let rest := s1.drop ident.length
    let restA := rest.dropWhile isJsSpace
    let withIdx : Option (Option String × List Char) :=
      match restA with
      | ',' :: r2 =>
          let r3 := r2.dropWhile isJsSpace
          let ident2 := r3.takeWhile isWordChar
          if ident2.isEmpty then none
          else some (some ident2.asString, r3.drop ident2.length)
      | _ => some (none, rest)
    match withIdx with
    | none => fail
    | some (idx, afterAliases) =>
        let sp1 := afterAliases.takeWhile isJsSpace
        let afterSp := afterAliases.drop sp1.length
        if sp1.isEmpty then fail
        else if ['i', 'n'].isPrefixOf afterSp then
          let afterIn := afterSp.drop 2
          let sp2 := afterIn.takeWhile isJsSpace
          let expr := afterIn.drop sp2.length
          if sp2.isEmpty || expr.isEmpty then fail
          else .ok ⟨ident.asString, idx, (trimChars expr).asString⟩
        else fail

/-- Find the next `{{ expr }}` interpolation (regex
`\x7b\x7b\s*([^\x7d]+?)\s*\x7d\x7d`): returns its start, the trimmed
expression, and the position right after the closing braces. -/
def findInterp : Nat → List Char → Option (Nat × String × Nat)
  | 0, _ => none
  | _ + 1, [] => none
  | fuel + 1, cs@(_ :: rest) =>
      if ['\x7b', '\x7b'].isPrefixOf cs then
        let after := cs.drop 2
        let run := after.takeWhile (fun c => !(c = '\x7d'))
        if !run.isEmpty && ['\x7d', '\x7d'].isPrefixOf (after.drop run.length) then
          some (0, (trimChars run).asString, 2 + run.length + 2)
        else (findInterp fuel rest).map (fun r => (r.1 + 1, r.2.1, r.2.2 + 1))
      else (findInterp fuel rest).map (fun r => (r.1 + 1, r.2.1, r.2.2 + 1))

/-- `splitTextSegments(content)`: alternate static runs and interpolation
expressions, in order. -/
def splitTextSegments : Nat → List Char → List TSeg
  | 0, cs => if cs.isEmpty then [] else [.static cs.asString]
  | fuel + 1, cs =>
      match findInterp (cs.length + 1) cs with
      | none => if cs.isEmpty then [] else [.static cs.asString]
      | some (start, expr, stop) =>
          (if 0 < start then [TSeg.static (cs.take start).asString] else []) ++
          TSeg.dynamic expr :: splitTextSegments fuel (cs.drop stop)

/-- `transformText(content)`: split into segments; content with no
interpolation markers becomes a single static segment. -/
def transformText (content : String) : List TSeg :=
  let segments := splitTextSegments (content.length + 1) content.data
  if segments.length > 0 then segments else [.static content]

/-- The attribute-classification loop of `transformNode`, carried
accumulators mirroring the source's pushes, in priority order `tn-if`,
`tn-for`, then `:`-bindings, `@`-events, and static attributes.
Modelled from the spec: the `tn-else-if` and `tn-else` branches (the
current transformer revision is not under `src/`) — `tn-else-if` requires
an expression and records it in the directive map; `tn-else` requires no
expression and records a boolean marker; neither becomes a static
attribute. -/
def transformAttrsLoop (dirs : DirectiveMap) (attrs : List NamedValue)
    (binds evs : List NamedExpr) :
    List RawAttribute →
      Except String (DirectiveMap × List NamedValue × List NamedExpr × List NamedExpr)
  | [] => .ok (dirs, attrs, binds, evs)
  | a :: rest =>
      if a.name == "tn-if" then
        if hasVal a.value then
          transformAttrsLoop { dirs with dIf := some (a.value.getD "") } attrs binds evs rest
        else .error "tn-if requires an expression value."
      else if a.name == "tn-for" then
        if hasVal a.value then
          match parseForDirective (a.value.getD "") with
          | .error e => .error e
          | .ok fd =>
              transformAttrsLoop { dirs with dFor := some fd } attrs binds evs rest
        else .error "tn-for requires an expression value."
      else if a.name == "tn-else-if" then
        if hasVal a.value then
          transformAttrsLoop { dirs with dElseIf := some (a.value.getD "") } attrs binds evs
            rest
        else .error "tn-else-if requires an expression value."
      else if a.name == "tn-else" then
        transformAttrsLoop { dirs with dElse := true } attrs binds evs rest
      else if strStarts a.name ":" then
        if hasVal a.value then
          transformAttrsLoop dirs attrs
            (binds ++ [⟨strDrop a.name 1, a.value.getD ""⟩]) evs rest
        else .error (a.name ++ " requires an expression value.")
      else if strStarts a.name "@" then
        if hasVal a.value then
          transformAttrsLoop dirs attrs binds
            (evs ++ [⟨strDrop a.name 1, a.value.getD ""⟩]) rest
        else .error (a.name ++ " requires an event handler expression.")
      else transformAttrsLoop dirs (attrs ++ [⟨a.name, a.value.getD ""⟩]) binds evs rest

mutual
/-- `transformNode(node)`: text nodes are segmented; elements classify
every raw attribute exactly once through `transformAttrsLoop`, mark
components by leading uppercase, and recurse into children. -/
def transformNode : Nat → TemplateNode → Except String TransformNode
  | 0, _ => .error "Transform fuel exhausted."
  | _ + 1, .text content => .ok (.text (transformText content))
  | fuel + 1, .element tag rawAttrs children =>
      match transformAttrsLoop ⟨none, none, false, none⟩ [] [] [] rawAttrs with
      | .error e => .error e
      | .ok (dirs, attrs, binds, evs) =>
          match transformChildren fuel children with
          | .error e => .error e
          | .ok tchildren =>
              .ok (.element (.mk tag (startsUpper tag) attrs binds evs dirs tchildren))

/-- `node.children.map(transformNode)` with error propagation. -/
def transformChildren : Nat → List TemplateNode → Except String (List TransformNode)
  | 0, _ => .error "Transform fuel exhausted."
  | _ + 1, [] => .ok []
  | fuel + 1, n :: rest =>
      match transformNode fuel n with
      | .error e => .error e
      | .ok tn =>
          match transformChildren fuel rest with
          | .error e => .error e
          | .ok trest => .ok (tn :: trest)
end

/-- The head branch of the witness chain (`tn-if="n() > 10"`). -/
def c4Head : TransformElementNode :=
  .mk "p" false [] [] [] ⟨some "n() > 10", none, false, none⟩ [.text [.static "High"]]

/-- A whitespace-only text sibling between chain branches. -/
def c4Ws : TransformNode := .text [.static " "]

/-- First `tn-else-if` branch of the witness chain. -/
def c4ElseIf1 : TransformElementNode :=
  .mk "p" false [] [] [] ⟨none, some "n() > 5", false, none⟩ [.text [.static "Medium"]]

/-- Second `tn-else-if` branch of the witness chain. -/
def c4ElseIf2 : TransformElementNode :=
  .mk "p" false [] [] [] ⟨none, some "n() > 3", false, none⟩ [.text [.static "Low"]]

/-- The final `tn-else` branch of the witness chain. -/
def c4Else : TransformElementNode :=
  .mk "p" false [] [] [] ⟨none, none, true, none⟩ [.text [.static "Tiny"]]

/-- The sibling tail after the head: whitespace-only text between two
`tn-else-if` elements and the final `tn-else` element. -/
def c4Sibs : List TransformNode :=
  [c4Ws, .element c4ElseIf1, c4Ws, .element c4ElseIf2, c4Ws, .element c4Else]

/-- The branches collected from `c4Sibs`. -/
def c4Branches : List TransformElementNode := [c4ElseIf1, c4ElseIf2, c4Else]

/-- Component element used as the concrete event-prop input. -/
def c10Component : TransformElementNode :=
  .mk "Counter" true [] [] [⟨"click", "count.set(count() + 1)"⟩] ⟨none, none, false, none⟩ []

/-!
## Theorems

Lemmas about the reactive engine, followed by one theorem per claim
(plus counterexamples / witnesses where required).
-/

theorem setAdd_mem {α : Type} [DecidableEq α] (xs : List α) (x y : α) :
    y ∈ setAdd xs x ↔ y ∈ xs ∨ y = x := by
  by_cases h : x ∈ xs
  · simp only [setAdd, if_pos h]
    constructor
    · exact fun hy => Or.inl hy
    · rintro (hy | rfl) <;> [exact hy; exact h]
  · simp [setAdd, if_neg h]

theorem setAdd_nodup {α : Type} [DecidableEq α] (xs : List α) (x : α) (h : xs.Nodup) :
    (setAdd xs x).Nodup := by
  by_cases hx : x ∈ xs
  · simpa [setAdd, hx] using h
  · simp only [setAdd, if_neg hx]
    refine List.Nodup.append h (List.nodup_singleton x) ?_
    intro a ha hax
    rw [List.mem_singleton] at hax
    exact hx (hax ▸ ha)

theorem setDel_nodup {α : Type} [DecidableEq α] (xs : List α) (x : α) (h : xs.Nodup) :
    (setDel xs x).Nodup := List.Nodup.filter _ h

theorem not_mem_setDel_self {α : Type} [DecidableEq α] (xs : List α) (x : α) :
    x ∉ setDel xs x := by
  simp [setDel]

theorem foldl_setAdd_mem {α : Type} [DecidableEq α] (rs : List α) (l : List α) (x : α) :
    x ∈ List.foldl setAdd l rs ↔ x ∈ l ∨ x ∈ rs := by
  induction rs generalizing l with
  | nil => simp
  | cons r rest ih =>
      rw [List.foldl_cons, ih, setAdd_mem]
      simp only [List.mem_cons]
      tauto

theorem foldl_setAdd_nodup {α : Type} [DecidableEq α] (rs : List α) (l : List α)
    (h : l.Nodup) : (List.foldl setAdd l rs).Nodup := by
  induction rs generalizing l with
  | nil => exact h
  | cons r rest ih => exact ih _ (setAdd_nodup _ _ h)

theorem countEv_append (e : Ev) (l1 l2 : List Ev) :
    countEv e (l1 ++ l2) = countEv e l1 + countEv e l2 := by
  simp [countEv, List.filter_append]

theorem countEv_clean_map (j : Nat) (vs : List Value) (cs : List Nat) :
    countEv (.effRun j vs) (cs.map Ev.clean) = 0 := by
  induction cs with
  | nil => rfl
  | cons c rest ih => simpa [countEv, List.filter] using ih

theorem writtenState_log (s : RState) (i : Nat) (v : Value) :
    (writtenState s i v).log = s.log := rfl

theorem writtenState_cleanups (s : RState) (i : Nat) (v : Value) :
    (writtenState s i v).cleanups = s.cleanups := rfl

theorem write_noop (fuel : Nat) (w : World) (s : RState) (i : Nat) (v : Value)
    (h : v = s.sigVal i) : Signal.write fuel w s i v = (s, true) := by
  simp [Signal.write, h]

theorem write_change (fuel : Nat) (w : World) (s : RState) (i : Nat) (v : Value)
    (h : v ≠ s.sigVal i) :
    Signal.write fuel w s i v =
      notifySubscribers fuel w (writtenState s i v) ((writtenState s i v).sigSubs i) := by
  simp [Signal.write, h, writtenState]

theorem modifySubs_cur (s : RState) (src : Src) (f : List Comp → List Comp) :
    (modifySubs s src f).cur = s.cur := by
  cases src <;> rfl

theorem trackDependency_cur (s : RState) (src : Src) :
    (trackDependency s src).cur = s.cur := by
  cases h : s.cur <;> simp [trackDependency, h, modifySubs_cur]

theorem unsubscribeAll_cur (c : Comp) (s : RState) (l : List Src) :
    (unsubscribeAll c s l).cur = s.cur := by
  induction l generalizing s with
  | nil => rfl
  | cons src rest ih => rw [unsubscribeAll, ih, modifySubs_cur]

theorem fireCleanups_cur (s : RState) (l : List Nat) :
    (fireCleanups s l).cur = s.cur := by
  induction l generalizing s with
  | nil => rfl
  | cons t rest ih => rw [fireCleanups, ih]

theorem cleanupComputation_cur (s : RState) (c : Comp) :
    (cleanupComputation s c).cur = s.cur := by
  unfold cleanupComputation
  rw [fireCleanups_cur]
  simp [unsubscribeAll_cur]

theorem runEBody_cur (b : EBody) (s : RState) (tr : List (Src × Value)) :
    (runEBody s b tr).1.cur = s.cur := by
  induction b generalizing s tr with
  | done => rfl
  | readS i k ih => rw [runEBody, ih, trackDependency_cur]
  | readM i k ih => rw [runEBody, ih, trackDependency_cur]
  | reg tok k ih =>
      rw [runEBody]
      cases h : s.cur with
      | none => simp [h]
      | some c => simp [h, ih]
  | throwE => rfl

theorem runMBody_cur (b : MBody) (s : RState) (tr : List (Src × Value)) :
    (runMBody s b tr).1.cur = s.cur := by
  induction b generalizing s tr with
  | ret v => rfl
  | readS i k ih => rw [runMBody, ih, trackDependency_cur]
  | readM i k ih => rw [runMBody, ih, trackDependency_cur]
  | throwM => rfl

theorem runQueue_cur (step : RState → Comp → RState × Bool)
    (hstep : ∀ s c, (step s c).1.cur = s.cur) (s : RState) (q : List Comp) :
    (runQueue step s q).1.cur = s.cur := by
  induction q generalizing s with
  | nil => rfl
  | cons c rest ih =>
      rw [runQueue]
      by_cases hb : (step s c).2
      · simp only [hb, if_true]
        rw [ih, hstep]
      · simp only [hb]
        simp [hstep]

theorem setAdd_idem {α : Type} [DecidableEq α] (xs : List α) (x : α) :
    setAdd (setAdd xs x) x = setAdd xs x := by
  by_cases h : x ∈ xs <;> simp [setAdd, h]

theorem afterBody_nil (s : RState) (c : Comp) : afterBody s c [] [] = s := by
  unfold afterBody
  refine RState.ext rfl ?_ rfl ?_ ?_ ?_ rfl rfl rfl rfl
  · funext i; simp
  · funext i; simp
  · funext d; by_cases hd : d = c <;> simp [hd]
  · funext d; by_cases hd : d = c <;> simp [hd]

theorem trackDependency_some (s : RState) (src : Src) (c : Comp) (h : s.cur = some c) :
    trackDependency s src =
      { s with
        sigSubs := fun i => if Src.sig i = src then setAdd (s.sigSubs i) c else s.sigSubs i,
        memoSubs := fun i => if Src.memo i = src then setAdd (s.memoSubs i) c else s.memoSubs i,
        deps := fun d => if d = c then setAdd (s.deps d) src else s.deps d } := by
  unfold trackDependency
  rw [h]
  cases src with
  | sig i0 =>
      dsimp only [modifySubs]
      refine RState.ext rfl ?_ rfl ?_ rfl rfl h rfl rfl rfl
      · funext i; simp [eq_comm]
      · funext i; simp
  | memo i0 =>
      dsimp only [modifySubs]
      refine RState.ext rfl ?_ rfl ?_ rfl rfl h rfl rfl rfl
      · funext i; simp
      · funext i; simp [eq_comm]

theorem afterBody_track (s : RState) (src : Src) (c : Comp) (reads : List Src)
    (regs : List Nat) (h : s.cur = some c) :
    afterBody (trackDependency s src) c reads regs = afterBody s c (src :: reads) regs := by
  rw [trackDependency_some s src c h]
  unfold afterBody
  refine RState.ext rfl ?_ rfl ?_ ?_ ?_ rfl rfl rfl rfl
  · funext i
    simp only
    by_cases hs : Src.sig i = src
    · rw [if_pos hs]
      by_cases hr : Src.sig i ∈ reads <;>
        simp [hr, hs, setAdd_idem]
    · rw [if_neg hs]
      by_cases hr : Src.sig i ∈ reads <;> simp [hr, hs]
  · funext i
    simp only
    by_cases hs : Src.memo i = src
    · rw [if_pos hs]
      by_cases hr : Src.memo i ∈ reads <;>
        simp [hr, hs, setAdd_idem]
    · rw [if_neg hs]
      by_cases hr : Src.memo i ∈ reads <;> simp [hr, hs]
  · funext d
    simp only
    by_cases hd : d = c <;> simp [hd, List.foldl]
  · funext d
    simp only

theorem afterBody_reg (s : RState) (c : Comp) (t : Nat) (reads : List Src)
    (regs : List Nat) :
    afterBody
      { s with cleanups := fun d => if d = c then s.cleanups d ++ [t] else s.cleanups d }
      c reads regs = afterBody s c reads (t :: regs) := by
  unfold afterBody
  refine RState.ext rfl rfl rfl rfl rfl ?_ rfl rfl rfl rfl
  funext d
  simp only
  by_cases hd : d = c <;> simp [hd]

theorem runEBody_reg_step (s : RState) (t : Nat) (k : EBody) (tr : List (Src × Value))
    (c : Comp) (h : s.cur = some c) :
    runEBody s (.reg t k) tr =
      runEBody
        { s with cleanups := fun d => if d = c then s.cleanups d ++ [t] else s.cleanups d }
        k tr := by
  rw [runEBody, h]

/-- Complete characterization of an effect-body run: starting from a state
whose current computation is `c`, the run returns the `afterBody` state for
the predicted reads and cleanup registrations, appends the predicted trace,
and succeeds exactly when the body does not throw. -/
theorem runEBody_spec (b : EBody) (s : RState) (tr : List (Src × Value)) (c : Comp)
    (h : s.cur = some c) :
    runEBody s b tr =
      (afterBody s c ((ebodyTrace s.sigVal s.memoVal b).map Prod.fst)
        (ebodyRegs s.sigVal s.memoVal b),
       tr ++ ebodyTrace s.sigVal s.memoVal b,
       ebodyOk s.sigVal s.memoVal b) := by
  induction b generalizing s tr with
  | done => simp [runEBody, ebodyTrace, ebodyRegs, ebodyOk, afterBody_nil]
  | readS i k ih =>
      have hc : (trackDependency s (Src.sig i)).cur = some c := by
        rw [trackDependency_cur, h]
      have hv : (trackDependency s (Src.sig i)).sigVal = s.sigVal := by
        rw [trackDependency_some s _ c h]
      have hm : (trackDependency s (Src.sig i)).memoVal = s.memoVal := by
        rw [trackDependency_some s _ c h]
      rw [runEBody, ih _ _ _ hc, hv, hm, afterBody_track _ _ _ _ _ h]
      simp [ebodyTrace, ebodyRegs, ebodyOk]
  | readM i k ih =>
      have hc : (trackDependency s (Src.memo i)).cur = some c := by
        rw [trackDependency_cur, h]
      have hv : (trackDependency s (Src.memo i)).sigVal = s.sigVal := by
        rw [trackDependency_some s _ c h]
      have hm : (trackDependency s (Src.memo i)).memoVal = s.memoVal := by
        rw [trackDependency_some s _ c h]
      rw [runEBody, ih _ _ _ hc, hv, hm, afterBody_track _ _ _ _ _ h]
      simp [ebodyTrace, ebodyRegs, ebodyOk]
  | reg t k ih =>
      rw [runEBody_reg_step s t k tr c h]
      rw [ih { s with cleanups := fun d => if d = c then s.cleanups d ++ [t] else s.cleanups d }
        tr h]
      rw [afterBody_reg]
      simp [ebodyTrace, ebodyRegs, ebodyOk]
  | throwE => simp [runEBody, ebodyTrace, ebodyRegs, ebodyOk, afterBody_nil]

/-- Complete characterization of a memo-function run. -/
theorem runMBody_spec (b : MBody) (s : RState) (tr : List (Src × Value)) (c : Comp)
    (h : s.cur = some c) :
    runMBody s b tr =
      (afterBody s c ((mbodyTrace s.sigVal s.memoVal b).map Prod.fst) [],
       tr ++ mbodyTrace s.sigVal s.memoVal b,
       mbodyVal s.sigVal s.memoVal b) := by
  induction b generalizing s tr with
  | ret v => simp [runMBody, mbodyTrace, mbodyVal, afterBody_nil]
  | readS i k ih =>
      have hc : (trackDependency s (Src.sig i)).cur = some c := by
        rw [trackDependency_cur, h]
      have hv : (trackDependency s (Src.sig i)).sigVal = s.sigVal := by
        rw [trackDependency_some s _ c h]
      have hm : (trackDependency s (Src.sig i)).memoVal = s.memoVal := by
        rw [trackDependency_some s _ c h]
      rw [runMBody, ih _ _ _ hc, hv, hm, afterBody_track _ _ _ _ _ h]
      simp [mbodyTrace, mbodyVal]
  | readM i k ih =>
      have hc : (trackDependency s (Src.memo i)).cur = some c := by
        rw [trackDependency_cur, h]
      have hv : (trackDependency s (Src.memo i)).sigVal = s.sigVal := by
        rw [trackDependency_some s _ c h]
      have hm : (trackDependency s (Src.memo i)).memoVal = s.memoVal := by
        rw [trackDependency_some s _ c h]
      rw [runMBody, ih _ _ _ hc, hv, hm, afterBody_track _ _ _ _ _ h]
      simp [mbodyTrace, mbodyVal]
  | throwM => simp [runMBody, mbodyTrace, mbodyVal, afterBody_nil]

theorem setDel_idem {α : Type} [DecidableEq α] (xs : List α) (x : α) :
    setDel (setDel xs x) x = setDel xs x := by
  simp [setDel, List.filter_filter]

theorem unsubscribeAll_spec (c : Comp) (s : RState) (l : List Src) :
    unsubscribeAll c s l =
      { s with
        sigSubs := fun i => if Src.sig i ∈ l then setDel (s.sigSubs i) c else s.sigSubs i,
        memoSubs := fun i => if Src.memo i ∈ l then setDel (s.memoSubs i) c else s.memoSubs i } := by
  induction l generalizing s with
  | nil =>
      rw [unsubscribeAll]
      refine RState.ext rfl ?_ rfl ?_ rfl rfl rfl rfl rfl rfl <;> (funext i; simp)
  | cons src rest ih =>
      rw [unsubscribeAll, ih]
      cases src with
      | sig i0 =>
          dsimp only [modifySubs]
          refine RState.ext rfl ?_ rfl ?_ rfl rfl rfl rfl rfl rfl
          · funext i
            simp only
            by_cases hi : i = i0
            · subst hi
              by_cases hr : Src.sig i ∈ rest <;> simp [hr, setDel_idem]
            · have : Src.sig i ≠ Src.sig i0 := by simp [hi]
              by_cases hr : Src.sig i ∈ rest <;> simp [hr, hi, this]
          · funext i
            simp only
            by_cases hr : Src.memo i ∈ rest <;> simp [hr]
      | memo i0 =>
          dsimp only [modifySubs]
          refine RState.ext rfl ?_ rfl ?_ rfl rfl rfl rfl rfl rfl
          · funext i
            simp only
            by_cases hr : Src.sig i ∈ rest <;> simp [hr]
          · funext i
            simp only
            by_cases hi : i = i0
            · subst hi
              by_cases hr : Src.memo i ∈ rest <;> simp [hr, setDel_idem]
            · have : Src.memo i ≠ Src.memo i0 := by simp [hi]
              by_cases hr : Src.memo i ∈ rest <;> simp [hr, hi, this]

theorem fireCleanups_spec (s : RState) (l : List Nat) :
    fireCleanups s l = { s with log := s.log ++ l.map Ev.clean } := by
  induction l generalizing s with
  | nil => rw [fireCleanups]; refine RState.ext rfl rfl rfl rfl rfl rfl rfl rfl rfl (by simp)
  | cons t rest ih =>
      rw [fireCleanups, ih]
      refine RState.ext rfl rfl rfl rfl rfl rfl rfl rfl rfl (by simp)

/-- Complete characterization of `cleanupComputation`. -/
theorem cleanupComputation_spec (s : RState) (c : Comp) :
    cleanupComputation s c =
      { s with
        sigSubs := fun i => if Src.sig i ∈ s.deps c then setDel (s.sigSubs i) c else s.sigSubs i,
        memoSubs := fun i => if Src.memo i ∈ s.deps c then setDel (s.memoSubs i) c else s.memoSubs i,
        deps := fun d => if d = c then [] else s.deps d,
        cleanups := fun d => if d = c then [] else s.cleanups d,
        log := s.log ++ (s.cleanups c).map Ev.clean } := by
  unfold cleanupComputation
  rw [unsubscribeAll_spec, fireCleanups_spec]

/-- Complete characterization of a non-throwing `execute` of an effect. -/
theorem execute_eff_spec (n : Nat) (w : World) (s : RState) (j : Nat)
    (hok : ebodyOk s.sigVal s.memoVal (w.effFn j) = true) :
    execute (n + 1) w s (.eff j) = (execEff w s j, true) := by
  rw [execute]
  rw [cleanupComputation_spec]
  rw [runEBody_spec (w.effFn j) _ _ (Comp.eff j) rfl]
  dsimp only
  rw [hok]
  simp only [if_true]
  unfold execEff afterBody effReads effVals
  refine Prod.ext ?_ rfl
  dsimp only
  apply RState.ext
  all_goals dsimp only
  any_goals rfl
  · funext d
    by_cases hd : d = Comp.eff j <;> simp [hd]
  · funext d
    by_cases hd : d = Comp.eff j <;> simp [hd]

theorem execEff_sigVal (w : World) (s : RState) (j : Nat) :
    (execEff w s j).sigVal = s.sigVal := rfl

theorem execEff_memoVal (w : World) (s : RState) (j : Nat) :
    (execEff w s j).memoVal = s.memoVal := rfl

theorem execEff_depth (w : World) (s : RState) (j : Nat) :
    (execEff w s j).depth = s.depth := rfl

theorem execEff_pending (w : World) (s : RState) (j : Nat) :
    (execEff w s j).pending = s.pending := rfl

theorem execEff_cur (w : World) (s : RState) (j : Nat) :
    (execEff w s j).cur = s.cur := rfl

theorem execEff_log (w : World) (s : RState) (j : Nat) :
    (execEff w s j).log =
      s.log ++ (s.cleanups (.eff j)).map Ev.clean ++ [.effRun j (effVals w s j)] := rfl

theorem execEff_cleanups (w : World) (s : RState) (j : Nat) (d : Comp) :
    (execEff w s j).cleanups d =
      if d = .eff j then ebodyRegs s.sigVal s.memoVal (w.effFn j) else s.cleanups d := rfl

theorem effVals_execEff (w : World) (s : RState) (j j' : Nat) :
    effVals w (execEff w s j) j' = effVals w s j' := rfl

/-- Characterization of a notification pass over a queue consisting purely
of effects, outside any batch: every queue entry executes exactly once, in
queue order; each execution first fires that effect's pending cleanups and
then appends its run event; values, the scheduler state and the cleanup
lists of computations outside the queue are untouched. -/
theorem notify_effects_spec (n : Nat) (w : World) (es : List Nat) (s : RState)
    (hdepth : s.depth = 0)
    (hok : ∀ j (sv : Nat → Value) (mv : Nat → Option Value), ebodyOk sv mv (w.effFn j) = true)
    (hnd : es.Nodup) :
    (notifySubscribers (n + 1) w s (es.map Comp.eff)).2 = true ∧
    (notifySubscribers (n + 1) w s (es.map Comp.eff)).1.log =
      s.log ++ (es.map (fun j =>
        (s.cleanups (.eff j)).map Ev.clean ++ [Ev.effRun j (effVals w s j)])).flatten ∧
    (notifySubscribers (n + 1) w s (es.map Comp.eff)).1.sigVal = s.sigVal ∧
    (notifySubscribers (n + 1) w s (es.map Comp.eff)).1.memoVal = s.memoVal ∧
    (notifySubscribers (n + 1) w s (es.map Comp.eff)).1.depth = s.depth ∧
    (notifySubscribers (n + 1) w s (es.map Comp.eff)).1.pending = s.pending ∧
    (notifySubscribers (n + 1) w s (es.map Comp.eff)).1.cur = s.cur ∧
    (∀ d : Comp, (∀ j ∈ es, d ≠ Comp.eff j) →
      (notifySubscribers (n + 1) w s (es.map Comp.eff)).1.cleanups d = s.cleanups d) := by
  induction es generalizing s with
  | nil =>
      refine ⟨rfl, by simp [notifySubscribers, runQueue], rfl, rfl, rfl, rfl, rfl, fun d _ => rfl⟩
  | cons j rest ih =>
      have hstep : runComputation (n + 1) w s (.eff j) = (execEff w s j, true) := by
        unfold runComputation
        rw [hdepth]
        simp [execute_eff_spec n w s j (hok j _ _)]
      have hqueue :
          notifySubscribers (n + 1) w s ((j :: rest).map Comp.eff) =
            notifySubscribers (n + 1) w (execEff w s j) (rest.map Comp.eff) := by
        unfold notifySubscribers
        rw [List.map_cons, runQueue, hstep]
        simp
      have hdepth' : (execEff w s j).depth = 0 := by rw [execEff_depth, hdepth]
      obtain ⟨ok', hlog', hsv', hmv', hd', hp', hc', hcl'⟩ :=
        ih (execEff w s j) hdepth' (List.Nodup.of_cons hnd)
      have hrestmap :
          (rest.map (fun j' =>
            ((execEff w s j).cleanups (.eff j')).map Ev.clean ++
              [Ev.effRun j' (effVals w (execEff w s j) j')])) =
          (rest.map (fun j' =>
            (s.cleanups (.eff j')).map Ev.clean ++ [Ev.effRun j' (effVals w s j')])) := by
        refine List.map_congr_left ?_
        intro j' hj'
        have hne : Comp.eff j' ≠ Comp.eff j := by
          simp only [ne_eq, Comp.eff.injEq]
          intro hcontra
          subst hcontra
          exact (List.nodup_cons.mp hnd).1 hj'
        rw [effVals_execEff, execEff_cleanups, if_neg hne]
      refine ⟨by rw [hqueue]; exact ok', ?_, ?_, ?_, ?_, ?_, ?_, ?_⟩
      · rw [hqueue, hlog', hrestmap, execEff_log]
        simp [List.flatten]
      · rw [hqueue, hsv', execEff_sigVal]
      · rw [hqueue, hmv', execEff_memoVal]
      · rw [hqueue, hd', execEff_depth]
      · rw [hqueue, hp', execEff_pending]
      · rw [hqueue, hc', execEff_cur]
      · intro d hd
        rw [hqueue, hcl' d (fun j' hj' => hd j' (List.mem_cons_of_mem j hj')),
          execEff_cleanups, if_neg (hd j (List.mem_cons_self j rest))]

/-- `execute` restores `currentComputation` on every exit path, for every
computation and every body, including bodies that throw. -/
theorem execute_cur (fuel : Nat) (w : World) (s : RState) (c : Comp) :
    (execute fuel w s c).1.cur = s.cur := by
  induction fuel generalizing s c with
  | zero => simp [execute]
  | succ n ih =>
      cases c with
      | eff i =>
          simp only [execute]
          by_cases hb : (runEBody { cleanupComputation s (Comp.eff i) with
              cur := some (Comp.eff i) } (w.effFn i) []).2.2 <;>
            simp [hb, cleanupComputation_cur]
      | memo i =>
          simp only [execute]
          cases hres : (runMBody { cleanupComputation s (Comp.memo i) with
              cur := some (Comp.memo i) } (w.memoFn i) []).2.2 with
          | none => simp [hres, cleanupComputation_cur]
          | some v =>
              simp only [hres]
              by_cases hv : some v = (runMBody { cleanupComputation s (Comp.memo i) with
                  cur := some (Comp.memo i) } (w.memoFn i) []).1.memoVal i
              · simp [hv, cleanupComputation_cur]
              · simp only [hv, if_neg, if_false]
                rw [runQueue_cur]
                · simp [cleanupComputation_cur]
                · intro s' c'
                  by_cases hd : 0 < s'.depth
                  · simp [hd]
                  · simp [hd, ih]

/-- Claim C7: for every effect body, memo function, or untracked callback,
and regardless of whether it returns normally or throws, the ambient
current-computation pointer is restored to its prior value when the body
exits.  `execute` covers both effect bodies and memo functions (for any
fuel, any world, any state, any body — including bodies ending in `throw`);
`untrack` covers untracked callbacks. -/
theorem C7_current_computation_restored :
    (∀ (fuel : Nat) (w : World) (s : RState) (c : Comp),
        (execute fuel w s c).1.cur = s.cur) ∧
    (∀ (s : RState) (b : EBody), (untrack s b).1.cur = s.cur) :=
  ⟨fun fuel w s c => execute_cur fuel w s c, fun _ _ => rfl⟩

/-- Claim C1 is false as stated: in `diamondMemoWorld` (memo 2 tracks
signal 0 and memo 1, memo 1 tracks signal 0), the single external write
`signal0 := 1` makes memo 2 recompute twice — the log of the whole run is
exactly the list below, in which `memoRun 2 [1, 1]` appears twice, and the
second recomputation observes exactly the same dependency values `[1, 1]`
as the first, i.e. no tracked dependency changed between the two
computations.  So a memo does not recompute *only if* a tracked dependency
changed since its last computation. -/
theorem C1_counterexample :
    (Signal.write 10 diamondMemoWorld diamondMemoInit 0 1).1.log =
      [.memoRun 1 [0], .memoRun 2 [0, 0],
       .memoRun 1 [1], .memoRun 2 [1, 1], .memoRun 2 [1, 1]] ∧
    countEv (.memoRun 2 [1, 1])
      (Signal.write 10 diamondMemoWorld diamondMemoInit 0 1).1.log = 2 := by
  constructor <;> rfl

/-- Claim C2 is false as stated: in `diamondEffWorld` (effect 0 tracks
signal 0 and memo 1, memo 1 tracks signal 0), the batch containing the
single write `signal0 := 1` makes effect 0 execute twice after the
outermost batch exits (once through memo 1's change notification during the
drain, once from its own pending entry), not at most once.  The third
conjunct shows that with the batch still open the very same write executes
nothing (the log is unchanged), so both runs indeed happen at the exit. -/
theorem C2_counterexample :
    (runOp 10 diamondEffWorld diamondEffInit (.batchOps [.write 0 1])).1.log =
      diamondEffInit.log ++ [.memoRun 1 [1], .effRun 0 [1, 1], .effRun 0 [1, 1]] ∧
    countEv (.effRun 0 [1, 1])
      (runOp 10 diamondEffWorld diamondEffInit (.batchOps [.write 0 1])).1.log = 2 ∧
    (runOps 10 diamondEffWorld { diamondEffInit with depth := 1 }
      [.write 0 1]).1.log = diamondEffInit.log := by
  refine ⟨?_, ?_, ?_⟩ <;> rfl

/-- Claim C3 is false as stated: in `diamondEffWorld`, effect 0 is
subscribed to signal 0 at the moment of the (non-batched) write
`signal0 := 1`, yet it executes twice for that single write — once through
memo 1's change notification (nested inside the snapshot pass) and once
from the snapshot itself — not exactly once. -/
theorem C3_counterexample :
    diamondEffInit.sigSubs 0 = [Comp.memo 1, Comp.eff 0] ∧
    (Signal.write 10 diamondEffWorld diamondEffInit 0 1).1.log =
      diamondEffInit.log ++ [.memoRun 1 [1], .effRun 0 [1, 1], .effRun 0 [1, 1]] ∧
    countEv (.effRun 0 [1, 1])
      (Signal.write 10 diamondEffWorld diamondEffInit 0 1).1.log = 2 := by
  refine ⟨?_, ?_, ?_⟩ <;> rfl

theorem countEv_effRun_flatten_mem (vals : Nat → List Value) (cls : Nat → List Nat)
    (es : List Nat) (j : Nat) (hnd : es.Nodup) (hj : j ∈ es) :
    countEv (.effRun j (vals j))
      ((es.map (fun j' => ((cls j').map Ev.clean) ++ [Ev.effRun j' (vals j')])).flatten) = 1 := by
  induction es with
  | nil => cases hj
  | cons j0 rest ih =>
      rw [List.map_cons, List.flatten_cons, countEv_append, countEv_append, countEv_clean_map]
      rcases List.mem_cons.mp hj with rfl | hj'
      · have hnotin : j ∉ rest := (List.nodup_cons.mp hnd).1
        have hz : countEv (.effRun j (vals j))
            ((rest.map (fun j' => ((cls j').map Ev.clean) ++ [Ev.effRun j' (vals j')])).flatten)
              = 0 := by
          clear ih hnd hj
          induction rest with
          | nil => rfl
          | cons r rrest ih2 =>
              have hjr : j ≠ r := fun hc => hnotin (hc ▸ List.mem_cons_self r rrest)
              rw [List.map_cons, List.flatten_cons, countEv_append, countEv_append,
                countEv_clean_map, ih2 (fun hc => hnotin (List.mem_cons_of_mem r hc))]
              simp [countEv, List.filter, Ne.symm hjr]
        rw [hz]
        simp [countEv, List.filter]
      · have hne : j0 ≠ j := by
          intro hc
          exact (List.nodup_cons.mp hnd).1 (hc ▸ hj')
        rw [ih (List.nodup_cons.mp hnd).2 hj']
        have h0 : countEv (.effRun j (vals j)) [Ev.effRun j0 (vals j0)] = 0 := by
          simp [countEv, List.filter, Ev.effRun.injEq, hne]
        rw [h0]

theorem countEv_effRun_flatten_notmem (vals : Nat → List Value) (cls : Nat → List Nat)
    (es : List Nat) (j : Nat) (vs : List Value) (hj : j ∉ es) :
    countEv (.effRun j vs)
      ((es.map (fun j' => ((cls j').map Ev.clean) ++ [Ev.effRun j' (vals j')])).flatten) = 0 := by
  induction es with
  | nil => rfl
  | cons j0 rest ih =>
      have hne : j ≠ j0 := fun hc => hj (hc ▸ List.mem_cons_self j0 rest)
      rw [List.map_cons, List.flatten_cons, countEv_append, countEv_append, countEv_clean_map,
        ih (fun hc => hj (List.mem_cons_of_mem j0 hc))]
      simp [countEv, List.filter, Ne.symm hne]

/-- Claim C3 (amended): for every signal write performed strictly outside
any batch, when every subscriber of the written signal is an effect (so the
written signal does not reach any subscriber through a second path via a
memo), each effect subscribed at the moment of the write executes exactly
once for that write, in the order of the subscriber-set snapshot taken at
notification time (the `flatten` equation lists the runs in snapshot
order), observing the freshly written values; an indistinguishable write
runs nothing at all; and a computation that is not in the snapshot —
including one that becomes a subscriber only during the notification pass —
is not executed by that write. -/
theorem C3_amended (n : Nat) (w : World) (s : RState) (i : Nat) (v : Value) (es : List Nat)
    (hdepth : s.depth = 0)
    (hsubs : s.sigSubs i = es.map Comp.eff)
    (hnd : es.Nodup)
    (hok : ∀ j (sv : Nat → Value) (mv : Nat → Option Value), ebodyOk sv mv (w.effFn j) = true) :
    (v = s.sigVal i → Signal.write (n + 1) w s i v = (s, true)) ∧
    (v ≠ s.sigVal i →
      (Signal.write (n + 1) w s i v).2 = true ∧
      (Signal.write (n + 1) w s i v).1.log =
        s.log ++ (es.map (fun j =>
          ((s.cleanups (.eff j)).map Ev.clean) ++
            [Ev.effRun j (effVals w (writtenState s i v) j)])).flatten ∧
      (∀ j ∈ es,
        countEv (.effRun j (effVals w (writtenState s i v) j))
            (Signal.write (n + 1) w s i v).1.log =
          countEv (.effRun j (effVals w (writtenState s i v) j)) s.log + 1) ∧
      (∀ j, j ∉ es → ∀ vs,
        countEv (.effRun j vs) (Signal.write (n + 1) w s i v).1.log =
          countEv (.effRun j vs) s.log)) := by
  constructor
  · exact fun h => write_noop (n + 1) w s i v h
  · intro hne
    have hw := write_change (n + 1) w s i v hne
    have hsubs1 : (writtenState s i v).sigSubs i = es.map Comp.eff := hsubs
    have hdepth1 : (writtenState s i v).depth = 0 := hdepth
    obtain ⟨hok2, hlog, _, _, _, _, _, _⟩ :=
      notify_effects_spec n w es (writtenState s i v) hdepth1 hok hnd
    rw [writtenState_log, writtenState_cleanups] at hlog
    rw [hw, hsubs1]
    refine ⟨hok2, hlog, ?_, ?_⟩
    · intro j hj
      rw [hlog, countEv_append,
        countEv_effRun_flatten_mem (fun j' => effVals w (writtenState s i v) j')
          (fun j' => s.cleanups (.eff j')) es j hnd hj]
    · intro j hj vs
      rw [hlog, countEv_append,
        countEv_effRun_flatten_notmem (fun j' => effVals w (writtenState s i v) j')
          (fun j' => s.cleanups (.eff j')) es j vs hj]
      omega

/-- Witness for `C3_amended`: in `singleEffWorld` (effect 0 reads signal 0),
writing `1` to signal 0 appends exactly one run of effect 0 in snapshot
order. -/
theorem C3_amended_witness :
    (Signal.write 10 singleEffWorld singleEffInit 0 1).1.log =
      singleEffInit.log ++ ([0].map (fun j =>
        ((singleEffInit.cleanups (.eff j)).map Ev.clean) ++
          [Ev.effRun j (effVals singleEffWorld (writtenState singleEffInit 0 1) j)])).flatten := by
  have h := (C3_amended 9 singleEffWorld singleEffInit 0 1 [0] rfl rfl (by decide)
    (fun _ _ _ => rfl)).2 (by decide)
  exact h.2.1


theorem countEv_clean_map_notmem (t : Nat) (cs : List Nat) (h : t ∉ cs) :
    countEv (.clean t) (cs.map Ev.clean) = 0 := by
  induction cs with
  | nil => rfl
  | cons c rest ih =>
      have hne : c ≠ t := fun hc => h (hc ▸ List.mem_cons_self c rest)
      have ih' := ih (fun hc => h (List.mem_cons_of_mem c hc))
      simp only [List.map_cons]
      simp [countEv, List.filter, hne] at ih' ⊢
      exact ih'

theorem countEv_clean_flatten (vals : Nat → List Value) (cls : Nat → List Nat)
    (es : List Nat) (t : Nat) (h : ∀ j ∈ es, t ∉ cls j) :
    countEv (.clean t)
      ((es.map (fun j' => ((cls j').map Ev.clean) ++ [Ev.effRun j' (vals j')])).flatten) = 0 := by
  induction es with
  | nil => rfl
  | cons j0 rest ih =>
      rw [List.map_cons, List.flatten_cons, countEv_append, countEv_append,
        countEv_clean_map_notmem t (cls j0) (h j0 (List.mem_cons_self j0 rest)),
        ih (fun j' hj' => h j' (List.mem_cons_of_mem j0 hj'))]
      simp [countEv, List.filter]

/-- Claim C6: effect cleanup lifecycle.  First part: a (re-)execution of an
effect first fires every cleanup registered during its previous run, in
registration order, and only then performs the new run; afterwards the
stored cleanup list is exactly what the new run registered.  Second part:
`cleanupComputation` fully unsubscribes the computation from every
previously tracked dependency (given mutual registration) and clears its
dependency set before the body re-runs.  Third part: an effect that a write
does not trigger keeps its cleanup list untouched, and none of its cleanup
callbacks run (no `clean` event fires for a token not held by a triggered
effect). -/
theorem C6_cleanup_lifecycle :
    (∀ (n : Nat) (w : World) (s : RState) (j : Nat),
        ebodyOk s.sigVal s.memoVal (w.effFn j) = true →
        (execute (n + 1) w s (.eff j)).1.log =
          s.log ++ ((s.cleanups (.eff j)).map Ev.clean) ++ [.effRun j (effVals w s j)] ∧
        (execute (n + 1) w s (.eff j)).1.cleanups (.eff j) =
          ebodyRegs s.sigVal s.memoVal (w.effFn j)) ∧
    (∀ (s : RState) (c : Comp), (∀ src, c ∈ subsOf s src → src ∈ s.deps c) →
        (∀ src, c ∉ subsOf (cleanupComputation s c) src) ∧
        (cleanupComputation s c).deps c = []) ∧
    (∀ (n : Nat) (w : World) (s : RState) (i : Nat) (v : Value) (es : List Nat) (j : Nat),
        s.depth = 0 → s.sigSubs i = es.map Comp.eff → es.Nodup →
        (∀ j' (sv : Nat → Value) (mv : Nat → Option Value), ebodyOk sv mv (w.effFn j') = true) →
        j ∉ es →
        (Signal.write (n + 1) w s i v).1.cleanups (.eff j) = s.cleanups (.eff j) ∧
        (∀ t, (∀ j' ∈ es, t ∉ s.cleanups (.eff j')) →
          countEv (.clean t) (Signal.write (n + 1) w s i v).1.log =
            countEv (.clean t) s.log)) := by
  refine ⟨?_, ?_, ?_⟩
  · intro n w s j hok
    rw [execute_eff_spec n w s j hok]
    exact ⟨rfl, by simp [execEff_cleanups]⟩
  · intro s c hmut
    rw [cleanupComputation_spec]
    constructor
    · intro src
      cases src with
      | sig i =>
          dsimp only [subsOf]
          by_cases hd : Src.sig i ∈ s.deps c
          · rw [if_pos hd]; exact not_mem_setDel_self _ _
          · rw [if_neg hd]
            intro hc
            exact hd (hmut (.sig i) hc)
      | memo i =>
          dsimp only [subsOf]
          by_cases hd : Src.memo i ∈ s.deps c
          · rw [if_pos hd]; exact not_mem_setDel_self _ _
          · rw [if_neg hd]
            intro hc
            exact hd (hmut (.memo i) hc)
    · simp
  · intro n w s i v es j hdepth hsubs hnd hok hj
    by_cases hveq : v = s.sigVal i
    · rw [write_noop (n + 1) w s i v hveq]
      exact ⟨rfl, fun t _ => rfl⟩
    · have hw := write_change (n + 1) w s i v hveq
      have hsubs1 : (writtenState s i v).sigSubs i = es.map Comp.eff := hsubs
      obtain ⟨_, hlog, _, _, _, _, _, hcl⟩ :=
        notify_effects_spec n w es (writtenState s i v) hdepth hok hnd
      rw [writtenState_log, writtenState_cleanups] at hlog
      constructor
      · rw [hw, hsubs1]
        have := hcl (.eff j) (fun j' hj' => by
          simp only [ne_eq, Comp.eff.injEq]
          intro hc
          exact hj (hc ▸ hj'))
        rw [writtenState_cleanups] at this
        exact this
      · intro t ht
        rw [hw, hsubs1, hlog, countEv_append,
          countEv_clean_flatten (fun j' => effVals w (writtenState s i v) j')
            (fun j' => s.cleanups (.eff j')) es t ht]
        omega

/-- Witness for `C6_cleanup_lifecycle`, at the hand-written concrete state
`mutualState` with `cleanupEffWorld`. -/
theorem C6_cleanup_lifecycle_witness :
    ((execute 10 cleanupEffWorld mutualState (.eff 0)).1.log =
        mutualState.log ++ ((mutualState.cleanups (.eff 0)).map Ev.clean) ++
          [.effRun 0 (effVals cleanupEffWorld mutualState 0)]) ∧
    (Comp.eff 0 ∉ subsOf (cleanupComputation mutualState (.eff 0)) (.sig 0)) ∧
    ((Signal.write 10 cleanupEffWorld mutualState 1 5).1.cleanups (.eff 0) =
        mutualState.cleanups (.eff 0)) := by
  obtain ⟨h1, h2, h3⟩ := C6_cleanup_lifecycle
  refine ⟨(h1 9 cleanupEffWorld mutualState 0 rfl).1, ?_, ?_⟩
  · refine (h2 mutualState (.eff 0) ?_).1 (.sig 0)
    intro src hc
    cases src with
    | sig i =>
        by_cases hi : i = 0
        · subst hi; simp [mutualState]
        · simp only [subsOf, mutualState] at hc
          simp [hi] at hc
    | memo i =>
        simp only [subsOf, mutualState] at hc
        simp [initState] at hc
  · exact (h3 9 cleanupEffWorld mutualState 1 5 [] 0 rfl rfl (by decide)
      (fun _ _ _ => rfl) (by decide)).1


theorem trackDependency_none (s : RState) (src : Src) (h : s.cur = none) :
    trackDependency s src = s := by
  unfold trackDependency
  rw [h]

/-- Claim C9: dependency registration is mutual and idempotent.  Part 1:
tracking registers the current computation in the source's subscriber set
and the source in the computation's dependency set (mutual registration).
Part 2: tracking the same source twice is the same as tracking it once
(sets, not lists — so re-reading a signal registers exactly one
subscription).  Part 3: after a non-throwing effect run, the effect's
dependency set is duplicate-free and contains exactly the sources the body
read, and subscriber sets stay duplicate-free.  Part 4: a single write
executes each subscribed computation at most once per notification (in an
effect-only subscriber set). -/
theorem C9_dependency_registration :
    (∀ (s : RState) (src : Src) (c : Comp), s.cur = some c →
        c ∈ subsOf (trackDependency s src) src ∧ src ∈ (trackDependency s src).deps c) ∧
    (∀ (s : RState) (src : Src),
        trackDependency (trackDependency s src) src = trackDependency s src) ∧
    (∀ (n : Nat) (w : World) (s : RState) (j : Nat),
        ebodyOk s.sigVal s.memoVal (w.effFn j) = true →
        ((execute (n + 1) w s (.eff j)).1.deps (.eff j)).Nodup ∧
        (∀ src, src ∈ (execute (n + 1) w s (.eff j)).1.deps (.eff j) ↔
          src ∈ effReads w s j) ∧
        (∀ src, (subsOf s src).Nodup → (subsOf (execute (n + 1) w s (.eff j)).1 src).Nodup)) ∧
    (∀ (n : Nat) (w : World) (s : RState) (i : Nat) (v : Value) (es : List Nat),
        s.depth = 0 → s.sigSubs i = es.map Comp.eff → es.Nodup →
        (∀ j (sv : Nat → Value) (mv : Nat → Option Value), ebodyOk sv mv (w.effFn j) = true) →
        ∀ j ∈ es,
          countEv (.effRun j (effVals w (writtenState s i v) j))
              (Signal.write (n + 1) w s i v).1.log ≤
            countEv (.effRun j (effVals w (writtenState s i v) j)) s.log + 1) := by
  refine ⟨?_, ?_, ?_, ?_⟩
  · intro s src c h
    rw [trackDependency_some s src c h]
    constructor
    · cases src with
      | sig i =>
          dsimp only [subsOf]
          rw [if_pos rfl]
          exact (setAdd_mem _ _ _).mpr (Or.inr rfl)
      | memo i =>
          dsimp only [subsOf]
          rw [if_pos rfl]
          exact (setAdd_mem _ _ _).mpr (Or.inr rfl)
    · dsimp only
      rw [if_pos rfl]
      exact (setAdd_mem _ _ _).mpr (Or.inr rfl)
  · intro s src
    cases h : s.cur with
    | none =>
        rw [trackDependency_none s src h, trackDependency_none s src h]
    | some c =>
        rw [trackDependency_some s src c h]
        rw [trackDependency_some _ src c (by exact h)]
        dsimp only
        cases src with
        | sig i0 =>
            refine RState.ext rfl ?_ rfl ?_ ?_ rfl rfl rfl rfl rfl
            · funext i
              simp only
              by_cases hs : Src.sig i = Src.sig i0 <;> simp [hs, setAdd_idem]
            · funext i
              simp only
              by_cases hs : Src.memo i = Src.sig i0 <;> simp [hs, setAdd_idem]
            · funext d
              simp only
              by_cases hd : d = c <;> simp [hd, setAdd_idem]
        | memo i0 =>
            refine RState.ext rfl ?_ rfl ?_ ?_ rfl rfl rfl rfl rfl
            · funext i
              simp only
              by_cases hs : Src.sig i = Src.memo i0 <;> simp [hs, setAdd_idem]
            · funext i
              simp only
              by_cases hs : Src.memo i = Src.memo i0 <;> simp [hs, setAdd_idem]
            · funext d
              simp only
              by_cases hd : d = c <;> simp [hd, setAdd_idem]
  · intro n w s j hok
    rw [execute_eff_spec n w s j hok]
    refine ⟨?_, ?_, ?_⟩
    · dsimp only [execEff]
      rw [if_pos rfl]
      exact foldl_setAdd_nodup _ _ List.nodup_nil
    · intro src
      dsimp only [execEff]
      rw [if_pos rfl, foldl_setAdd_mem]
      simp
    · intro src hsrc
      cases src with
      | sig i =>
          dsimp only [subsOf, execEff] at hsrc ⊢
          by_cases hr : Src.sig i ∈ effReads w s j <;>
            by_cases hd : Src.sig i ∈ s.deps (Comp.eff j) <;>
              simp only [hr, hd, if_true, if_false, if_pos, if_neg, not_false_iff] <;>
                first
                  | exact setAdd_nodup _ _ (setDel_nodup _ _ hsrc)
                  | exact setAdd_nodup _ _ hsrc
                  | exact setDel_nodup _ _ hsrc
                  | exact hsrc
      | memo i =>
          dsimp only [subsOf, execEff] at hsrc ⊢
          by_cases hr : Src.memo i ∈ effReads w s j <;>
            by_cases hd : Src.memo i ∈ s.deps (Comp.eff j) <;>
              simp only [hr, hd, if_true, if_false, if_pos, if_neg, not_false_iff] <;>
                first
                  | exact setAdd_nodup _ _ (setDel_nodup _ _ hsrc)
                  | exact setAdd_nodup _ _ hsrc
                  | exact setDel_nodup _ _ hsrc
                  | exact hsrc
  · intro n w s i v es hdepth hsubs hnd hok j hj
    by_cases hveq : v = s.sigVal i
    · rw [write_noop (n + 1) w s i v hveq]
      exact Nat.le_succ _
    · have hw := write_change (n + 1) w s i v hveq
      have hsubs1 : (writtenState s i v).sigSubs i = es.map Comp.eff := hsubs
      obtain ⟨_, hlog, _, _, _, _, _, _⟩ :=
        notify_effects_spec n w es (writtenState s i v) hdepth hok hnd
      rw [writtenState_log, writtenState_cleanups] at hlog
      rw [hw, hsubs1, hlog, countEv_append,
        countEv_effRun_flatten_mem (fun j' => effVals w (writtenState s i v) j')
          (fun j' => s.cleanups (.eff j')) es j hnd hj]

/-- Witness for `C9_dependency_registration` at concrete inputs. -/
theorem C9_dependency_registration_witness :
    (Comp.eff 0 ∈ subsOf (trackDependency cur0State (.sig 0)) (.sig 0) ∧
      Src.sig 0 ∈ (trackDependency cur0State (.sig 0)).deps (Comp.eff 0)) ∧
    (trackDependency (trackDependency cur0State (.sig 0)) (.sig 0) =
      trackDependency cur0State (.sig 0)) ∧
    ((execute 10 singleEffWorld singleEffInit (.eff 0)).1.deps (.eff 0)).Nodup ∧
    (countEv (.effRun 0 (effVals singleEffWorld (writtenState singleEffInit 0 1) 0))
        (Signal.write 10 singleEffWorld singleEffInit 0 1).1.log ≤
      countEv (.effRun 0 (effVals singleEffWorld (writtenState singleEffInit 0 1) 0))
          singleEffInit.log + 1) := by
  obtain ⟨h1, h2, h3, h4⟩ := C9_dependency_registration
  exact ⟨h1 cur0State (.sig 0) (Comp.eff 0) rfl,
    h2 cur0State (.sig 0),
    (h3 9 singleEffWorld singleEffInit 0 rfl).1,
    h4 9 singleEffWorld singleEffInit 0 1 [0] rfl rfl (by decide) (fun _ _ _ => rfl) 0
      (by decide)⟩


theorem notify_batched (fuel : Nat) (w : World) (s : RState) (q : List Comp)
    (hdepth : 0 < s.depth) :
    notifySubscribers fuel w s q =
      ({ s with pending := List.foldl setAdd s.pending q }, true) := by
  induction q generalizing s with
  | nil => rfl
  | cons c rest ih =>
      unfold notifySubscribers runQueue
      have hstep : runComputation fuel w s c =
          ({ s with pending := setAdd s.pending c }, true) := by
        unfold runComputation
        rw [if_pos hdepth]
      rw [hstep]
      simp only [if_true]
      have := ih { s with pending := setAdd s.pending c } hdepth
      unfold notifySubscribers at this
      rw [this]
      rfl

theorem simWrites_append (subs : Nat → List Comp) (sv : Nat → Value) (pend : List Comp)
    (l1 l2 : List (Nat × Value)) :
    simWrites subs sv pend (l1 ++ l2) =
      simWrites subs (simWrites subs sv pend l1).1 (simWrites subs sv pend l1).2 l2 := by
  induction l1 generalizing sv pend with
  | nil => rfl
  | cons hd tl ih =>
      obtain ⟨i, v⟩ := hd
      rw [List.cons_append, simWrites, simWrites]
      by_cases hv : v = sv i
      · rw [if_pos hv, if_pos hv, ih]
      · rw [if_neg hv, if_neg hv, ih]

mutual
theorem runOp_batched (fuel : Nat) (w : World) (s : RState) (op : Op) (h : 1 ≤ s.depth) :
    runOp fuel w s op =
      ({ s with sigVal := (simWrites s.sigSubs s.sigVal s.pending (flattenOp op)).1,
                pending := (simWrites s.sigSubs s.sigVal s.pending (flattenOp op)).2 }, true) := by
  cases op with
  | write i v =>
      rw [runOp]
      unfold Signal.write flattenOp simWrites
      by_cases hv : v = s.sigVal i
      · rw [if_pos hv, if_pos hv]
        rfl
      · rw [if_neg hv, if_neg hv]
        rw [notify_batched fuel w _ _ (by exact Nat.lt_of_lt_of_le Nat.zero_lt_one h)]
        rfl
  | batchOps ops =>
      rw [runOp]
      have h1 : 1 ≤ ({ s with depth := s.depth + 1 } : RState).depth := by
        simp
      rw [runOps_batched fuel w { s with depth := s.depth + 1 } ops h1]
      simp only
      obtain ⟨d, hd⟩ : ∃ d, s.depth = d + 1 := by
        rcases Nat.exists_eq_add_of_le h with ⟨d, hd⟩
        exact ⟨d, by omega⟩
      have hred : s.depth + 1 - 1 = s.depth := by omega
      rw [hred, hd]
      simp only [Nat.add_one]
      rw [flattenOp]

theorem runOps_batched (fuel : Nat) (w : World) (s : RState) (ops : List Op) (h : 1 ≤ s.depth) :
    runOps fuel w s ops =
      ({ s with sigVal := (simWrites s.sigSubs s.sigVal s.pending (flattenOpList ops)).1,
                pending := (simWrites s.sigSubs s.sigVal s.pending (flattenOpList ops)).2 },
        true) := by
  cases ops with
  | nil => rfl
  | cons op rest =>
      rw [runOps]
      rw [runOp_batched fuel w s op h]
      simp only [if_true]
      rw [runOps_batched fuel w _ rest (by exact h)]
      rw [flattenOpList, simWrites_append]
end

/-- Twin of `notify_effects_spec` for the direct execution queue used by
`flushPending` (which calls `execute` on each entry, not
`runComputation`). -/
theorem execQueue_effects_spec (n : Nat) (w : World) (es : List Nat) (s : RState)
    (hok : ∀ j (sv : Nat → Value) (mv : Nat → Option Value), ebodyOk sv mv (w.effFn j) = true)
    (hnd : es.Nodup) :
    (runQueue (execute (n + 1) w) s (es.map Comp.eff)).2 = true ∧
    (runQueue (execute (n + 1) w) s (es.map Comp.eff)).1.log =
      s.log ++ (es.map (fun j =>
        (s.cleanups (.eff j)).map Ev.clean ++ [Ev.effRun j (effVals w s j)])).flatten ∧
    (runQueue (execute (n + 1) w) s (es.map Comp.eff)).1.sigVal = s.sigVal ∧
    (runQueue (execute (n + 1) w) s (es.map Comp.eff)).1.memoVal = s.memoVal ∧
    (runQueue (execute (n + 1) w) s (es.map Comp.eff)).1.depth = s.depth ∧
    (runQueue (execute (n + 1) w) s (es.map Comp.eff)).1.pending = s.pending ∧
    (runQueue (execute (n + 1) w) s (es.map Comp.eff)).1.cur = s.cur := by
  induction es generalizing s with
  | nil => exact ⟨rfl, by simp [runQueue], rfl, rfl, rfl, rfl, rfl⟩
  | cons j rest ih =>
      have hstep : execute (n + 1) w s (.eff j) = (execEff w s j, true) :=
        execute_eff_spec n w s j (hok j _ _)
      have hqueue :
          runQueue (execute (n + 1) w) s ((j :: rest).map Comp.eff) =
            runQueue (execute (n + 1) w) (execEff w s j) (rest.map Comp.eff) := by
        rw [List.map_cons, runQueue, hstep]
        simp
      obtain ⟨ok', hlog', hsv', hmv', hd', hp', hc'⟩ :=
        ih (execEff w s j) (List.Nodup.of_cons hnd)
      have hrestmap :
          (rest.map (fun j' =>
            ((execEff w s j).cleanups (.eff j')).map Ev.clean ++
              [Ev.effRun j' (effVals w (execEff w s j) j')])) =
          (rest.map (fun j' =>
            (s.cleanups (.eff j')).map Ev.clean ++ [Ev.effRun j' (effVals w s j')])) := by
        refine List.map_congr_left ?_
        intro j' hj'
        have hne : Comp.eff j' ≠ Comp.eff j := by
          simp only [ne_eq, Comp.eff.injEq]
          intro hcontra
          subst hcontra
          exact (List.nodup_cons.mp hnd).1 hj'
        rw [effVals_execEff, execEff_cleanups, if_neg hne]
      refine ⟨by rw [hqueue]; exact ok', ?_, ?_, ?_, ?_, ?_, ?_⟩
      · rw [hqueue, hlog', hrestmap, execEff_log]
        simp [List.flatten]
      · rw [hqueue, hsv', execEff_sigVal]
      · rw [hqueue, hmv', execEff_memoVal]
      · rw [hqueue, hd', execEff_depth]
      · rw [hqueue, hp', execEff_pending]
      · rw [hqueue, hc', execEff_cur]

/-- Draining the pending set (all effects): one round executes every
pending effect once, in pending order, and empties the set; the repeat
check then finds nothing left. -/
theorem flushPending_effects (n : Nat) (w : World) (s : RState) (es : List Nat)
    (hpend : s.pending = es.map Comp.eff)
    (hok : ∀ j (sv : Nat → Value) (mv : Nat → Option Value), ebodyOk sv mv (w.effFn j) = true)
    (hnd : es.Nodup) :
    (flushPending w (n + 2) s).2 = true ∧
    (flushPending w (n + 2) s).1.log =
      s.log ++ (es.map (fun j =>
        (s.cleanups (.eff j)).map Ev.clean ++ [Ev.effRun j (effVals w s j)])).flatten ∧
    (flushPending w (n + 2) s).1.pending = [] ∧
    (flushPending w (n + 2) s).1.sigVal = s.sigVal ∧
    (flushPending w (n + 2) s).1.memoVal = s.memoVal ∧
    (flushPending w (n + 2) s).1.depth = s.depth ∧
    (flushPending w (n + 2) s).1.cur = s.cur := by
  cases es with
  | nil =>
      have hpe : s.pending = [] := by simpa using hpend
      have : flushPending w (n + 2) s = (s, true) := by
        show flushPending w (n + 1 + 1) s = (s, true)
        rw [flushPending, if_pos hpe]
      rw [this]
      refine ⟨rfl, by simp, hpe, rfl, rfl, rfl, rfl⟩
  | cons e es' =>
      have hpe : s.pending ≠ [] := by simp [hpend]
      obtain ⟨ok', hlog', hsv', hmv', hd', hp', hc'⟩ :=
        execQueue_effects_spec n w (e :: es') { s with pending := [] } hok hnd
      rw [show ({ s with pending := [] } : RState).pending = [] from rfl] at hp'
      have hflush : flushPending w (n + 2) s =
          ((runQueue (execute (n + 1) w) { s with pending := [] }
            ((e :: es').map Comp.eff)).1, true) := by
        show flushPending w (n + 1 + 1) s = _
        rw [flushPending, if_neg hpe, hpend]
        simp only [ok', hp', eq_self_iff_true, if_true]
      rw [hflush]
      exact ⟨rfl, hlog', hp', hsv', hmv', hd', hc'⟩


theorem simWrites_pending_mem (subs : Nat → List Comp) (ws : List (Nat × Value))
    (sv : Nat → Value) (pend : List Comp) (c : Comp)
    (hc : c ∈ (simWrites subs sv pend ws).2) : c ∈ pend ∨ ∃ i, c ∈ subs i := by
  induction ws generalizing sv pend with
  | nil => exact Or.inl hc
  | cons hd tl ih =>
      obtain ⟨i, v⟩ := hd
      rw [simWrites] at hc
      by_cases hv : v = sv i
      · rw [if_pos hv] at hc
        exact ih _ _ hc
      · rw [if_neg hv] at hc
        rcases ih _ _ hc with hm | hm
        · rcases (foldl_setAdd_mem _ _ _).mp hm with hm' | hm'
          · exact Or.inl hm'
          · exact Or.inr ⟨i, hm'⟩
        · exact Or.inr hm

theorem simWrites_pending_nodup (subs : Nat → List Comp) (ws : List (Nat × Value))
    (sv : Nat → Value) (pend : List Comp) (h : pend.Nodup) :
    (simWrites subs sv pend ws).2.Nodup := by
  induction ws generalizing sv pend with
  | nil => exact h
  | cons hd tl ih =>
      obtain ⟨i, v⟩ := hd
      rw [simWrites]
      by_cases hv : v = sv i
      · rw [if_pos hv]
        exact ih _ _ h
      · rw [if_neg hv]
        exact ih _ _ (foldl_setAdd_nodup _ _ h)

theorem allEff_exists (l : List Comp) (h : ∀ c ∈ l, ∃ j, c = Comp.eff j) :
    ∃ es : List Nat, l = es.map Comp.eff := by
  induction l with
  | nil => exact ⟨[], rfl⟩
  | cons c rest ih =>
      obtain ⟨j, hj⟩ := h c (List.mem_cons_self c rest)
      obtain ⟨es, hes⟩ := ih (fun c' hc' => h c' (List.mem_cons_of_mem c hc'))
      refine ⟨j :: es, ?_⟩
      rw [List.map_cons, ← hj, ← hes]

/-- Claim C2 (amended): for every sequence of writes performed inside a
single batch (possibly with nested batches), in a world whose subscribers
are all effects (so no pending memo can re-notify an effect during the
drain): nothing executes while the batch is open — nested batch entries
and exits cause no intermediate flush (first conjunct: with the depth
counter still positive the whole operation list leaves the log unchanged);
at the outermost exit the pending set is drained until empty, each
affected effect executes exactly once, in pending order, observing only
the final values written. -/
theorem C2_amended (n : Nat) (w : World) (s : RState) (ops : List Op)
    (hdepth : s.depth = 0) (hpend : s.pending = [])
    (hsubs : ∀ i c, c ∈ s.sigSubs i → ∃ j, c = Comp.eff j)
    (hok : ∀ j (sv : Nat → Value) (mv : Nat → Option Value), ebodyOk sv mv (w.effFn j) = true) :
    ((runOps (n + 2) w { s with depth := 1 } ops).1.log = s.log) ∧
    (runOp (n + 2) w s (.batchOps ops)).2 = true ∧
    (runOp (n + 2) w s (.batchOps ops)).1.sigVal =
      (simWrites s.sigSubs s.sigVal [] (flattenOpList ops)).1 ∧
    (runOp (n + 2) w s (.batchOps ops)).1.pending = [] ∧
    (runOp (n + 2) w s (.batchOps ops)).1.depth = 0 ∧
    (∀ es : List Nat,
      (simWrites s.sigSubs s.sigVal [] (flattenOpList ops)).2 = es.map Comp.eff →
      (runOp (n + 2) w s (.batchOps ops)).1.log =
        s.log ++ (es.map (fun j =>
          (s.cleanups (.eff j)).map Ev.clean ++
            [Ev.effRun j (effVals w { s with sigVal :=
              (simWrites s.sigSubs s.sigVal [] (flattenOpList ops)).1 } j)])).flatten) := by
  have hbody := runOps_batched (n + 2) w { s with depth := 1 } ops (by simp)
  have hinner : runOps (n + 2) w { s with depth := 1 } ops =
      ({ s with sigVal := (simWrites s.sigSubs s.sigVal s.pending (flattenOpList ops)).1,
                pending := (simWrites s.sigSubs s.sigVal s.pending (flattenOpList ops)).2,
                depth := 1 }, true) := hbody
  have hall : ∀ c ∈ (simWrites s.sigSubs s.sigVal [] (flattenOpList ops)).2,
      ∃ j, c = Comp.eff j := by
    intro c hc
    rcases simWrites_pending_mem s.sigSubs (flattenOpList ops) s.sigVal [] c hc with hm | hm
    · cases hm
    · obtain ⟨i, hi⟩ := hm
      exact hsubs i c hi
  obtain ⟨es0, hes0⟩ := allEff_exists _ hall
  have hnd0 : es0.Nodup := by
    have := simWrites_pending_nodup s.sigSubs (flattenOpList ops) s.sigVal [] List.nodup_nil
    rw [hes0] at this
    exact this.of_map Comp.eff
  have hrunOp : runOp (n + 2) w s (.batchOps ops) =
      ((flushPending w (n + 2)
          { s with sigVal := (simWrites s.sigSubs s.sigVal [] (flattenOpList ops)).1,
                   pending := (simWrites s.sigSubs s.sigVal [] (flattenOpList ops)).2,
                   depth := 0 }).1,
        true && (flushPending w (n + 2)
          { s with sigVal := (simWrites s.sigSubs s.sigVal [] (flattenOpList ops)).1,
                   pending := (simWrites s.sigSubs s.sigVal [] (flattenOpList ops)).2,
                   depth := 0 }).2) := by
    rw [runOp]
    have h1 : ({ s with depth := s.depth + 1 } : RState) = { s with depth := 1 } := by
      rw [hdepth]
    rw [h1, hinner]
    simp only [hpend]
  set fv := (simWrites s.sigSubs s.sigVal [] (flattenOpList ops)).1 with hfv
  set pv := (simWrites s.sigSubs s.sigVal [] (flattenOpList ops)).2 with hpv
  obtain ⟨fok, flog, fpend, fsv, fmv, fdep, fcur⟩ :=
    flushPending_effects n w { s with sigVal := fv, pending := pv, depth := 0 } es0 hes0 hok hnd0
  refine ⟨by rw [hinner], ?_, ?_, ?_, ?_, ?_⟩
  · rw [hrunOp]
    simp [fok]
  · rw [hrunOp]
    exact fsv
  · rw [hrunOp]
    exact fpend
  · rw [hrunOp]
    exact fdep
  · intro es hes
    have hinj : Function.Injective Comp.eff := fun a b hab => Comp.eff.inj hab
    have hmaps : es.map Comp.eff = es0.map Comp.eff := by rw [← hes, ← hes0]
    have heq : es = es0 := List.map_injective_iff.mpr hinj hmaps
    subst heq
    rw [hrunOp]
    exact flog


/-- Witness for `C2_amended`: the nested-batch scenario
`batch { set 1; batch { set 2; set 3 }; set 4 }` over a single effect
reading signal 0, starting from the concrete state `mutualState`. -/
theorem C2_amended_witness :
    (runOps 10 singleEffWorld { mutualState with depth := 1 }
        [Op.write 0 1, Op.batchOps [Op.write 0 2, Op.write 0 3], Op.write 0 4]).1.log =
      mutualState.log ∧
    (runOp 10 singleEffWorld mutualState
        (.batchOps [Op.write 0 1, Op.batchOps [Op.write 0 2, Op.write 0 3],
          Op.write 0 4])).2 = true ∧
    (runOp 10 singleEffWorld mutualState
        (.batchOps [Op.write 0 1, Op.batchOps [Op.write 0 2, Op.write 0 3],
          Op.write 0 4])).1.pending = [] ∧
    (runOp 10 singleEffWorld mutualState
        (.batchOps [Op.write 0 1, Op.batchOps [Op.write 0 2, Op.write 0 3],
          Op.write 0 4])).1.log =
      mutualState.log ++ ([0].map (fun j =>
        (mutualState.cleanups (.eff j)).map Ev.clean ++
          [Ev.effRun j (effVals singleEffWorld { mutualState with sigVal :=
            (simWrites mutualState.sigSubs mutualState.sigVal []
              (flattenOpList [Op.write 0 1, Op.batchOps [Op.write 0 2, Op.write 0 3],
                Op.write 0 4])).1 } j)])).flatten := by
  have hsubs : ∀ i c, c ∈ mutualState.sigSubs i → ∃ j, c = Comp.eff j := by
    intro i c hc
    by_cases hi : i = 0
    · subst hi
      have hm : mutualState.sigSubs 0 = [Comp.eff 0] := rfl
      rw [hm] at hc
      exact ⟨0, List.mem_singleton.mp hc⟩
    · have hm : mutualState.sigSubs i = [] := by
        show (if i = 0 then [Comp.eff 0] else []) = []
        rw [if_neg hi]
      rw [hm] at hc
      cases hc
  have h := C2_amended 8 singleEffWorld mutualState
    [Op.write 0 1, Op.batchOps [Op.write 0 2, Op.write 0 3], Op.write 0 4]
    rfl rfl hsubs (fun _ _ _ => rfl)
  exact ⟨h.1, h.2.1, h.2.2.2.1, h.2.2.2.2.2 [0] rfl⟩


theorem setDel_cons_self {α : Type} [DecidableEq α] (l : List α) (x : α) (h : x ∉ l) :
    setDel (x :: l) x = l := by
  rw [setDel, List.filter_cons]
  simp only [ne_eq, not_true_eq_false, decide_False]
  refine List.filter_eq_self.mpr ?_
  intro a ha
  simp only [ne_eq, decide_eq_true_eq]
  exact fun hax => h (hax ▸ ha)

theorem setAdd_notmem {α : Type} [DecidableEq α] (l : List α) (x : α) (h : x ∉ l) :
    setAdd l x = l ++ [x] := by
  rw [setAdd, if_neg h]

theorem foldl_setAdd_eq_append {α : Type} [DecidableEq α] (l acc : List α)
    (h : (acc ++ l).Nodup) : List.foldl setAdd acc l = acc ++ l := by
  induction l generalizing acc with
  | nil => simp
  | cons a rest ih =>
      rw [List.foldl_cons]
      have hna : a ∉ acc := by
        intro hc
        have := List.disjoint_of_nodup_append h
        exact this hc (List.mem_cons_self a rest)
      rw [setAdd_notmem acc a hna]
      have h' : ((acc ++ [a]) ++ rest).Nodup := by
        have : acc ++ a :: rest = (acc ++ [a]) ++ rest := by simp
        rw [← this]
        exact h
      rw [ih (acc ++ [a]) h']
      simp

theorem mbody_memoBodyGo (sv : Nat → Value) (mv : Nat → Option Value)
    (f : List Value → Value) (ds : List Nat) (acc : List Value) :
    mbodyTrace sv mv (memoBodyGo f ds acc) = ds.map (fun d => (Src.sig d, sv d)) ∧
    mbodyVal sv mv (memoBodyGo f ds acc) = some (f (acc.reverse ++ ds.map sv)) := by
  induction ds generalizing acc with
  | nil => simp [memoBodyGo, mbodyTrace, mbodyVal]
  | cons d rest ih =>
      rw [memoBodyGo]
      obtain ⟨iht, ihv⟩ := ih (sv d :: acc)
      constructor
      · rw [mbodyTrace, iht, List.map_cons]
      · rw [mbodyVal, ihv]
        simp

theorem mbodyTrace_memoBody (sv : Nat → Value) (mv : Nat → Option Value)
    (f : List Value → Value) (ds : List Nat) :
    mbodyTrace sv mv (memoBody ds f) = ds.map (fun d => (Src.sig d, sv d)) :=
  (mbody_memoBodyGo sv mv f ds []).1

theorem mbodyVal_memoBody (sv : Nat → Value) (mv : Nat → Option Value)
    (f : List Value → Value) (ds : List Nat) :
    mbodyVal sv mv (memoBody ds f) = some (f (ds.map sv)) := by
  have := (mbody_memoBodyGo sv mv f ds []).2
  simpa using this


/-- A non-throwing execute of an effect whose body just reads memo 0:
the effect rotates to the back of memo 0's subscriber set, its dependency
set becomes exactly memo 0, and a single run event (with the cached memo
value) is logged. Nothing else moves. -/
theorem execEff_readM (w : World) (s : RState) (j : Nat)
    (hw : w.effFn j = EBody.readM 0 (fun _ => EBody.done))
    (hdep : s.deps (Comp.eff j) = [Src.memo 0])
    (hcl : s.cleanups (Comp.eff j) = []) :
    execEff w s j =
      { s with
        memoSubs := fun m =>
          if m = 0 then setAdd (setDel (s.memoSubs 0) (Comp.eff j)) (Comp.eff j)
          else s.memoSubs m,
        deps := fun d => if d = Comp.eff j then [Src.memo 0] else s.deps d,
        log := s.log ++ [Ev.effRun j [(s.memoVal 0).getD 0]] } := by
  have hreads : effReads w s j = [Src.memo 0] := by
    rw [effReads, hw]
    rfl
  have hvals : effVals w s j = [(s.memoVal 0).getD 0] := by
    rw [effVals, hw]
    rfl
  unfold execEff
  apply RState.ext
  all_goals dsimp only
  · funext i
    rw [hdep, hreads]
    simp
  · funext m
    rw [hdep, hreads]
    by_cases hm : m = 0
    · subst hm
      simp
    · have h1 : Src.memo m ≠ Src.memo 0 := by simp [hm]
      simp [hm, h1]
  · funext d
    by_cases hd : d = Comp.eff j
    · subst hd
      rw [if_pos rfl, if_pos rfl, hreads]
      rfl
    · rw [if_neg hd, if_neg hd]
  · funext d
    by_cases hd : d = Comp.eff j
    · subst hd
      rw [if_pos rfl, hw, hcl]
      rfl
    · rw [if_neg hd]
  · rw [hvals, hcl]
    simp

/-- Notification pass over a queue of memo-0-reading effects: each runs
exactly once with the cached memo value, and memo 0's subscriber set ends
as the already-processed effects followed by the queue (each processed
effect rotated to the back). Everything else is untouched. -/
theorem notify_readM_effects (n : Nat) (w : World)
    (hw : ∀ j : Nat, w.effFn j = EBody.readM 0 (fun _ => EBody.done))
    (q done : List Nat) (s : RState)
    (hdepth : s.depth = 0)
    (hnd : (done ++ q).Nodup)
    (hms : s.memoSubs 0 = q.map Comp.eff ++ done.map Comp.eff)
    (hdeps : ∀ j ∈ q, s.deps (Comp.eff j) = [Src.memo 0])
    (hcl : ∀ j : Nat, s.cleanups (Comp.eff j) = []) :
    (notifySubscribers (n + 1) w s (q.map Comp.eff)).2 = true ∧
    (notifySubscribers (n + 1) w s (q.map Comp.eff)).1.log =
      s.log ++ q.map (fun j => Ev.effRun j [(s.memoVal 0).getD 0]) ∧
    (notifySubscribers (n + 1) w s (q.map Comp.eff)).1.sigVal = s.sigVal ∧
    (notifySubscribers (n + 1) w s (q.map Comp.eff)).1.memoVal = s.memoVal ∧
    (notifySubscribers (n + 1) w s (q.map Comp.eff)).1.depth = s.depth ∧
    (notifySubscribers (n + 1) w s (q.map Comp.eff)).1.pending = s.pending ∧
    (notifySubscribers (n + 1) w s (q.map Comp.eff)).1.cur = s.cur ∧
    (notifySubscribers (n + 1) w s (q.map Comp.eff)).1.sigSubs = s.sigSubs ∧
    (notifySubscribers (n + 1) w s (q.map Comp.eff)).1.memoSubs 0 =
      (done ++ q).map Comp.eff ∧
    (∀ m : Nat, m ≠ 0 →
      (notifySubscribers (n + 1) w s (q.map Comp.eff)).1.memoSubs m = s.memoSubs m) ∧
    (∀ j ∈ q, (notifySubscribers (n + 1) w s (q.map Comp.eff)).1.deps (Comp.eff j) =
      [Src.memo 0]) ∧
    (∀ d : Comp, (∀ j ∈ q, d ≠ Comp.eff j) →
      (notifySubscribers (n + 1) w s (q.map Comp.eff)).1.deps d = s.deps d) ∧
    (notifySubscribers (n + 1) w s (q.map Comp.eff)).1.cleanups = s.cleanups := by
  induction q generalizing s done with
  | nil =>
      refine ⟨rfl, by simp [notifySubscribers, runQueue], rfl, rfl, rfl, rfl, rfl, rfl,
        ?_, fun m _ => rfl, fun j hj => absurd hj (List.not_mem_nil j),
        fun d _ => rfl, rfl⟩
      simp only [List.map_nil, notifySubscribers, runQueue]
      rw [hms]
      simp
  | cons j q ih =>
      have hok : ebodyOk s.sigVal s.memoVal (w.effFn j) = true := by rw [hw]; rfl
      have hstep : runComputation (n + 1) w s (Comp.eff j) = (execEff w s j, true) := by
        unfold runComputation
        rw [hdepth]
        simp [execute_eff_spec n w s j hok]
      have hjq : j ∉ q := by
        have := (List.nodup_append.mp hnd).2.1
        exact (List.nodup_cons.mp this).1
      have hjdone : j ∉ done := by
        intro hc
        exact (List.disjoint_of_nodup_append hnd) hc (List.mem_cons_self j q)
      have hjnot : Comp.eff j ∉ q.map Comp.eff ++ done.map Comp.eff := by
        intro hc
        rcases List.mem_append.mp hc with hc1 | hc1
        · obtain ⟨x, hx, hxe⟩ := List.mem_map.mp hc1
          exact hjq (Comp.eff.inj hxe ▸ hx)
        · obtain ⟨x, hx, hxe⟩ := List.mem_map.mp hc1
          exact hjdone (Comp.eff.inj hxe ▸ hx)
      have hdel : setDel (s.memoSubs 0) (Comp.eff j) = q.map Comp.eff ++ done.map Comp.eff := by
        rw [hms]
        have : (Comp.eff j :: q.map Comp.eff) ++ done.map Comp.eff =
            Comp.eff j :: (q.map Comp.eff ++ done.map Comp.eff) := by simp
        rw [List.map_cons, this]
        exact setDel_cons_self _ _ hjnot
      have hexec := execEff_readM w s j (hw j) (hdeps j (List.mem_cons_self j q)) (hcl j)
      set s2 := execEff w s j with hs2
      have hqueue :
          notifySubscribers (n + 1) w s ((j :: q).map Comp.eff) =
            notifySubscribers (n + 1) w s2 (q.map Comp.eff) := by
        unfold notifySubscribers
        rw [List.map_cons, runQueue, hstep]
        simp
      have hnd' : ((done ++ [j]) ++ q).Nodup := by
        have : (done ++ [j]) ++ q = done ++ j :: q := by simp
        rw [this]
        exact hnd
      have hms2 : s2.memoSubs 0 = q.map Comp.eff ++ (done ++ [j]).map Comp.eff := by
        rw [hexec]
        dsimp only
        rw [if_pos rfl, hdel, setAdd_notmem _ _ hjnot]
        simp
      have hdeps2 : ∀ j2 ∈ q, s2.deps (Comp.eff j2) = [Src.memo 0] := by
        intro j2 hj2
        rw [hexec]
        dsimp only
        have : Comp.eff j2 ≠ Comp.eff j := by
          simp only [ne_eq, Comp.eff.injEq]
          intro hc
          exact hjq (hc ▸ hj2)
        rw [if_neg this]
        exact hdeps j2 (List.mem_cons_of_mem j hj2)
      have hcl2 : ∀ j2 : Nat, s2.cleanups (Comp.eff j2) = [] := by
        intro j2
        rw [hexec]
        exact hcl j2
      have hdepth2 : s2.depth = 0 := by rw [hexec]; exact hdepth
      obtain ⟨iok, ilog, isv, imv, idep, ipend, icur, isigsubs, ims0, imsm, idq, idother, icl⟩ :=
        ih (done ++ [j]) s2 hdepth2 hnd' hms2 hdeps2 hcl2
      have hs2mv : s2.memoVal = s.memoVal := by rw [hexec]
      have hs2log : s2.log = s.log ++ [Ev.effRun j [(s.memoVal 0).getD 0]] := by rw [hexec]
      refine ⟨by rw [hqueue]; exact iok, ?_, ?_, ?_, ?_, ?_, ?_, ?_, ?_, ?_, ?_, ?_, ?_⟩
      · rw [hqueue, ilog, hs2log, hs2mv]
        simp
      · rw [hqueue, isv, hexec]
      · rw [hqueue, imv, hexec]
      · rw [hqueue, idep, hdepth2, hdepth]
      · rw [hqueue, ipend, hexec]
      · rw [hqueue, icur, hexec]
      · rw [hqueue, isigsubs, hexec]
      · rw [hqueue, ims0]
        have : (done ++ [j]) ++ q = done ++ j :: q := by simp
        rw [this]
      · intro m hm
        rw [hqueue, imsm m hm, hexec]
        dsimp only
        rw [if_neg hm]
      · intro j2 hj2
        rcases List.mem_cons.mp hj2 with h2 | h2
        · subst h2
          by_cases hq : j2 ∈ q
          · exact hqueue ▸ idq j2 hq
          · rw [hqueue, idother (Comp.eff j2) ?_, hexec]
            · dsimp only
              rw [if_pos rfl]
            · intro j3 hj3
              simp only [ne_eq, Comp.eff.injEq]
              intro hc
              exact hq (hc ▸ hj3)
        · rw [hqueue]
          exact idq j2 h2
      · intro d hd
        rw [hqueue, idother d (fun j3 hj3 => hd j3 (List.mem_cons_of_mem j hj3)), hexec]
        dsimp only
        rw [if_neg (hd j (List.mem_cons_self j q))]

      · rw [hqueue, icl, hexec]


/-- Running memo 0 in the single-path memo world: the memo recomputes from
the tracked signals, re-subscribes to exactly the same signals, logs one run
event, and — only when the fresh value differs from the cached one — updates
the cache and notifies its subscriber snapshot. -/
theorem execute_memo_run (n : Nat) (w : World) (ds : List Nat) (f : List Value → Value)
    (t : RState)
    (hwm : w.memoFn 0 = memoBody ds f)
    (hdm : t.deps (Comp.memo 0) = ds.map Src.sig)
    (hclm : t.cleanups (Comp.memo 0) = [])
    (hsubsIn : ∀ d ∈ ds, t.sigSubs d = [Comp.memo 0])
    (hsubsOut : ∀ k, k ∉ ds → t.sigSubs k = [])
    (hdnd : ds.Nodup) :
    execute (n + 1 + 1) w t (Comp.memo 0) =
      if some (f (ds.map t.sigVal)) = t.memoVal 0
      then ({ t with log := t.log ++ [Ev.memoRun 0 (ds.map t.sigVal)] }, true)
      else
        notifySubscribers (n + 1) w
          { t with
            memoVal := fun m => if m = 0 then some (f (ds.map t.sigVal)) else t.memoVal m,
            log := t.log ++ [Ev.memoRun 0 (ds.map t.sigVal)] }
          (t.memoSubs 0) := by
  have hsignot : ∀ k, k ∉ ds → Src.sig k ∉ ds.map Src.sig := by
    intro k hk hc
    obtain ⟨a, ha, he⟩ := List.mem_map.mp hc
    exact hk (Src.sig.inj he ▸ ha)
  have hmemnot : ∀ k : Nat, Src.memo k ∉ ds.map Src.sig := by
    intro k hc
    obtain ⟨a, ha, he⟩ := List.mem_map.mp hc
    exact Src.noConfusion he
  have hfst : Prod.fst ∘ (fun d => (Src.sig d, t.sigVal d)) = Src.sig := rfl
  have hsnd : Prod.snd ∘ (fun d => (Src.sig d, t.sigVal d)) = t.sigVal := rfl
  have hmapnd : (ds.map Src.sig).Nodup := hdnd.map (fun a b h => Src.sig.inj h)
  have hfold : List.foldl setAdd [] (ds.map Src.sig) = ds.map Src.sig := by
    have := foldl_setAdd_eq_append (ds.map Src.sig) [] (by simpa using hmapnd)
    simpa using this
  rw [execute, cleanupComputation_spec, runMBody_spec _ _ _ (Comp.memo 0) rfl]
  dsimp only [afterBody]
  rw [hwm]
  simp only [mbodyTrace_memoBody, mbodyVal_memoBody, List.map_map, hfst, hsnd, hdm, hclm,
    List.map_nil, List.append_nil, List.nil_append]
  by_cases hc : some (f (ds.map t.sigVal)) = t.memoVal 0
  · rw [if_pos hc, if_pos hc]
    refine Prod.ext ?_ rfl
    apply RState.ext
    all_goals dsimp only
    · funext k
      by_cases hk : k ∈ ds
      · simp only [if_pos (List.mem_map_of_mem Src.sig hk), hsubsIn k hk]
        decide
      · simp only [if_neg (hsignot k hk)]
    · funext k
      simp only [if_neg (hmemnot k)]
    · funext d
      by_cases hd : d = Comp.memo 0
      · subst hd
        simp only [if_pos rfl, if_true, hfold, hdm]
      · simp only [if_neg hd]
    · funext d
      by_cases hd : d = Comp.memo 0
      · subst hd
        simp only [if_pos rfl]
        exact hclm.symm
      · simp only [if_neg hd]
  · rw [if_neg hc, if_neg hc]
    have hstep : (fun (s : RState) (c : Comp) =>
        if 0 < s.depth then ({ s with pending := setAdd s.pending c }, true)
        else execute (n + 1) w s c) = runComputation (n + 1) w := rfl
    rw [hstep]
    unfold notifySubscribers
    congr 1
    · apply RState.ext
      all_goals dsimp only
      · funext k
        by_cases hk : k ∈ ds
        · simp only [if_pos (List.mem_map_of_mem Src.sig hk), hsubsIn k hk]
          decide
        · simp only [if_neg (hsignot k hk)]
      · funext k
        simp only [if_neg (hmemnot k)]
      · funext d
        by_cases hd : d = Comp.memo 0
        · subst hd
          simp only [if_pos rfl, if_true, hfold, hdm]
        · simp only [if_neg hd]
      · funext d
        by_cases hd : d = Comp.memo 0
        · subst hd
          simp only [if_pos rfl]
          exact hclm.symm
        · simp only [if_neg hd]
    · simp only [if_neg (hmemnot 0)]


/-- Claim C1, amended to the single-path setting its universal form holds
in (the counterexample above shows the diamond case fails): with one memo
tracking exactly the signals `ds` and subscribed to by the effects `es`
(each of which tracks only the memo), an external write (a) not changing
the signal's value runs nothing at all; (b) changing a signal the memo
does not track does not recompute the memo (the state is exactly the
written state); (c) changing a tracked signal recomputes the memo exactly
once, and it notifies its subscribers exactly when its output value
changed.  In every case the invariant is preserved. -/
theorem C1_amended (n : Nat) (w : World) (ds es : List Nat) (f : List Value → Value)
    (s : RState) (i : Nat) (v : Value)
    (hwm : w.memoFn 0 = memoBody ds f)
    (hwe : ∀ j : Nat, w.effFn j = EBody.readM 0 (fun _ => EBody.done))
    (hinv : MemoInv ds es f s) :
    (v = s.sigVal i → Signal.write (n + 1 + 1) w s i v = (s, true)) ∧
    (v ≠ s.sigVal i → i ∉ ds →
      Signal.write (n + 1 + 1) w s i v = (writtenState s i v, true) ∧
      MemoInv ds es f (writtenState s i v)) ∧
    (v ≠ s.sigVal i → i ∈ ds →
      (Signal.write (n + 1 + 1) w s i v).2 = true ∧
      (Signal.write (n + 1 + 1) w s i v).1.log =
        s.log ++ Ev.memoRun 0 (ds.map (writtenState s i v).sigVal) ::
          (if some (f (ds.map (writtenState s i v).sigVal)) = s.memoVal 0 then []
           else es.map (fun j => Ev.effRun j [f (ds.map (writtenState s i v).sigVal)])) ∧
      MemoInv ds es f (Signal.write (n + 1 + 1) w s i v).1) := by
  obtain ⟨hdepth, hpend, hcur, hdnd, hend, hsubsIn, hsubsOut, hdm, hmv, hms, hclm, hcle, hde⟩ :=
    hinv
  refine ⟨fun h => write_noop _ w s i v h, fun hne hni => ?_, fun hne hdi => ?_⟩
  · rw [write_change _ w s i v hne]
    have hs0 : (writtenState s i v).sigSubs i = [] := hsubsOut i hni
    rw [hs0]
    have hmap : ds.map (writtenState s i v).sigVal = ds.map s.sigVal := by
      refine List.map_congr_left ?_
      intro d hd
      show (if d = i then v else s.sigVal d) = s.sigVal d
      exact if_neg (fun hc : d = i => hni (hc ▸ hd))
    refine ⟨by rw [notifySubscribers, runQueue], hdepth, hpend, hcur, hdnd, hend,
      hsubsIn, hsubsOut, hdm, ?_, hms, hclm, hcle, hde⟩
    rw [hmap]
    exact hmv
  · rw [write_change _ w s i v hne]
    set t := writtenState s i v with ht
    have htd : t.depth = 0 := hdepth
    have hs0 : t.sigSubs i = [Comp.memo 0] := hsubsIn i hdi
    rw [hs0]
    have hrun := execute_memo_run n w ds f t hwm hdm hclm hsubsIn hsubsOut hdnd
    rw [show t.memoVal 0 = s.memoVal 0 from rfl] at hrun
    by_cases hval : some (f (ds.map t.sigVal)) = s.memoVal 0
    · rw [if_pos hval] at hrun
      have hcomp : runComputation (n + 1 + 1) w t (Comp.memo 0) =
          ({ t with log := t.log ++ [Ev.memoRun 0 (ds.map t.sigVal)] }, true) := by
        unfold runComputation
        have hlt : ¬0 < t.depth := by
          rw [htd]
          exact lt_irrefl 0
        rw [if_neg hlt]
        exact hrun
      have hone : notifySubscribers (n + 1 + 1) w t [Comp.memo 0] =
          ({ t with log := t.log ++ [Ev.memoRun 0 (ds.map t.sigVal)] }, true) := by
        rw [notifySubscribers, runQueue, hcomp]
        simp [runQueue]
      rw [hone]
      refine ⟨rfl, ?_, hdepth, hpend, hcur, hdnd, hend, hsubsIn, hsubsOut, hdm, ?_, hms,
        hclm, hcle, hde⟩
      · rw [if_pos hval]
        rfl
      · exact hval.symm
    · rw [if_neg hval] at hrun
      rw [show t.memoSubs 0 = es.map Comp.eff from hms] at hrun
      have hN := notify_readM_effects n w hwe es []
        { t with
          memoVal := fun m => if m = 0 then some (f (ds.map t.sigVal)) else t.memoVal m,
          log := t.log ++ [Ev.memoRun 0 (ds.map t.sigVal)] }
        hdepth (by simpa using hend)
        (by simp only [List.map_nil, List.append_nil]; exact hms) hde hcle
      obtain ⟨iok, ilog, isv, imv, idep2, ipend2, icur2, isigsubs, ims0, imsm, idq, idother,
        icl⟩ := hN
      have hcomp : runComputation (n + 1 + 1) w t (Comp.memo 0) =
          notifySubscribers (n + 1) w
            { t with
              memoVal := fun m => if m = 0 then some (f (ds.map t.sigVal)) else t.memoVal m,
              log := t.log ++ [Ev.memoRun 0 (ds.map t.sigVal)] }
            (es.map Comp.eff) := by
        unfold runComputation
        have hlt : ¬0 < t.depth := by
          rw [htd]
          exact lt_irrefl 0
        rw [if_neg hlt]
        exact hrun
      have hone : notifySubscribers (n + 1 + 1) w t [Comp.memo 0] =
          ((notifySubscribers (n + 1) w
            { t with
              memoVal := fun m => if m = 0 then some (f (ds.map t.sigVal)) else t.memoVal m,
              log := t.log ++ [Ev.memoRun 0 (ds.map t.sigVal)] }
            (es.map Comp.eff)).1, true) := by
        rw [notifySubscribers, runQueue, hcomp, iok]
        simp [runQueue]
      rw [hone]
      refine ⟨rfl, ?_, ?_, ?_, ?_, hdnd, hend, ?_, ?_, ?_, ?_, ?_, ?_, ?_, ?_⟩
      · rw [if_neg hval, ilog]
        have hTm : (({ t with
            memoVal := fun m => if m = 0 then some (f (ds.map t.sigVal)) else t.memoVal m,
            log := t.log ++ [Ev.memoRun 0 (ds.map t.sigVal)] } : RState).memoVal 0).getD 0 =
            f (ds.map t.sigVal) := rfl
        simp only [hTm]
        show (t.log ++ [Ev.memoRun 0 (ds.map t.sigVal)]) ++
            es.map (fun j => Ev.effRun j [f (ds.map t.sigVal)]) = _
        simp only [List.append_assoc, List.singleton_append]
        rw [ht]
        rfl
      · rw [idep2]
        exact hdepth
      · rw [ipend2]
        exact hpend
      · rw [icur2]
        exact hcur
      · intro d hd
        rw [isigsubs]
        exact hsubsIn d hd
      · intro k hk
        rw [isigsubs]
        exact hsubsOut k hk
      · rw [idother (Comp.memo 0) (fun j _ h => Comp.noConfusion h)]
        exact hdm
      · rw [imv, isv]
        rfl
      · rw [ims0]
        simp
      · rw [icl]
        exact hclm
      · intro j
        rw [icl]
        exact hcle j
      · exact idq

/-- Concrete instance of the amended C1: in `memoWitWorld` (memo 0 mirrors
signal 0; effect 5 reads memo 0) in the invariant state, the write
`signal0 := 1` runs the memo once and the effect once, with the new value. -/
theorem C1_amended_witness :
    (Signal.write 10 memoWitWorld memoInvState 0 1).2 = true ∧
    (Signal.write 10 memoWitWorld memoInvState 0 1).1.log =
      [Ev.memoRun 0 [1], Ev.effRun 5 [1]] := by
  have hinv : MemoInv [0] [5] (fun vs => vs.headI) memoInvState := by
    refine ⟨rfl, rfl, rfl, by decide, by decide, ?_, ?_, by decide, by decide, by decide,
      rfl, fun j => rfl, ?_⟩
    · intro d hd
      rw [List.mem_singleton] at hd
      subst hd
      rfl
    · intro k hk
      have hk0 : ¬k = 0 := by simpa using hk
      show (if k = 0 then [Comp.memo 0] else []) = []
      rw [if_neg hk0]
    · intro j hj
      rw [List.mem_singleton] at hj
      subst hj
      decide
  have h := C1_amended 8 memoWitWorld [0] [5] (fun vs => vs.headI) memoInvState 0 1
    rfl (fun j => rfl) hinv
  have h3 := h.2.2 (by decide) (by decide)
  refine ⟨h3.1, ?_⟩
  rw [h3.2.1]
  decide


/-- Claim C8 is false as stated: on the template `<div></span>` the parser
does raise a fatal error and returns no tree, but the message reports only
the closing tag's name — it is exactly `Mismatched closing tag </span>.`,
which contains the closing name `span` and does not contain the popped
open tag's name `div` anywhere. -/
theorem C8_counterexample :
    parseTemplate "<div></span>" = Except.error "Mismatched closing tag </span>." ∧
    hasSubstr "span".data "Mismatched closing tag </span>.".data = true ∧
    hasSubstr "div".data "Mismatched closing tag </span>.".data = false :=
  ⟨rfl, rfl, rfl⟩

/-- Claim C8, amended: whenever the remaining input starts with a
well-formed closing tag whose name differs from the tag of the topmost
open element (or the stack is empty), the parser aborts with the fatal
error `Mismatched closing tag </` tag `>.` — the message carries the
closing tag's name only — and produces no tree (the result is an
`Except.error`, never a partial `Except.ok`). -/
theorem C8_amended (fuel : Nat) (rest : List Char) (tag : String) (len : Nat)
    (stack : List PFrame) (root : List TemplateNode)
    (hclose : matchCloseTag ('<' :: '/' :: rest) = some (tag, len))
    (hmis : ∀ f : PFrame, stack.head? = some f → f.1 ≠ tag) :
    parseLoop (fuel + 1) ('<' :: '/' :: rest) stack root =
      Except.error ("Mismatched closing tag </" ++ tag ++ ">.") := by
  rw [parseLoop]
  have hcomment : ['!', '-', '-'].isPrefixOf ('/' :: rest) = false := rfl
  have hslash : ['/'].isPrefixOf ('/' :: rest) = true := by cases rest <;> rfl
  rw [hcomment, hslash]
  simp only [Bool.false_eq_true, if_false, if_true]
  rw [hclose]
  match stack, hmis with
  | [], _ => rfl
  | (t, a, kids) :: stack2, hmis =>
      have hne : t ≠ tag := hmis (t, a, kids) rfl
      simp only [if_neg hne]

/-- Concrete instance of the amended C8: closing tag `</span>` against an
open `<div>` frame aborts with the message naming `span`. -/
theorem C8_amended_witness :
    matchCloseTag ('<' :: '/' :: "span>".data) = some ("span", 7) ∧
    parseLoop 9 ('<' :: '/' :: "span>".data) [("div", [], [])] [] =
      Except.error ("Mismatched closing tag </" ++ "span" ++ ">.") := by
  refine ⟨rfl, C8_amended 8 _ "span" 7 _ _ rfl ?_⟩
  intro f hf
  have hfv : ("div", ([] : List RawAttribute), ([] : List TemplateNode)) = f :=
    Option.some.inj hf
  rw [← hfv]
  decide

theorem dropSpaces_indent (k : Nat) (r : List Char) :
    ((indentRepeat k).data ++ r).dropWhile (fun c => c = ' ') =
      r.dropWhile (fun c => c = ' ') := by
  induction k with
  | zero => rfl
  | succ n ih =>
      rw [indentRepeat, String.data_append]
      show (' ' :: ' ' :: ((indentRepeat n).data ++ r)).dropWhile (fun c => c = ' ') = _
      rw [List.dropWhile_cons_of_pos (by decide), List.dropWhile_cons_of_pos (by decide), ih]

theorem indentRepeat_length (k : Nat) : (indentRepeat k).data.length = 2 * k := by
  induction k with
  | zero => rfl
  | succ n ih =>
      rw [indentRepeat, String.data_append]
      show (' ' :: ' ' :: (indentRepeat n).data).length = 2 * (n + 1)
      simp [ih]
      omega

theorem dropWhile_of_head_ne (l : List Char) (h : l.head? ≠ some ' ') :
    l.dropWhile (fun c => c = ' ') = l := by
  cases l with
  | nil => rfl
  | cons a t =>
      have ha : a ≠ ' ' := fun he => h (by rw [he]; rfl)
      exact List.dropWhile_cons_of_neg (by simpa using ha)

theorem isMarkerDeclLine_indent (j : Nat) (c : String) :
    isMarkerDeclLine (indentRepeat j ++ c) = markerCore (c.data.dropWhile (fun x => x = ' ')) := by
  unfold isMarkerDeclLine
  rw [String.data_append, dropSpaces_indent]

theorem isMarkerDeclLine_of_stripped (l : String) (h : l.data.head? ≠ some ' ') :
    isMarkerDeclLine l = markerCore l.data := by
  unfold isMarkerDeclLine
  rw [dropWhile_of_head_ne _ h]

theorem markerCore_cons_false (ch : Char) (t : List Char) (h : ch ≠ 'c') :
    markerCore (ch :: t) = false := by
  have hpre : ("const __node".data.isPrefixOf (ch :: t)) = false := by
    show (('c' == ch) && ("onst __node".data.isPrefixOf t)) = false
    rw [beq_eq_false_iff_ne.mpr (fun he => h he.symm), Bool.false_and]
  unfold markerCore
  rw [hpre, Bool.false_and, Bool.false_and]

theorem isPrefixOf_append_of_le (pat l t : List Char) (h : pat.length ≤ l.length) :
    pat.isPrefixOf (l ++ t) = pat.isPrefixOf l := by
  induction pat generalizing l with
  | nil =>
      cases l with
      | nil => cases t <;> rfl
      | cons b l => rfl
  | cons a pat ih =>
      cases l with
      | nil => simp at h
      | cons b l =>
          show (a == b && pat.isPrefixOf (l ++ t)) = (a == b && pat.isPrefixOf l)
          rw [ih l (by simpa using h)]

theorem isPrefixOf_self_append (pat t : List Char) : pat.isPrefixOf (pat ++ t) = true := by
  induction pat with
  | nil => cases t <;> rfl
  | cons a pat ih =>
      show (a == a && pat.isPrefixOf (pat ++ t)) = true
      rw [beq_self_eq_true, Bool.true_and, ih]

theorem markerCore_litprefix_false (lit t : List Char) (hlen : 12 ≤ lit.length)
    (hpre : "const __node".data.isPrefixOf lit = false) :
    markerCore (lit ++ t) = false := by
  unfold markerCore
  have h12 : ("const __node".data).length ≤ lit.length := by
    have : ("const __node".data).length = 12 := rfl
    omega
  rw [isPrefixOf_append_of_le _ _ _ h12, hpre, Bool.false_and, Bool.false_and]

theorem toDigitsCore_digits (f : Nat) : ∀ (n : Nat) (acc : List Char),
    acc.all Char.isDigit = true → (Nat.toDigitsCore 10 f n acc).all Char.isDigit = true := by
  induction f with
  | zero => intro n acc h; exact h
  | succ f ih =>
      intro n acc h
      have h10 : n % 10 < 10 := Nat.mod_lt _ (by norm_num)
      have hd : (Nat.digitChar (n % 10)).isDigit = true := by
        set m := n % 10 with hm
        interval_cases m <;> decide
      have hall : (Nat.digitChar (n % 10) :: acc).all Char.isDigit = true := by
        rw [List.all_cons, hd, Bool.true_and]; exact h
      show (if n / 10 = 0 then Nat.digitChar (n % 10) :: acc
        else Nat.toDigitsCore 10 f (n / 10) (Nat.digitChar (n % 10) :: acc)).all
          Char.isDigit = true
      split_ifs with h0
      · exact hall
      · exact ih _ _ hall

theorem toDigitsCore_length (f : Nat) : ∀ (n : Nat) (acc : List Char),
    acc.length ≤ (Nat.toDigitsCore 10 f n acc).length := by
  induction f with
  | zero => intro n acc; exact Nat.le_refl _
  | succ f ih =>
      intro n acc
      show acc.length ≤ (if n / 10 = 0 then Nat.digitChar (n % 10) :: acc
        else Nat.toDigitsCore 10 f (n / 10) (Nat.digitChar (n % 10) :: acc)).length
      split_ifs with h0
      · simp
      · have := ih (n / 10) (Nat.digitChar (n % 10) :: acc)
        simp only [List.length_cons] at this
        omega

theorem natRepr_data (n : Nat) : (Nat.repr n).data = Nat.toDigitsCore 10 (n + 1) n [] := rfl

theorem natRepr_all_digit (n : Nat) : (Nat.repr n).data.all Char.isDigit = true := by
  rw [natRepr_data]; exact toDigitsCore_digits (n + 1) n [] rfl

theorem natRepr_length (n : Nat) : 1 ≤ (Nat.repr n).data.length := by
  rw [natRepr_data]
  show 1 ≤ (if n / 10 = 0 then Nat.digitChar (n % 10) :: ([] : List Char)
    else Nat.toDigitsCore 10 n (n / 10) (Nat.digitChar (n % 10) :: [])).length
  split_ifs with h0
  · simp
  · have := toDigitsCore_length n (n / 10) (Nat.digitChar (n % 10) :: [])
    simp only [List.length_cons, List.length_nil] at this
    omega

theorem natRepr_ne_nil (n : Nat) : (Nat.repr n).data ≠ [] := by
  intro h
  have := natRepr_length n
  rw [h] at this
  simp at this

theorem natRepr_last (n : Nat) : ∃ (front : List Char) (d : Char),
    (Nat.repr n).data = front ++ [d] ∧ d.isDigit = true := by
  have h1 := natRepr_ne_nil n
  refine ⟨(Nat.repr n).data.dropLast, (Nat.repr n).data.getLast h1,
    (List.dropLast_append_getLast h1).symm, ?_⟩
  exact List.all_eq_true.mp (natRepr_all_digit n) _ (List.getLast_mem h1)

theorem toString_nat (n : Nat) : toString n = Nat.repr n := rfl

theorem takeWhile_append_not (p : Char → Bool) (l₁ : List Char) (c : Char) (l₂ : List Char)
    (h1 : l₁.all p = true) (h2 : p c = false) :
    (l₁ ++ c :: l₂).takeWhile p = l₁ := by
  induction l₁ with
  | nil => exact List.takeWhile_cons_of_neg (by simp [h2])
  | cons a l ih =>
      rw [List.all_cons, Bool.and_eq_true] at h1
      rw [List.cons_append, List.takeWhile_cons_of_pos h1.1, ih h1.2]

theorem dropWhile_append_not (p : Char → Bool) (l₁ : List Char) (c : Char) (l₂ : List Char)
    (h1 : l₁.all p = true) (h2 : p c = false) :
    (l₁ ++ c :: l₂).dropWhile p = c :: l₂ := by
  induction l₁ with
  | nil => exact List.dropWhile_cons_of_neg (by simp [h2])
  | cons a l ih =>
      rw [List.all_cons, Bool.and_eq_true] at h1
      rw [List.cons_append, List.dropWhile_cons_of_pos h1.1, ih h1.2]

/-- The declaration-line content test: `const __node<i> = <expr>;` is a
marker declaration exactly when the declared expression is the marker
comment constructor. -/
theorem markerCore_decl (i : Nat) (expr : String) (t : List Char)
    (ht : t = "const __node".data ++ (Nat.repr i).data ++
      (" = ".data ++ expr.data ++ [';'])) :
    markerCore t = decide (expr = "document.createComment(\x27tn-if\x27)") := by
  subst ht
  unfold markerCore
  rw [List.append_assoc, isPrefixOf_self_append]
  have hdrop : (("const __node".data ++ ((Nat.repr i).data ++
      (" = ".data ++ expr.data ++ [';']))).drop 12) =
      (Nat.repr i).data ++ (" = ".data ++ expr.data ++ [';']) := by
    rw [show (12 : Nat) = ("const __node".data).length from rfl, List.drop_left]
  rw [hdrop]
  have hcons : " = ".data ++ expr.data ++ [';'] =
      ' ' :: ('=' :: (' ' :: (expr.data ++ [';']))) := by
    rw [List.append_assoc]; rfl
  rw [hcons]
  rw [takeWhile_append_not _ _ _ _ (natRepr_all_digit i) (by decide),
      dropWhile_append_not _ _ _ _ (natRepr_all_digit i) (by decide)]
  have hne : ¬ ((Nat.repr i).data).isEmpty = true := by
    cases h : (Nat.repr i).data with
    | nil => exact absurd h (natRepr_ne_nil i)
    | cons a l => simp [List.isEmpty]
  rw [Bool.true_and]
  rw [show (!(Nat.repr i).data.isEmpty) = true from by
    cases h : (Nat.repr i).data with
    | nil => exact absurd h (natRepr_ne_nil i)
    | cons a l => rfl]
  rw [Bool.true_and]
  apply decide_eq_decide.mpr
  constructor
  · intro h
    have htail : " = document.createComment(\x27tn-if\x27);".data =
        ' ' :: ('=' :: (' ' :: ("document.createComment(\x27tn-if\x27)".data ++ [';']))) := rfl
    rw [htail] at h
    have h1 := List.tail_eq_of_cons_eq h
    have h2 := List.tail_eq_of_cons_eq h1
    have h3 := List.tail_eq_of_cons_eq h2
    have h4 := List.append_cancel_right h3
    exact String.ext h4
  · intro h
    rw [h]
    rfl

theorem markerCore_suffix (t : List Char) (h : markerCore t = true) :
    " = document.createComment(\x27tn-if\x27);".data <:+ t := by
  unfold markerCore at h
  rw [Bool.and_eq_true, Bool.and_eq_true] at h
  have hC := of_decide_eq_true h.2
  rw [← hC]
  exact (List.dropWhile_suffix _).trans (List.drop_suffix _ _)

theorem isMarker_suffix (l : String) (h : isMarkerDeclLine l = true) :
    " = document.createComment(\x27tn-if\x27);".data <:+ l.data :=
  (markerCore_suffix _ h).trans (List.dropWhile_suffix _)

theorem suffix_eq_of_length (s₁ s₂ t : List Char) (h₁ : s₁ <:+ t) (h₂ : s₂ <:+ t)
    (hl : s₁.length = s₂.length) : s₁ = s₂ := by
  obtain ⟨u₁, hu₁⟩ := h₁
  obtain ⟨u₂, hu₂⟩ := h₂
  have h := hu₁.trans hu₂.symm
  have hlu : u₁.length = u₂.length := by
    have := congrArg List.length h
    simp only [List.length_append] at this
    omega
  exact (List.append_inj h hlu).2

/-- Any line ending in a non-quote character followed by `);` is not a
marker declaration. -/
theorem isMarker_false_of_last3 (l : String) (front : List Char) (d : Char)
    (hl : l.data = front ++ [d, ')', ';']) (hd : d ≠ '\x27') :
    isMarkerDeclLine l = false := by
  rw [Bool.eq_false_iff]
  intro htrue
  have hs := isMarker_suffix l htrue
  have hs2 : [d, ')', ';'] <:+ l.data := ⟨front, hl.symm⟩
  have h3 : ['\x27', ')', ';'] <:+ " = document.createComment(\x27tn-if\x27);".data :=
    ⟨" = document.createComment(\x27tn-if".data, by decide⟩
  have heq := suffix_eq_of_length _ _ _ hs2 (h3.trans hs) rfl
  have : d = '\x27' := by
    have := List.head_eq_of_cons_eq heq
    exact this
  exact hd this

/-- Any line ending in a non-parenthesis character followed by `;` is not
a marker declaration. -/
theorem isMarker_false_of_last2 (l : String) (front : List Char) (d : Char)
    (hl : l.data = front ++ [d, ';']) (hd : d ≠ ')') :
    isMarkerDeclLine l = false := by
  rw [Bool.eq_false_iff]
  intro htrue
  have hs := isMarker_suffix l htrue
  have hs2 : [d, ';'] <:+ l.data := ⟨front, hl.symm⟩
  have h2 : [')', ';'] <:+ " = document.createComment(\x27tn-if\x27);".data :=
    ⟨" = document.createComment(\x27tn-if\x27".data, by decide⟩
  have heq := suffix_eq_of_length _ _ _ hs2 (h2.trans hs) rfl
  exact hd (List.head_eq_of_cons_eq heq)

theorem head?_append_left (a b : String) (ch : Char) (h : a.data.head? = some ch) :
    (a ++ b).data.head? = some ch := by
  rw [String.data_append, List.head?_append, h]
  rfl

theorem string_ne_empty_of_head (a : String) (ch : Char) (h : a.data.head? = some ch) :
    a ≠ "" := by
  intro he
  rw [he] at h
  exact Option.noConfusion h

/-- The universal single-line fact: indentation followed by content whose
head is neither a space nor `c` is not a marker declaration, and is a body
line for any base indentation below it. -/
theorem bodyline_of_head (k j : Nat) (c : String) (ch : Char) (hk : k ≤ j)
    (hch : c.data.head? = some ch) (hsp : ch ≠ ' ') (hc : ch ≠ 'c') :
    BodyLine k (indentRepeat j ++ c) := by
  have hne : c.data.head? ≠ some ' ' := by
    rw [hch]; intro h; exact hsp (Option.some.inj h)
  refine ⟨?_, j, c, hk, hne, string_ne_empty_of_head c ch hch, rfl⟩
  rw [isMarkerDeclLine_indent, dropWhile_of_head_ne _ hne]
  cases hd : c.data with
  | nil => rw [hd] at hch; exact Option.noConfusion hch
  | cons a t =>
      rw [hd] at hch
      have : a = ch := Option.some.inj hch
      subst this
      exact markerCore_cons_false _ _ hc

/-- A body-line fact for content whose marker-falsity is established
separately (contents that do start with `c`). -/
theorem bodyline_of_content (k j : Nat) (c : String) (ch : Char) (hk : k ≤ j)
    (hch : c.data.head? = some ch) (hsp : ch ≠ ' ')
    (hm : markerCore c.data = false) :
    BodyLine k (indentRepeat j ++ c) := by
  have hne : c.data.head? ≠ some ' ' := by
    rw [hch]; intro h; exact hsp (Option.some.inj h)
  refine ⟨?_, j, c, hk, hne, string_ne_empty_of_head c ch hch, rfl⟩
  rw [isMarkerDeclLine_indent, dropWhile_of_head_ne _ hne]
  exact hm

/-- A body-line fact via the closing-characters rule (lines whose leading
string is arbitrary, e.g. headed by the caller's parent name). -/
theorem bodyline_of_last (k j : Nat) (c : String) (front : List Char) (d : Char)
    (hk : k ≤ j) (hch : c.data.head? ≠ some ' ') (hcne : c ≠ "")
    (hl : (indentRepeat j ++ c).data = front ++ [d, ')', ';']) (hd : d ≠ '\x27') :
    BodyLine k (indentRepeat j ++ c) :=
  ⟨isMarker_false_of_last3 _ front d hl hd, j, c, hk, hch, hcne, rfl⟩

/-- Two indentation-plus-content lines with non-space content heads are
equal exactly when indentation and content agree. -/
theorem indent_line_eq_iff (i j : Nat) (c d : String)
    (hc : c.data.head? ≠ some ' ') (hd : d.data.head? ≠ some ' ') :
    indentRepeat j ++ c = indentRepeat i ++ d ↔ (j = i ∧ c = d) := by
  constructor
  · intro h
    have hdata := congrArg String.data h
    rw [String.data_append, String.data_append] at hdata
    have h1 : c.data = d.data := by
      have h2 := congrArg (List.dropWhile (fun x => x = ' ')) hdata
      rw [dropSpaces_indent, dropSpaces_indent, dropWhile_of_head_ne _ hc,
        dropWhile_of_head_ne _ hd] at h2
      exact h2
    have hcd : c = d := String.ext h1
    have h3 := congrArg List.length hdata
    rw [List.length_append, List.length_append, h1, indentRepeat_length,
      indentRepeat_length] at h3
    exact ⟨by omega, hcd⟩
  · rintro ⟨rfl, rfl⟩
    rfl

theorem string_ne_of_last (a b : String) (x y : Char) (hx : a.data.getLast? = some x)
    (hy : b.data.getLast? = some y) (hxy : x ≠ y) : a ≠ b := by
  intro h
  rw [h] at hx
  rw [hx] at hy
  exact hxy (Option.some.inj hy)

theorem getLast?_append_right (a b : String) (x : Char) (h : b.data.getLast? = some x) :
    (a ++ b).data.getLast? = some x := by
  rw [String.data_append]
  have hb : b.data ≠ [] := by
    intro he; rw [he] at h; exact Option.noConfusion h
  rw [List.getLast?_append_of_ne_nil _ hb, h]

theorem countLines_append (p : String → Bool) (a b : List String) :
    countLines p (a ++ b) = countLines p a + countLines p b := by
  unfold countLines
  rw [List.filter_append, List.length_append]

theorem countLines_nil (p : String → Bool) : countLines p [] = 0 := rfl

theorem countLines_eq_zero (p : String → Bool) (ls : List String)
    (h : ∀ l ∈ ls, p l = false) : countLines p ls = 0 := by
  unfold countLines
  rw [List.filter_eq_nil_iff.mpr (fun l hl => by rw [h l hl]; exact Bool.false_ne_true)]
  rfl

theorem countLines_cons (p : String → Bool) (l : String) (ls : List String) :
    countLines p (l :: ls) = (if p l = true then 1 else 0) + countLines p ls := by
  unfold countLines
  rw [List.filter_cons]
  split_ifs <;> simp [Nat.add_comm]

/-- An expression containing a character absent from the marker expression
is not the marker expression. -/
theorem decide_ne_marker_of_mem (expr : String) (ch : Char) (h : ch ∈ expr.data)
    (hm : ch ∉ ("document.createComment(\x27tn-if\x27)" : String).data) :
    decide (expr = "document.createComment(\x27tn-if\x27)") = false := by
  apply decide_eq_false
  intro he
  rw [he] at h
  exact hm h

theorem nodeName_data (base : String) (i : Nat) :
    (("__" ++ base ++ toString i) : String).data =
      '_' :: '_' :: (base.data ++ (Nat.repr i).data) := by
  rw [String.data_append, String.data_append, toString_nat]
  rfl

theorem nodeName_head (base : String) (i : Nat) :
    (("__" ++ base ++ toString i) : String).data.head? = some '_' := by
  rw [nodeName_data]
  rfl

theorem nodeName_last (base : String) (i : Nat) : ∃ (front : List Char) (d : Char),
    (("__" ++ base ++ toString i) : String).data = front ++ [d] ∧ d.isDigit = true := by
  obtain ⟨fr, d, hfr, hd⟩ := natRepr_last i
  refine ⟨'_' :: '_' :: (base.data ++ fr), d, ?_, hd⟩
  rw [nodeName_data, hfr]
  simp

theorem digit_ne_quote (d : Char) (hd : d.isDigit = true) : d ≠ '\x27' := by
  intro he
  rw [he] at hd
  exact absurd hd (by decide)

theorem digit_ne_rparen (d : Char) (hd : d.isDigit = true) : d ≠ ')' := by
  intro he
  rw [he] at hd
  exact absurd hd (by decide)

theorem emitspec_refl (ctx : CodegenContext) : EmitSpec ctx ctx :=
  ⟨rfl, [], by simp, fun l hl => absurd hl (List.not_mem_nil l)⟩

theorem emitspec_trans (a b c : CodegenContext) (h1 : EmitSpec a b) (h2 : EmitSpec b c) :
    EmitSpec a c := by
  obtain ⟨hi1, l1, hl1, hb1⟩ := h1
  obtain ⟨hi2, l2, hl2, hb2⟩ := h2
  refine ⟨hi2.trans hi1, l1 ++ l2, by rw [hl2, hl1, List.append_assoc], ?_⟩
  intro l hl
  rcases List.mem_append.mp hl with h | h
  · exact hb1 l h
  · exact hi1 ▸ hb2 l h

theorem indentInc_lines (ctx : CodegenContext) : (indentInc ctx).lines = ctx.lines := by
  cases ctx; rfl

theorem indentInc_indent (ctx : CodegenContext) : (indentInc ctx).indent = ctx.indent + 1 := by
  cases ctx; rfl

theorem indentDec_lines (ctx : CodegenContext) : (indentDec ctx).lines = ctx.lines := by
  cases ctx; rfl

theorem indentDec_indent (ctx : CodegenContext) : (indentDec ctx).indent = ctx.indent - 1 := by
  cases ctx; rfl

theorem pushLine_lines2 (ctx : CodegenContext) (l : String) :
    (pushLine ctx l).lines = ctx.lines ++ [indentRepeat ctx.indent ++ l] := by
  cases ctx; rfl

theorem pushLine_indent2 (ctx : CodegenContext) (l : String) :
    (pushLine ctx l).indent = ctx.indent := by
  cases ctx; rfl

theorem declareNode_fst_lines (ctx : CodegenContext) (expr : String) :
    (declareNode ctx expr).1.lines = ctx.lines ++ [indentRepeat ctx.indent ++
      ("const " ++ ("__" ++ "node" ++ toString ctx.identifier) ++ " = " ++ expr ++ ";")] := by
  cases ctx; rfl

theorem declareNode_fst_indent (ctx : CodegenContext) (expr : String) :
    (declareNode ctx expr).1.indent = ctx.indent := by
  cases ctx; rfl

theorem declareNode_snd (ctx : CodegenContext) (expr : String) :
    (declareNode ctx expr).2 = "__" ++ "node" ++ toString ctx.identifier := by
  cases ctx; rfl

/-- The declaration line `const __node<i> = <expr>;` as a body line, for
any declared expression other than the marker comment constructor. -/
theorem declLine_bodyline (k j i : Nat) (expr : String) (hk : k ≤ j)
    (hexpr : decide (expr = "document.createComment(\x27tn-if\x27)") = false) :
    BodyLine k (indentRepeat j ++
      ("const " ++ ("__" ++ "node" ++ toString i) ++ " = " ++ expr ++ ";")) := by
  have hdata : ("const " ++ ("__" ++ "node" ++ toString i) ++ " = " ++ expr ++ ";"
        : String).data =
      "const __node".data ++ (Nat.repr i).data ++ (" = ".data ++ expr.data ++ [';']) := by
    simp only [String.data_append, toString_nat, List.append_assoc]
    rfl
  refine bodyline_of_content k j _ 'c' hk ?_ (by decide) ?_
  · rw [hdata]; rfl
  · rw [hdata, markerCore_decl i expr _ rfl, hexpr]

/-- The append line `<parent>.append(<name>);` as a body line, for a
parent expression with a non-space head and a name ending in a digit. -/
theorem appendLine_bodyline (k j : Nat) (pn name : String) (hk : k ≤ j)
    (hpn : ∃ ch, pn.data.head? = some ch ∧ ch ≠ ' ')
    (hname : ∃ (front : List Char) (d : Char), name.data = front ++ [d] ∧ d.isDigit = true) :
    BodyLine k (indentRepeat j ++ (pn ++ ".append(" ++ name ++ ");")) := by
  obtain ⟨ch, hch, hsp⟩ := hpn
  obtain ⟨front, d, hfr, hd⟩ := hname
  have hhead : (pn ++ ".append(" ++ name ++ ");" : String).data.head? = some ch :=
    head?_append_left _ _ _ (head?_append_left _ _ _ (head?_append_left _ _ _ hch))
  have hdata : (indentRepeat j ++ (pn ++ ".append(" ++ name ++ ");")).data =
      ((indentRepeat j).data ++ (pn.data ++ (".append(".data ++ front))) ++ [d, ')', ';'] := by
    simp only [String.data_append, hfr, List.append_assoc]
    rfl
  refine bodyline_of_last k j _ _ d hk ?_ ?_ hdata (digit_ne_quote d hd)
  · rw [hhead]; intro h; exact hsp (Option.some.inj h)
  · exact string_ne_empty_of_head _ ch hhead

/-- The fresh `__node` name always ends in a digit. -/
theorem nodeName_last_digit (i : Nat) : ∃ (front : List Char) (d : Char),
    (("__" ++ "node" ++ toString i) : String).data = front ++ [d] ∧ d.isDigit = true :=
  nodeName_last "node" i

theorem emitTextNode_spec (ctx : CodegenContext) (segs : List TSeg) (pn : String)
    (hpn : ∃ ch, pn.data.head? = some ch ∧ ch ≠ ' ') :
    EmitSpec ctx (emitTextNode ctx segs pn) := by
  obtain ⟨ls, ind, idn, ev⟩ := ctx
  by_cases hdyn : (segs.any fun s =>
      match s with | .dynamic _ => true | .static _ => false) = true
  · have he : emitTextNode ⟨ls, ind, idn, ev⟩ segs pn =
        ⟨((((ls ++ [indentRepeat ind ++ ("const " ++ ("__" ++ "node" ++ toString idn) ++
              " = " ++ "document.createTextNode(\x27\x27)" ++ ";")]) ++
           [indentRepeat ind ++ (pn ++ ".append(" ++ ("__" ++ "node" ++ toString idn) ++
              ");")]) ++
           [indentRepeat ind ++ "createEffect(() => \x7b"]) ++
           [indentRepeat (ind + 1) ++ (("__" ++ "node" ++ toString idn) ++ ".data = " ++
             String.intercalate " + " (segs.map (fun s =>
               match s with
               | .static v => jsonString v
               | .dynamic ex => "String(" ++ ex ++ ")")) ++ ";")]) ++
           [indentRepeat ind ++ "\x7d);"],
         ind, idn + 1, ev⟩ := by
      unfold emitTextNode
      simp only [hdyn, Bool.not_true, if_false]
      rfl
    rw [he]
    refine ⟨rfl, [indentRepeat ind ++ ("const " ++ ("__" ++ "node" ++ toString idn) ++
        " = " ++ "document.createTextNode(\x27\x27)" ++ ";"),
      indentRepeat ind ++ (pn ++ ".append(" ++ ("__" ++ "node" ++ toString idn) ++ ");"),
      indentRepeat ind ++ "createEffect(() => \x7b",
      indentRepeat (ind + 1) ++ (("__" ++ "node" ++ toString idn) ++ ".data = " ++
        String.intercalate " + " (segs.map (fun s =>
          match s with
          | .static v => jsonString v
          | .dynamic ex => "String(" ++ ex ++ ")")) ++ ";"),
      indentRepeat ind ++ "\x7d);"], by simp, ?_⟩
    intro l hl
    simp only [List.mem_cons, List.not_mem_nil, or_false] at hl
    rcases hl with rfl | rfl | rfl | rfl | rfl
    · exact declLine_bodyline ind ind idn _ (Nat.le_refl _) (by decide)
    · exact appendLine_bodyline ind ind pn _ (Nat.le_refl _) hpn (nodeName_last_digit idn)
    · exact bodyline_of_content ind ind _ 'c' (Nat.le_refl _) rfl (by decide) (by decide)
    · exact bodyline_of_head ind (ind + 1) _ '_' (Nat.le_succ _)
        (head?_append_left _ _ _ (nodeName_head "node" idn)) (by decide) (by decide)
    · exact bodyline_of_head ind ind _ '\x7d' (Nat.le_refl _) rfl (by decide) (by decide)
  · have hdyn2 : (segs.any fun s =>
        match s with | .dynamic _ => true | .static _ => false) = false :=
      Bool.eq_false_iff.mpr hdyn
    have he : emitTextNode ⟨ls, ind, idn, ev⟩ segs pn =
        ⟨((ls ++ [indentRepeat ind ++ ("const " ++ ("__" ++ "node" ++ toString idn) ++
              " = " ++ "document.createTextNode(\x27\x27)" ++ ";")]) ++
           [indentRepeat ind ++ (pn ++ ".append(" ++ ("__" ++ "node" ++ toString idn) ++
              ");")]) ++
           [indentRepeat ind ++ (("__" ++ "node" ++ toString idn) ++ ".data = " ++
             jsonString (String.join (segs.map (fun s =>
               match s with
               | .static v => v
               | .dynamic _ => ""))) ++ ";")],
         ind, idn + 1, ev⟩ := by
      unfold emitTextNode
      simp only [hdyn2, Bool.not_false, if_true]
      rfl
    rw [he]
    refine ⟨rfl, [indentRepeat ind ++ ("const " ++ ("__" ++ "node" ++ toString idn) ++
        " = " ++ "document.createTextNode(\x27\x27)" ++ ";"),
      indentRepeat ind ++ (pn ++ ".append(" ++ ("__" ++ "node" ++ toString idn) ++ ");"),
      indentRepeat ind ++ (("__" ++ "node" ++ toString idn) ++ ".data = " ++
        jsonString (String.join (segs.map (fun s =>
          match s with
          | .static v => v
          | .dynamic _ => ""))) ++ ";")], by simp, ?_⟩
    intro l hl
    simp only [List.mem_cons, List.not_mem_nil, or_false] at hl
    rcases hl with rfl | rfl | rfl
    · exact declLine_bodyline ind ind idn _ (Nat.le_refl _) (by decide)
    · exact appendLine_bodyline ind ind pn _ (Nat.le_refl _) hpn (nodeName_last_digit idn)
    · exact bodyline_of_head ind ind _ '_' (Nat.le_refl _)
        (head?_append_left _ _ _ (nodeName_head "node" idn)) (by decide) (by decide)

theorem emitspec_push (ctx : CodegenContext) (c : String)
    (h : BodyLine ctx.indent (indentRepeat ctx.indent ++ c)) :
    EmitSpec ctx (pushLine ctx c) := by
  refine ⟨pushLine_indent2 ctx c, [indentRepeat ctx.indent ++ c], pushLine_lines2 ctx c, ?_⟩
  intro l hl
  rw [List.mem_singleton] at hl
  subst hl
  exact h

theorem emitspec_addDelegated (ctx : CodegenContext) (n : String) :
    EmitSpec ctx (addDelegated ctx n) := by
  obtain ⟨ls, ind, idn, ev⟩ := ctx
  exact ⟨rfl, [], (List.append_nil ls).symm, fun l hl => absurd hl (List.not_mem_nil l)⟩

theorem emitAttrs_spec (el : String) (attrs : List NamedValue) (ctx : CodegenContext)
    (hel : ∃ ch, el.data.head? = some ch ∧ ch ≠ ' ' ∧ ch ≠ 'c') :
    EmitSpec ctx (emitAttrs el ctx attrs) := by
  induction attrs generalizing ctx with
  | nil => exact emitspec_refl ctx
  | cons a rest ih =>
      obtain ⟨ch, hch, hsp, hc⟩ := hel
      have he : emitAttrs el ctx (a :: rest) =
          emitAttrs el (pushLine ctx (el ++ ".setAttribute(" ++ jsonString a.name ++ ", " ++
            jsonString a.value ++ ");")) rest := rfl
      rw [he]
      refine emitspec_trans _ _ _ (emitspec_push ctx _ ?_) (ih _)
      refine bodyline_of_head _ _ _ ch (Nat.le_refl _) ?_ hsp hc
      repeat first | exact hch | apply head?_append_left

theorem emitEvents_spec (el : String) (evs : List NamedExpr) (ctx : CodegenContext)
    (hel : ∃ ch, el.data.head? = some ch ∧ ch ≠ ' ' ∧ ch ≠ 'c') :
    EmitSpec ctx (emitEvents el ctx evs) := by
  induction evs generalizing ctx with
  | nil => exact emitspec_refl ctx
  | cons e rest ih =>
      obtain ⟨ch, hch, hsp, hc⟩ := hel
      have he : emitEvents el ctx (e :: rest) =
          emitEvents el (pushLine (pushLine (addDelegated ctx (lowerStr e.name))
            (el ++ ".__tnDelegatedHandlers ??= \x7b\x7d;"))
            (el ++ ".__tnDelegatedHandlers[" ++ jsonString (lowerStr e.name) ++ "] = " ++
              toEventHandler e.expression ++ ";")) rest := rfl
      rw [he]
      refine emitspec_trans _ _ _ (emitspec_addDelegated ctx _)
        (emitspec_trans _ _ _ (emitspec_push _ _ ?_)
          (emitspec_trans _ _ _ (emitspec_push _ _ ?_) (ih _)))
      · refine bodyline_of_head _ _ _ ch (Nat.le_refl _) ?_ hsp hc
        repeat first | exact hch | apply head?_append_left
      · refine bodyline_of_head _ _ _ ch (Nat.le_refl _) ?_ hsp hc
        repeat first | exact hch | apply head?_append_left

/-- The dynamic-binding helper line `const __attrValue<i> = <expr>;`. -/
theorem attrValueLine_bodyline (k j i : Nat) (expr : String) (hk : k ≤ j) :
    BodyLine k (indentRepeat j ++
      ("const " ++ ("__" ++ "attrValue" ++ toString i) ++ " = " ++ expr ++ ";")) := by
  have hdata : (("const " ++ ("__" ++ "attrValue" ++ toString i) ++ " = " ++ expr ++ ";")
        : String).data =
      "const __attrValue".data ++ ((Nat.repr i).data ++ (" = ".data ++
        (expr.data ++ [';']))) := by
    simp only [String.data_append, toString_nat, List.append_assoc]
    rfl
  refine bodyline_of_content k j _ 'c' hk (by rw [hdata]; rfl) (by decide) ?_
  rw [hdata]
  exact markerCore_litprefix_false _ _ (by decide) (by decide)

theorem emitBindings_spec (el : String) (binds : List NamedExpr) (ctx : CodegenContext)
    (hel : ∃ ch, el.data.head? = some ch ∧ ch ≠ ' ' ∧ ch ≠ 'c') :
    EmitSpec ctx (emitBindings el ctx binds) := by
  induction binds generalizing ctx with
  | nil => exact emitspec_refl ctx
  | cons b rest ih =>
      obtain ⟨ch, hch, hsp, hc⟩ := hel
      obtain ⟨ls, ind, idn, ev⟩ := ctx
      have he : emitBindings el ⟨ls, ind, idn, ev⟩ (b :: rest) =
          emitBindings el
            ⟨(((((((ls ++ [indentRepeat ind ++ "createEffect(() => \x7b"]) ++
              [indentRepeat (ind + 1) ++ ("const " ++ ("__" ++ "attrValue" ++ toString idn) ++
                " = " ++ b.expression ++ ";")]) ++
              [indentRepeat (ind + 1) ++ ("if (" ++ ("__" ++ "attrValue" ++ toString idn) ++
                " == null || " ++ ("__" ++ "attrValue" ++ toString idn) ++
                " === false) \x7b")]) ++
              [indentRepeat (ind + 2) ++ (el ++ ".removeAttribute(" ++ jsonString b.name ++
                ");")]) ++
              [indentRepeat (ind + 1) ++ "\x7d else \x7b"]) ++
              [indentRepeat (ind + 2) ++ (el ++ ".setAttribute(" ++ jsonString b.name ++
                ", String(" ++ ("__" ++ "attrValue" ++ toString idn) ++ "));")]) ++
              [indentRepeat (ind + 1) ++ "\x7d"]) ++
              [indentRepeat ind ++ "\x7d);"],
             ind, idn + 1, ev⟩ rest := rfl
      rw [he]
      refine emitspec_trans _ _ _ ?_ (ih _)
      refine ⟨rfl, [indentRepeat ind ++ "createEffect(() => \x7b",
        indentRepeat (ind + 1) ++ ("const " ++ ("__" ++ "attrValue" ++ toString idn) ++
          " = " ++ b.expression ++ ";"),
        indentRepeat (ind + 1) ++ ("if (" ++ ("__" ++ "attrValue" ++ toString idn) ++
          " == null || " ++ ("__" ++ "attrValue" ++ toString idn) ++ " === false) \x7b"),
        indentRepeat (ind + 2) ++ (el ++ ".removeAttribute(" ++ jsonString b.name ++ ");"),
        indentRepeat (ind + 1) ++ "\x7d else \x7b",
        indentRepeat (ind + 2) ++ (el ++ ".setAttribute(" ++ jsonString b.name ++
          ", String(" ++ ("__" ++ "attrValue" ++ toString idn) ++ "));"),
        indentRepeat (ind + 1) ++ "\x7d",
        indentRepeat ind ++ "\x7d);"], by simp, ?_⟩
      intro l hl
      simp only [List.mem_cons, List.not_mem_nil, or_false] at hl
      rcases hl with rfl | rfl | rfl | rfl | rfl | rfl | rfl | rfl
      · exact bodyline_of_content ind ind _ 'c' (Nat.le_refl _) rfl (by decide) (by decide)
      · exact attrValueLine_bodyline ind (ind + 1) idn _ (Nat.le_succ _)
      · refine bodyline_of_head ind (ind + 1) _ 'i' (Nat.le_succ _) ?_ (by decide) (by decide)
        repeat first | rfl | apply head?_append_left
      · refine bodyline_of_head ind (ind + 2) _ ch (by omega) ?_ hsp hc
        repeat first | exact hch | apply head?_append_left
      · exact bodyline_of_head ind (ind + 1) _ '\x7d' (Nat.le_succ _) rfl (by decide)
          (by decide)
      · refine bodyline_of_head ind (ind + 2) _ ch (by omega) ?_ hsp hc
        repeat first | exact hch | apply head?_append_left
      · exact bodyline_of_head ind (ind + 1) _ '\x7d' (Nat.le_succ _) rfl (by decide)
          (by decide)
      · exact bodyline_of_head ind ind _ '\x7d' (Nat.le_refl _) rfl (by decide) (by decide)

theorem quote_mem_jsonString (t : String) : '"' ∈ (jsonString t).data := by
  unfold jsonString
  rw [String.data_append, String.data_append]
  exact List.mem_append.mpr (Or.inl (List.mem_append.mpr (Or.inl (by decide))))

theorem createElement_expr_ne (tag : String) :
    decide (("document.createElement(" ++ jsonString tag ++ ")" : String) =
      "document.createComment(\x27tn-if\x27)") = false := by
  refine decide_ne_marker_of_mem _ '"' ?_ (by decide)
  rw [String.data_append]
  refine List.mem_append.mpr (Or.inl ?_)
  rw [String.data_append]
  exact List.mem_append.mpr (Or.inr (quote_mem_jsonString tag))

theorem component_expr_ne (tag propsArg : String) (h : '\x7b' ∈ propsArg.data) :
    decide ((tag ++ "(" ++ propsArg ++ ")" : String) =
      "document.createComment(\x27tn-if\x27)") = false := by
  refine decide_ne_marker_of_mem _ '\x7b' ?_ (by decide)
  rw [String.data_append]
  refine List.mem_append.mpr (Or.inl ?_)
  rw [String.data_append]
  exact List.mem_append.mpr (Or.inr h)

theorem emitPlain_spec (fuel : Nat) :
    (∀ (ctx : CodegenContext) (ns : List TransformNode) (pn : String),
      (∃ ch, pn.data.head? = some ch ∧ ch ≠ ' ') → PlainL ns →
      EmitSpec ctx (emitChildren fuel ctx ns pn).1) ∧
    (∀ (ctx : CodegenContext) (n : TransformNode) (pn : String),
      (∃ ch, pn.data.head? = some ch ∧ ch ≠ ' ') → PlainN n →
      EmitSpec ctx (emitNode fuel ctx n pn).1) ∧
    (∀ (ctx : CodegenContext) (e : TransformElementNode) (pn : String),
      (∃ ch, pn.data.head? = some ch ∧ ch ≠ ' ') → PlainE e →
      EmitSpec ctx (emitPlainElement fuel ctx e pn).1) ∧
    (∀ (ctx : CodegenContext) (e : TransformElementNode) (pn : String),
      (∃ ch, pn.data.head? = some ch ∧ ch ≠ ' ') → PlainE e →
      EmitSpec ctx (emitComponentElement fuel ctx e pn).1) := by
  induction fuel with
  | zero =>
      refine ⟨?_, ?_, ?_, ?_⟩ <;> intro ctx x pn hpn hx <;> exact emitspec_refl ctx
  | succ fuel ih =>
      obtain ⟨ihC, ihN, ihP, ihK⟩ := ih
      have hchildren : ∀ (ctx : CodegenContext) (ns : List TransformNode) (pn : String),
          (∃ ch, pn.data.head? = some ch ∧ ch ≠ ' ') → PlainL ns →
          EmitSpec ctx (emitChildren (fuel + 1) ctx ns pn).1 := by
        intro ctx ns pn hpn hns
        cases hns with
        | nil => exact emitspec_refl ctx
        | cons n rest h1 h2 =>
            cases h1 with
            | text segs =>
                have he : emitChildren (fuel + 1) ctx (.text segs :: rest) pn =
                    (match emitNode fuel ctx (.text segs) pn with
                     | (c, true) => emitChildren fuel c rest pn
                     | (c, false) => (c, false)) := rfl
                rw [he]
                have hspec := ihN ctx (.text segs) pn hpn (PlainN.text segs)
                rcases hres : emitNode fuel ctx (.text segs) pn with ⟨c, ok⟩
                rw [hres] at hspec
                cases ok
                · exact hspec
                · exact emitspec_trans _ _ _ hspec (ihC c rest pn hpn h2)
            | element e hpe =>
                cases hpe with
                | mk tag comp attrs binds evs children hpl =>
                    have he : emitChildren (fuel + 1) ctx
                        (.element (.mk tag comp attrs binds evs
                          ⟨none, none, false, none⟩ children) :: rest) pn =
                        (match emitNode fuel ctx (.element (.mk tag comp attrs binds evs
                            ⟨none, none, false, none⟩ children)) pn with
                         | (c, true) => emitChildren fuel c rest pn
                         | (c, false) => (c, false)) := rfl
                    rw [he]
                    have hspec := ihN ctx (.element (.mk tag comp attrs binds evs
                      ⟨none, none, false, none⟩ children)) pn hpn
                      (PlainN.element _ (PlainE.mk tag comp attrs binds evs children hpl))
                    rcases hres : emitNode fuel ctx (.element (.mk tag comp attrs binds evs
                      ⟨none, none, false, none⟩ children)) pn with ⟨c, ok⟩
                    rw [hres] at hspec
                    cases ok
                    · exact hspec
                    · exact emitspec_trans _ _ _ hspec (ihC c rest pn hpn h2)
      refine ⟨hchildren, ?_, ?_, ?_⟩
      -- emitNode
      · intro ctx n pn hpn hn
        cases hn with
        | text segs => exact emitTextNode_spec ctx segs pn hpn
        | element e hpe =>
            cases hpe with
            | mk tag comp attrs binds evs children hpl =>
                have he : emitNode (fuel + 1) ctx (.element (.mk tag comp attrs binds evs
                    ⟨none, none, false, none⟩ children)) pn =
                    emitPlainElement fuel ctx (.mk tag comp attrs binds evs
                      ⟨none, none, false, none⟩ children) pn := rfl
                rw [he]
                exact ihP ctx _ pn hpn (PlainE.mk tag comp attrs binds evs children hpl)
      -- emitPlainElement
      · intro ctx e pn hpn hpe
        cases hpe with
        | mk tag comp attrs binds evs children hpl =>
            cases comp with
            | true =>
                have he : emitPlainElement (fuel + 1) ctx (.mk tag true attrs binds evs
                    ⟨none, none, false, none⟩ children) pn =
                    emitComponentElement fuel ctx (.mk tag true attrs binds evs
                      ⟨none, none, false, none⟩ children) pn := rfl
                rw [he]
                exact ihK ctx _ pn hpn (PlainE.mk tag true attrs binds evs children hpl)
            | false =>
                obtain ⟨ls, ind, idn, ev⟩ := ctx
                have he : emitPlainElement (fuel + 1) ⟨ls, ind, idn, ev⟩
                    (.mk tag false attrs binds evs ⟨none, none, false, none⟩ children) pn =
                    emitChildren fuel
                      (emitEvents ("__" ++ "node" ++ toString idn)
                        (emitBindings ("__" ++ "node" ++ toString idn)
                          (emitAttrs ("__" ++ "node" ++ toString idn)
                            ⟨(ls ++ [indentRepeat ind ++ ("const " ++
                                ("__" ++ "node" ++ toString idn) ++ " = " ++
                                ("document.createElement(" ++ jsonString tag ++ ")") ++
                                ";")]) ++
                              [indentRepeat ind ++ (pn ++ ".append(" ++
                                ("__" ++ "node" ++ toString idn) ++ ");")],
                             ind, idn + 1, ev⟩ attrs) binds) evs) children
                      ("__" ++ "node" ++ toString idn) := rfl
                rw [he]
                have hel : ∃ ch, (("__" ++ "node" ++ toString idn) : String).data.head? =
                    some ch ∧ ch ≠ ' ' ∧ ch ≠ 'c' :=
                  ⟨'_', nodeName_head "node" idn, by decide, by decide⟩
                have hel2 : ∃ ch, (("__" ++ "node" ++ toString idn) : String).data.head? =
                    some ch ∧ ch ≠ ' ' := ⟨'_', nodeName_head "node" idn, by decide⟩
                have hbase : EmitSpec ⟨ls, ind, idn, ev⟩
                    ⟨(ls ++ [indentRepeat ind ++ ("const " ++
                        ("__" ++ "node" ++ toString idn) ++ " = " ++
                        ("document.createElement(" ++ jsonString tag ++ ")") ++ ";")]) ++
                      [indentRepeat ind ++ (pn ++ ".append(" ++
                        ("__" ++ "node" ++ toString idn) ++ ");")],
                     ind, idn + 1, ev⟩ := by
                  refine ⟨rfl, [indentRepeat ind ++ ("const " ++
                      ("__" ++ "node" ++ toString idn) ++ " = " ++
                      ("document.createElement(" ++ jsonString tag ++ ")") ++ ";"),
                    indentRepeat ind ++ (pn ++ ".append(" ++
                      ("__" ++ "node" ++ toString idn) ++ ");")], by simp, ?_⟩
                  intro l hl
                  simp only [List.mem_cons, List.not_mem_nil, or_false] at hl
                  rcases hl with rfl | rfl
                  · exact declLine_bodyline ind ind idn _ (Nat.le_refl _)
                      (createElement_expr_ne tag)
                  · exact appendLine_bodyline ind ind pn _ (Nat.le_refl _) hpn
                      (nodeName_last_digit idn)
                exact emitspec_trans _ _ _
                  (emitspec_trans _ _ _
                    (emitspec_trans _ _ _
                      (emitspec_trans _ _ _ hbase (emitAttrs_spec _ attrs _ hel))
                      (emitBindings_spec _ binds _ hel))
                    (emitEvents_spec _ evs _ hel))
                  (ihC _ children _ hel2 hpl)
      -- emitComponentElement
      · intro ctx e pn hpn hpe
        cases hpe with
        | mk tag comp attrs binds evs children hpl =>
            obtain ⟨ls, ind, idn, ev⟩ := ctx
            have he : emitComponentElement (fuel + 1) ⟨ls, ind, idn, ev⟩
                (.mk tag comp attrs binds evs ⟨none, none, false, none⟩ children) pn =
                emitChildren fuel
                  ⟨(ls ++ [indentRepeat ind ++ ("const " ++
                      ("__" ++ "node" ++ toString idn) ++ " = " ++
                      (tag ++ "(" ++
                        (if (propEntriesOf (.mk tag comp attrs binds evs
                            ⟨none, none, false, none⟩ children)).length > 0 then
                          "\x7b " ++ String.intercalate ", "
                            (propEntriesOf (.mk tag comp attrs binds evs
                              ⟨none, none, false, none⟩ children)) ++ " \x7d"
                        else "\x7b\x7d") ++ ")") ++ ";")]) ++
                    [indentRepeat ind ++ (pn ++ ".append(" ++
                      ("__" ++ "node" ++ toString idn) ++ ");")],
                   ind, idn + 1, ev⟩ children ("__" ++ "node" ++ toString idn) := rfl
            rw [he]
            have hel2 : ∃ ch, (("__" ++ "node" ++ toString idn) : String).data.head? =
                some ch ∧ ch ≠ ' ' := ⟨'_', nodeName_head "node" idn, by decide⟩
            have hbrace : '\x7b' ∈ (if (propEntriesOf (.mk tag comp attrs binds evs
                  ⟨none, none, false, none⟩ children)).length > 0 then
                "\x7b " ++ String.intercalate ", "
                  (propEntriesOf (.mk tag comp attrs binds evs
                    ⟨none, none, false, none⟩ children)) ++ " \x7d"
              else ("\x7b\x7d" : String)).data := by
              split_ifs
              · rw [String.data_append, String.data_append]
                exact List.mem_append.mpr (Or.inl (List.mem_append.mpr (Or.inl
                  (by decide))))
              · decide
            refine emitspec_trans _ _ _ ?_ (ihC _ children _ hel2 hpl)
            refine ⟨rfl, [indentRepeat ind ++ ("const " ++
                ("__" ++ "node" ++ toString idn) ++ " = " ++
                (tag ++ "(" ++
                  (if (propEntriesOf (.mk tag comp attrs binds evs
                      ⟨none, none, false, none⟩ children)).length > 0 then
                    "\x7b " ++ String.intercalate ", "
                      (propEntriesOf (.mk tag comp attrs binds evs
                        ⟨none, none, false, none⟩ children)) ++ " \x7d"
                  else "\x7b\x7d") ++ ")") ++ ";"),
              indentRepeat ind ++ (pn ++ ".append(" ++
                ("__" ++ "node" ++ toString idn) ++ ");")], by simp, ?_⟩
            intro l hl
            simp only [List.mem_cons, List.not_mem_nil, or_false] at hl
            rcases hl with rfl | rfl
            · exact declLine_bodyline ind ind idn _ (Nat.le_refl _)
                (component_expr_ne tag _ hbrace)
            · exact appendLine_bodyline ind ind pn _ (Nat.le_refl _) hpn
                (nodeName_last_digit idn)

theorem branchHeader_head (b : TransformElementNode) :
    ∃ hch, (branchHeader b).data.head? = some hch ∧ (hch = 'i' ∨ hch = '\x7d') := by
  unfold branchHeader
  cases hd : b.directives.dIf with
  | some e =>
      refine ⟨'i', ?_, Or.inl rfl⟩
      repeat first | rfl | apply head?_append_left
  | none =>
      cases hde : b.directives.dElseIf with
      | some e2 =>
          refine ⟨'\x7d', ?_, Or.inr rfl⟩
          repeat first | rfl | apply head?_append_left
      | none => exact ⟨'\x7d', rfl, Or.inr rfl⟩

theorem branchHeader_last (b : TransformElementNode) :
    (branchHeader b).data.getLast? = some '\x7b' := by
  unfold branchHeader
  cases hd : b.directives.dIf with
  | some e => exact getLast?_append_right _ _ _ rfl
  | none =>
      cases hde : b.directives.dElseIf with
      | some e2 => exact getLast?_append_right _ _ _ rfl
      | none => rfl

theorem beq_append_left_cancel (a c d : String) : ((a ++ c) == (a ++ d)) = (c == d) := by
  by_cases hcd : c = d
  · rw [hcd]; simp
  · rw [beq_eq_false_iff_ne.mpr hcd, beq_eq_false_iff_ne.mpr ?_]
    intro h
    apply hcd
    apply String.ext
    apply @List.append_cancel_left _ a.data c.data d.data
    rw [← String.data_append, ← String.data_append, h]

/-- A body line of the next indentation level never matches a clause
header placed at the current level. -/
theorem clause_count_body_false (k : Nat) (hdr l : String) (hb : BodyLine (k + 1) l)
    (hh : ∃ hch, hdr.data.head? = some hch ∧ hch ≠ ' ') :
    (l == indentRepeat k ++ hdr) = false := by
  obtain ⟨_, j, c, hkj, hhead, hcne, rfl⟩ := hb
  obtain ⟨hch, hch1, hch2⟩ := hh
  have hhdr : hdr.data.head? ≠ some ' ' := by
    rw [hch1]
    intro hx
    exact hch2 (Option.some.inj hx)
  apply beq_eq_false_iff_ne.mpr
  intro h
  have h2 := (indent_line_eq_iff k j c hdr hhead hhdr).mp h
  omega

theorem filter_cons_length {α : Type} (p : α → Bool) (a : α) (l : List α) :
    (List.filter p (a :: l)).length = (if p a = true then 1 else 0) +
      (List.filter p l).length := by
  rw [List.filter_cons]
  split_ifs <;> simp [Nat.add_comm]

/-- One step of `emitChainBranches`, with the clause-header dispatch
factored through `branchHeader`. -/
theorem emitChainBranches_cons_eq (fuel : Nat) (ls : List String) (ind idn : Nat)
    (ev : List String) (b : TransformElementNode) (rest : List TransformElementNode)
    (pn endMarker nodesName : String) :
    emitChainBranches (fuel + 1) ⟨ls, ind, idn, ev⟩ (b :: rest) pn endMarker nodesName =
      (match emitPlainElement fuel
          ⟨(ls ++ [indentRepeat ind ++ branchHeader b]) ++
            [indentRepeat (ind + 1) ++ ("const " ++ ("__" ++ "node" ++ toString idn) ++
              " = " ++ "document.createDocumentFragment()" ++ ";")],
           ind + 1, idn + 1, ev⟩ (removeControlFlow b)
          ("__" ++ "node" ++ toString idn) with
       | (c, true) =>
           emitChainBranches fuel (indentDec (pushLine (pushLine (pushLine
             (createIdentifier c "branchNodes").1
             ("const " ++ (createIdentifier c "branchNodes").2 ++ " = Array.from(" ++
               ("__" ++ "node" ++ toString idn) ++ ".childNodes);"))
             ("for (const __n of " ++ (createIdentifier c "branchNodes").2 ++ ") " ++ pn ++
               ".insertBefore(__n, " ++ endMarker ++ ");"))
             (nodesName ++ " = " ++ (createIdentifier c "branchNodes").2 ++ ";")))
             rest pn endMarker nodesName
       | (c, false) => (c, false)) := by
  unfold branchHeader
  cases hd : b.directives.dIf with
  | some e =>
      show emitChainBranches (fuel + 1) ⟨ls, ind, idn, ev⟩ (b :: rest) pn endMarker
        nodesName = _
      rw [emitChainBranches]
      rw [hd]
      rfl
  | none =>
      cases hde : b.directives.dElseIf with
      | some e2 =>
          rw [emitChainBranches]
          rw [hd, hde]
          rfl
      | none =>
          rw [emitChainBranches]
          rw [hd, hde]
          rfl

/-- The branch-list helper line `const __branchNodes<i> = Array.from(...);`. -/
theorem branchNodesLine_bodyline (k j i : Nat) (tail : String) (hk : k ≤ j) :
    BodyLine k (indentRepeat j ++ ("const " ++ ("__" ++ "branchNodes" ++ toString i) ++
      " = Array.from(" ++ tail ++ ".childNodes);")) := by
  have hdata : (("const " ++ ("__" ++ "branchNodes" ++ toString i) ++ " = Array.from(" ++
        tail ++ ".childNodes);") : String).data =
      "const __branchNodes".data ++ ((Nat.repr i).data ++ (" = Array.from(".data ++
        (tail.data ++ ".childNodes);".data))) := by
    simp only [String.data_append, toString_nat, List.append_assoc]
    rfl
  refine bodyline_of_content k j _ 'c' hk (by rw [hdata]; rfl) (by decide) ?_
  rw [hdata]
  exact markerCore_litprefix_false _ _ (by decide) (by decide)

theorem pushLine_mk (a : List String) (b c : Nat) (d : List String) (x : String) :
    pushLine ⟨a, b, c, d⟩ x = ⟨a ++ [indentRepeat b ++ x], b, c, d⟩ := rfl

theorem indentDec_mk (a : List String) (b c : Nat) (d : List String) :
    indentDec ⟨a, b, c, d⟩ = ⟨a, b - 1, c, d⟩ := rfl

theorem createIdentifier_mk (a : List String) (b c : Nat) (d : List String) (base : String) :
    createIdentifier ⟨a, b, c, d⟩ base = (⟨a, b, c + 1, d⟩, "__" ++ base ++ toString c) := rfl

theorem emitChainBranches_spec : ∀ (fuel : Nat) (ctx : CodegenContext)
    (chain : List TransformElementNode) (pn endMarker nodesName : String),
    (∃ ch, pn.data.head? = some ch ∧ ch ≠ ' ') →
    (∃ t : String, nodesName = "__" ++ "ifNodes" ++ t) →
    (∀ b ∈ chain, PlainL b.children) →
    (emitChainBranches fuel ctx chain pn endMarker nodesName).2 = true →
    (emitChainBranches fuel ctx chain pn endMarker nodesName).1.indent = ctx.indent ∧
    ∃ added, (emitChainBranches fuel ctx chain pn endMarker nodesName).1.lines =
        ctx.lines ++ added ∧
      (∀ l ∈ added, isMarkerDeclLine l = false) ∧
      (∀ hdr : String, hdr.data.getLast? = some '\x7b' →
        (∃ hch, hdr.data.head? = some hch ∧ hch ≠ ' ') →
        countLines (fun l => l == indentRepeat ctx.indent ++ hdr) added =
          (chain.filter (fun b => branchHeader b == hdr)).length) := by
  intro fuel
  induction fuel with
  | zero =>
      intro ctx chain pn endMarker nodesName hpn hns hpl hok
      exact absurd hok (by simp [emitChainBranches])
  | succ fuel ih =>
      intro ctx chain pn endMarker nodesName hpn hns hpl hok
      obtain ⟨t, rfl⟩ := hns
      cases chain with
      | nil =>
          refine ⟨rfl, [], by simp [emitChainBranches], ?_, ?_⟩
          · intro l hl
            exact absurd hl (List.not_mem_nil l)
          · intro hdr h1 h2
            rfl
      | cons b rest =>
          obtain ⟨ls, ind, idn, ev⟩ := ctx
          rw [emitChainBranches_cons_eq] at hok ⊢
          rcases hemit : emitPlainElement fuel
              ⟨(ls ++ [indentRepeat ind ++ branchHeader b]) ++
                [indentRepeat (ind + 1) ++ ("const " ++ ("__" ++ "node" ++ toString idn) ++
                  " = " ++ "document.createDocumentFragment()" ++ ";")],
               ind + 1, idn + 1, ev⟩ (removeControlFlow b)
              ("__" ++ "node" ++ toString idn) with ⟨⟨cls, cind, cidn, cev⟩, ok⟩
          rw [hemit] at hok
          cases ok with
          | false => simp at hok
          | true =>
              have hplb : PlainE (removeControlFlow b) := by
                have h1 := hpl b (List.mem_cons_self b rest)
                exact PlainE.mk b.tag b.isComponent b.attributes b.bindings b.events
                  b.children h1
              have hbody := (emitPlain_spec fuel).2.2.1
                ⟨(ls ++ [indentRepeat ind ++ branchHeader b]) ++
                  [indentRepeat (ind + 1) ++ ("const " ++ ("__" ++ "node" ++ toString idn) ++
                    " = " ++ "document.createDocumentFragment()" ++ ";")],
                 ind + 1, idn + 1, ev⟩ (removeControlFlow b)
                ("__" ++ "node" ++ toString idn)
                ⟨'_', nodeName_head "node" idn, by decide⟩ hplb
              rw [hemit] at hbody
              obtain ⟨hcind, body, hclines, hbodyl⟩ := hbody
              have hcind2 : cind = ind + 1 := hcind
              subst hcind2
              have hcl2 : cls = ((ls ++ [indentRepeat ind ++ branchHeader b]) ++
                  [indentRepeat (ind + 1) ++ ("const " ++
                    ("__" ++ "node" ++ toString idn) ++ " = " ++
                    "document.createDocumentFragment()" ++ ";")]) ++ body := hclines
              simp only [createIdentifier_mk, pushLine_mk, indentDec_mk,
                Nat.add_sub_cancel] at hok ⊢
              have ihspec := ih _ rest pn endMarker _ hpn ⟨t, rfl⟩
                (fun x hx => hpl x (List.mem_cons_of_mem b hx)) hok
              obtain ⟨hind, addedR, hlinesR, hmarkR, hcountR⟩ := ihspec
              rcases branchHeader_head b with ⟨bh, hbh1, hbh2⟩
              have hhdrB : BodyLine ind (indentRepeat ind ++ branchHeader b) :=
                bodyline_of_head ind ind _ bh (Nat.le_refl _) hbh1
                  (by rcases hbh2 with rfl | rfl <;> decide)
                  (by rcases hbh2 with rfl | rfl <;> decide)
              have hfragB : BodyLine (ind + 1) (indentRepeat (ind + 1) ++
                  ("const " ++ ("__" ++ "node" ++ toString idn) ++ " = " ++
                    "document.createDocumentFragment()" ++ ";")) :=
                declLine_bodyline (ind + 1) (ind + 1) idn _ (Nat.le_refl _) (by decide)
              have hl5B : BodyLine (ind + 1) (indentRepeat (ind + 1) ++
                  ("const " ++ ("__" ++ "branchNodes" ++ toString cidn) ++
                    " = Array.from(" ++ ("__" ++ "node" ++ toString idn) ++
                    ".childNodes);")) :=
                branchNodesLine_bodyline (ind + 1) (ind + 1) cidn _ (Nat.le_refl _)
              have hl6B : BodyLine (ind + 1) (indentRepeat (ind + 1) ++
                  ("for (const __n of " ++ ("__" ++ "branchNodes" ++ toString cidn) ++
                    ") " ++ pn ++ ".insertBefore(__n, " ++ endMarker ++ ");")) := by
                refine bodyline_of_head (ind + 1) (ind + 1) _ 'f' (Nat.le_refl _) ?_
                  (by decide) (by decide)
                repeat first | rfl | apply head?_append_left
              have hl7B : BodyLine (ind + 1) (indentRepeat (ind + 1) ++
                  ((("__" ++ "ifNodes" ++ t) : String) ++ " = " ++
                    ("__" ++ "branchNodes" ++ toString cidn) ++ ";")) := by
                refine bodyline_of_head (ind + 1) (ind + 1) _ '_' (Nat.le_refl _) ?_
                  (by decide) (by decide)
                repeat first | rfl | apply head?_append_left
              refine ⟨hind, (indentRepeat ind ++ branchHeader b) ::
                (indentRepeat (ind + 1) ++ ("const " ++
                  ("__" ++ "node" ++ toString idn) ++ " = " ++
                  "document.createDocumentFragment()" ++ ";")) ::
                (body ++ ((indentRepeat (ind + 1) ++ ("const " ++
                    ("__" ++ "branchNodes" ++ toString cidn) ++ " = Array.from(" ++
                    ("__" ++ "node" ++ toString idn) ++ ".childNodes);")) ::
                  (indentRepeat (ind + 1) ++ ("for (const __n of " ++
                    ("__" ++ "branchNodes" ++ toString cidn) ++ ") " ++ pn ++
                    ".insertBefore(__n, " ++ endMarker ++ ");")) ::
                  (indentRepeat (ind + 1) ++ ((("__" ++ "ifNodes" ++ t) : String) ++
                    " = " ++ ("__" ++ "branchNodes" ++ toString cidn) ++ ";")) ::
                  addedR)), ?_, ?_, ?_⟩
              · rw [hlinesR, hcl2]
                simp [List.append_assoc]
              · intro l hl
                simp only [List.mem_cons, List.mem_append] at hl
                rcases hl with rfl | rfl | hl | rfl | rfl | rfl | hl
                · exact hhdrB.1
                · exact hfragB.1
                · exact (hbodyl l hl).1
                · exact hl5B.1
                · exact hl6B.1
                · exact hl7B.1
                · exact hmarkR l hl
              · intro hdr h1 h2
                rw [countLines_cons, countLines_cons, countLines_append,
                  countLines_cons, countLines_cons, countLines_cons]
                rw [countLines_eq_zero _ body (fun l hl =>
                  clause_count_body_false ind hdr l (hbodyl l hl) h2)]
                rw [show ((indentRepeat (ind + 1) ++ ("const " ++
                    ("__" ++ "node" ++ toString idn) ++ " = " ++
                    "document.createDocumentFragment()" ++ ";")) ==
                    indentRepeat ind ++ hdr) = false from
                  clause_count_body_false ind hdr _ hfragB h2]
                rw [show ((indentRepeat (ind + 1) ++ ("const " ++
                    ("__" ++ "branchNodes" ++ toString cidn) ++ " = Array.from(" ++
                    ("__" ++ "node" ++ toString idn) ++ ".childNodes);")) ==
                    indentRepeat ind ++ hdr) = false from
                  clause_count_body_false ind hdr _ hl5B h2]
                rw [show ((indentRepeat (ind + 1) ++ ("for (const __n of " ++
                    ("__" ++ "branchNodes" ++ toString cidn) ++ ") " ++ pn ++
                    ".insertBefore(__n, " ++ endMarker ++ ");")) ==
                    indentRepeat ind ++ hdr) = false from
                  clause_count_body_false ind hdr _ hl6B h2]
                rw [show ((indentRepeat (ind + 1) ++ ((("__" ++ "ifNodes" ++ t) : String) ++
                    " = " ++ ("__" ++ "branchNodes" ++ toString cidn) ++ ";")) ==
                    indentRepeat ind ++ hdr) = false from
                  clause_count_body_false ind hdr _ hl7B h2]
                rw [show ((indentRepeat ind ++ branchHeader b) ==
                    indentRepeat ind ++ hdr) = (branchHeader b == hdr) from
                  beq_append_left_cancel _ _ _]
                rw [hcountR hdr h1 h2, filter_cons_length]
                cases hb : (branchHeader b == hdr) <;> simp

/-- The marker-declaration line issued by `emitConditionalChain` tests
positive. -/
theorem markerLine_true (j i : Nat) :
    isMarkerDeclLine (indentRepeat j ++ ("const " ++ ("__" ++ "node" ++ toString i) ++
      " = " ++ "document.createComment(\x27tn-if\x27)" ++ ";")) = true := by
  have hdata : (("const " ++ ("__" ++ "node" ++ toString i) ++ " = " ++
        "document.createComment(\x27tn-if\x27)" ++ ";") : String).data =
      "const __node".data ++ (Nat.repr i).data ++
        (" = ".data ++ ("document.createComment(\x27tn-if\x27)" : String).data ++ [';']) := by
    simp only [String.data_append, toString_nat, List.append_assoc]
    rfl
  have hhead : (("const " ++ ("__" ++ "node" ++ toString i) ++ " = " ++
      "document.createComment(\x27tn-if\x27)" ++ ";") : String).data.head? ≠
      some ' ' := by
    rw [hdata]
    intro hx
    exact absurd (Option.some.inj hx) (by decide)
  rw [isMarkerDeclLine_indent, dropWhile_of_head_ne _ hhead, hdata,
    markerCore_decl i "document.createComment(\x27tn-if\x27)" _ rfl]
  decide

theorem clause_ne_of_indent (i j : Nat) (c hdr : String) (hij : j ≠ i)
    (hc : c.data.head? ≠ some ' ')
    (hh : ∃ hch, hdr.data.head? = some hch ∧ hch ≠ ' ') :
    ((indentRepeat j ++ c) == indentRepeat i ++ hdr) = false := by
  obtain ⟨hch, hh1, hh2⟩ := hh
  have hhdr : hdr.data.head? ≠ some ' ' := by
    rw [hh1]
    intro hx
    exact hh2 (Option.some.inj hx)
  apply beq_eq_false_iff_ne.mpr
  intro h
  exact hij ((indent_line_eq_iff i j c hdr hc hhdr).mp h).1

theorem clause_ne_of_head (i : Nat) (c hdr : String) (cch hch : Char)
    (hc : c.data.head? = some cch) (hh : hdr.data.head? = some hch) (hne : cch ≠ hch)
    (hcs : cch ≠ ' ') (hhs : hch ≠ ' ') :
    ((indentRepeat i ++ c) == indentRepeat i ++ hdr) = false := by
  apply beq_eq_false_iff_ne.mpr
  intro h
  have h2 := ((indent_line_eq_iff i i c hdr
    (by rw [hc]; intro hx; exact hcs (Option.some.inj hx))
    (by rw [hh]; intro hx; exact hhs (Option.some.inj hx))).mp h).2
  rw [h2] at hc
  rw [hc] at hh
  exact hne (Option.some.inj hh)

theorem clause_ne_of_last (i j : Nat) (c hdr : String) (x y : Char)
    (hx : c.data.getLast? = some x) (hy : hdr.data.getLast? = some y) (hne : x ≠ y) :
    ((indentRepeat j ++ c) == indentRepeat i ++ hdr) = false :=
  beq_eq_false_iff_ne.mpr (string_ne_of_last _ _ x y
    (getLast?_append_right _ _ _ hx) (getLast?_append_right _ _ _ hy) hne)

theorem emitConditionalChain_spec (fuel : Nat) (ctx : CodegenContext)
    (chain : List TransformElementNode) (pn : String)
    (hpn : ∃ ch, pn.data.head? = some ch ∧ ch ≠ ' ')
    (hpl : ∀ b ∈ chain, PlainL b.children)
    (hok : (emitConditionalChain fuel ctx chain pn).2 = true) :
    (emitConditionalChain fuel ctx chain pn).1.indent = ctx.indent ∧
    ∃ added, (emitConditionalChain fuel ctx chain pn).1.lines = ctx.lines ++ added ∧
      countLines isMarkerDeclLine added = 1 ∧
      (∀ hdr : String, hdr.data.getLast? = some '\x7b' →
        (hdr.data.head? = some 'i' ∨ hdr.data.head? = some '\x7d') →
        countLines (fun l => l == indentRepeat (ctx.indent + 1) ++ hdr) added =
          (chain.filter (fun b => branchHeader b == hdr)).length) := by
  cases fuel with
  | zero => exact absurd hok (by simp [emitConditionalChain])
  | succ fuel =>
      obtain ⟨ls, ind, idn, ev⟩ := ctx
      have he : emitConditionalChain (fuel + 1) ⟨ls, ind, idn, ev⟩ chain pn =
          (match emitChainBranches fuel
              ⟨(((((((ls ++ [indentRepeat ind ++ ("const " ++
                  ("__" ++ "node" ++ toString idn) ++ " = " ++
                  "document.createComment(\x27tn-if\x27)" ++ ";")]) ++
                [indentRepeat ind ++ (pn ++ ".append(" ++
                  ("__" ++ "node" ++ toString idn) ++ ");")]) ++
                [indentRepeat ind ++ ("let " ++
                  ("__" ++ "ifNodes" ++ toString (idn + 1)) ++ " = [];")]) ++
                [indentRepeat ind ++ "createEffect(() => \x7b"]) ++
                [indentRepeat (ind + 1) ++ ("for (const __n of " ++
                  ("__" ++ "ifNodes" ++ toString (idn + 1)) ++ ") \x7b")]) ++
                [indentRepeat (ind + 2) ++ ("if (__n.parentNode === " ++ pn ++ ") " ++
                  pn ++ ".removeChild(__n);")]) ++
                [indentRepeat (ind + 1) ++ "\x7d"]) ++
                [indentRepeat (ind + 1) ++ (("__" ++ "ifNodes" ++ toString (idn + 1)) ++
                  " = [];")],
               ind + 1, idn + 2, ev⟩ chain pn ("__" ++ "node" ++ toString idn)
              ("__" ++ "ifNodes" ++ toString (idn + 1)) with
           | (c, true) => (pushLine (indentDec (pushLine c "\x7d")) "\x7d);", true)
           | (c, false) => (c, false)) := rfl
      rw [he] at hok ⊢
      rcases hcb : emitChainBranches fuel
          ⟨(((((((ls ++ [indentRepeat ind ++ ("const " ++
              ("__" ++ "node" ++ toString idn) ++ " = " ++
              "document.createComment(\x27tn-if\x27)" ++ ";")]) ++
            [indentRepeat ind ++ (pn ++ ".append(" ++
              ("__" ++ "node" ++ toString idn) ++ ");")]) ++
            [indentRepeat ind ++ ("let " ++
              ("__" ++ "ifNodes" ++ toString (idn + 1)) ++ " = [];")]) ++
            [indentRepeat ind ++ "createEffect(() => \x7b"]) ++
            [indentRepeat (ind + 1) ++ ("for (const __n of " ++
              ("__" ++ "ifNodes" ++ toString (idn + 1)) ++ ") \x7b")]) ++
            [indentRepeat (ind + 2) ++ ("if (__n.parentNode === " ++ pn ++ ") " ++
              pn ++ ".removeChild(__n);")]) ++
            [indentRepeat (ind + 1) ++ "\x7d"]) ++
            [indentRepeat (ind + 1) ++ (("__" ++ "ifNodes" ++ toString (idn + 1)) ++
              " = [];")],
           ind + 1, idn + 2, ev⟩ chain pn ("__" ++ "node" ++ toString idn)
          ("__" ++ "ifNodes" ++ toString (idn + 1)) with ⟨⟨cls, cind, cidn, cev⟩, ok⟩
      rw [hcb] at hok
      cases ok with
      | false => simp at hok
      | true =>
          have hspec := emitChainBranches_spec fuel _ chain pn
            ("__" ++ "node" ++ toString idn) ("__" ++ "ifNodes" ++ toString (idn + 1))
            hpn ⟨toString (idn + 1), rfl⟩ hpl (by rw [hcb])
          rw [hcb] at hspec
          obtain ⟨hcind, added0, hclines, hmark0, hcount0⟩ := hspec
          have hcind2 : cind = ind + 1 := hcind
          subst hcind2
          have hcl2 : cls = (((((((ls ++ [indentRepeat ind ++ ("const " ++
              ("__" ++ "node" ++ toString idn) ++ " = " ++
              "document.createComment(\x27tn-if\x27)" ++ ";")]) ++
            [indentRepeat ind ++ (pn ++ ".append(" ++
              ("__" ++ "node" ++ toString idn) ++ ");")]) ++
            [indentRepeat ind ++ ("let " ++
              ("__" ++ "ifNodes" ++ toString (idn + 1)) ++ " = [];")]) ++
            [indentRepeat ind ++ "createEffect(() => \x7b"]) ++
            [indentRepeat (ind + 1) ++ ("for (const __n of " ++
              ("__" ++ "ifNodes" ++ toString (idn + 1)) ++ ") \x7b")]) ++
            [indentRepeat (ind + 2) ++ ("if (__n.parentNode === " ++ pn ++ ") " ++
              pn ++ ".removeChild(__n);")]) ++
            [indentRepeat (ind + 1) ++ "\x7d"]) ++
            [indentRepeat (ind + 1) ++ (("__" ++ "ifNodes" ++ toString (idn + 1)) ++
              " = [];")] ++ added0 := hclines
          simp only [pushLine_mk, indentDec_mk, Nat.add_sub_cancel]
          obtain ⟨pch, hpch, hpchs⟩ := hpn
          refine ⟨by first | rfl | trivial, (indentRepeat ind ++ ("const " ++
              ("__" ++ "node" ++ toString idn) ++ " = " ++
              "document.createComment(\x27tn-if\x27)" ++ ";")) ::
            ([indentRepeat ind ++ (pn ++ ".append(" ++
                ("__" ++ "node" ++ toString idn) ++ ");"),
              indentRepeat ind ++ ("let " ++
                ("__" ++ "ifNodes" ++ toString (idn + 1)) ++ " = [];"),
              indentRepeat ind ++ "createEffect(() => \x7b",
              indentRepeat (ind + 1) ++ ("for (const __n of " ++
                ("__" ++ "ifNodes" ++ toString (idn + 1)) ++ ") \x7b"),
              indentRepeat (ind + 2) ++ ("if (__n.parentNode === " ++ pn ++ ") " ++
                pn ++ ".removeChild(__n);"),
              indentRepeat (ind + 1) ++ "\x7d",
              indentRepeat (ind + 1) ++ (("__" ++ "ifNodes" ++ toString (idn + 1)) ++
                " = [];")] ++
             (added0 ++ [indentRepeat (ind + 1) ++ "\x7d",
               indentRepeat ind ++ "\x7d);"])), ?_, ?_, ?_⟩
          · rw [hcl2]
            simp [List.append_assoc]
          · rw [countLines_cons, countLines_append, countLines_append]
            rw [show isMarkerDeclLine (indentRepeat ind ++ ("const " ++
                ("__" ++ "node" ++ toString idn) ++ " = " ++
                "document.createComment(\x27tn-if\x27)" ++ ";")) = true from
              markerLine_true ind idn]
            rw [countLines_eq_zero isMarkerDeclLine added0 hmark0]
            rw [countLines_eq_zero isMarkerDeclLine _ (fun l hl => by
              simp only [List.mem_cons, List.not_mem_nil, or_false] at hl
              rcases hl with rfl | rfl | rfl | rfl | rfl | rfl | rfl
              · exact (appendLine_bodyline ind ind pn _ (Nat.le_refl _)
                  ⟨pch, hpch, hpchs⟩ (nodeName_last_digit idn)).1
              · refine (bodyline_of_head ind ind _ 'l' (Nat.le_refl _) ?_ (by decide)
                  (by decide)).1
                repeat first | rfl | apply head?_append_left
              · exact (bodyline_of_content ind ind "createEffect(() => \x7b" 'c'
                  (Nat.le_refl _) rfl (by decide) (by decide)).1
              · refine (bodyline_of_head ind (ind + 1) _ 'f' (Nat.le_succ _) ?_ (by decide)
                  (by decide)).1
                repeat first | rfl | apply head?_append_left
              · refine (bodyline_of_head ind (ind + 2) _ 'i' (by omega) ?_ (by decide)
                  (by decide)).1
                repeat first | rfl | apply head?_append_left
              · exact (bodyline_of_head ind (ind + 1) "\x7d" '\x7d' (Nat.le_succ _) rfl
                  (by decide) (by decide)).1
              · refine (bodyline_of_head ind (ind + 1) _ '_' (Nat.le_succ _) ?_ (by decide)
                  (by decide)).1
                repeat first | rfl | apply head?_append_left)]
            rw [countLines_eq_zero isMarkerDeclLine _ (fun l hl => by
              simp only [List.mem_cons, List.not_mem_nil, or_false] at hl
              rcases hl with rfl | rfl
              · exact (bodyline_of_head ind (ind + 1) "\x7d" '\x7d' (Nat.le_succ _) rfl
                  (by decide) (by decide)).1
              · exact (bodyline_of_head ind ind "\x7d);" '\x7d' (Nat.le_refl _) rfl
                  (by decide) (by decide)).1)]
            rfl
          · intro hdr h1 h2
            have h2e : ∃ hch, hdr.data.head? = some hch ∧ hch ≠ ' ' := by
              rcases h2 with h2 | h2
              · exact ⟨'i', h2, by decide⟩
              · exact ⟨'\x7d', h2, by decide⟩
            rw [countLines_cons, countLines_append, countLines_append]
            rw [show ((indentRepeat ind ++ ("const " ++
                ("__" ++ "node" ++ toString idn) ++ " = " ++
                "document.createComment(\x27tn-if\x27)" ++ ";")) ==
                indentRepeat (ind + 1) ++ hdr) = false from
              clause_ne_of_indent (ind + 1) ind _ hdr (by omega) (by
                have hh : (("const " ++ ("__" ++ "node" ++ toString idn) ++ " = " ++
                    "document.createComment(\x27tn-if\x27)" ++ ";") : String).data.head? =
                    some 'c' := by
                  repeat first | rfl | apply head?_append_left
                rw [hh]
                intro hx
                exact absurd (Option.some.inj hx) (by decide)) h2e]
            rw [countLines_eq_zero _ _ (fun l hl => by
              simp only [List.mem_cons, List.not_mem_nil, or_false] at hl
              rcases hl with rfl | rfl | rfl | rfl | rfl | rfl | rfl
              · refine clause_ne_of_indent (ind + 1) ind _ hdr (by omega) ?_ h2e
                have hh : ((pn ++ ".append(" ++ ("__" ++ "node" ++ toString idn) ++ ");")
                    : String).data.head? = some pch := by
                  repeat first | exact hpch | apply head?_append_left
                rw [hh]
                intro hx
                exact hpchs (Option.some.inj hx)
              · refine clause_ne_of_indent (ind + 1) ind _ hdr (by omega) ?_ h2e
                have hh : (("let " ++ ("__" ++ "ifNodes" ++ toString (idn + 1)) ++
                    " = [];") : String).data.head? = some 'l' := by
                  repeat first | rfl | apply head?_append_left
                rw [hh]
                intro hx
                exact absurd (Option.some.inj hx) (by decide)
              · refine clause_ne_of_indent (ind + 1) ind _ hdr (by omega) ?_ h2e
                intro hx
                exact absurd (Option.some.inj hx) (by decide)
              · have hh : (("for (const __n of " ++
                    ("__" ++ "ifNodes" ++ toString (idn + 1)) ++ ") \x7b")
                    : String).data.head? = some 'f' := by
                  repeat first | rfl | apply head?_append_left
                rcases h2 with h2x | h2x
                · exact clause_ne_of_head (ind + 1) _ hdr 'f' 'i' hh h2x (by decide)
                    (by decide) (by decide)
                · exact clause_ne_of_head (ind + 1) _ hdr 'f' '\x7d' hh h2x (by decide)
                    (by decide) (by decide)
              · refine clause_ne_of_indent (ind + 1) (ind + 2) _ hdr (by omega) ?_ h2e
                have hh : (("if (__n.parentNode === " ++ pn ++ ") " ++ pn ++
                    ".removeChild(__n);") : String).data.head? = some 'i' := by
                  repeat first | rfl | apply head?_append_left
                rw [hh]
                intro hx
                exact absurd (Option.some.inj hx) (by decide)
              · exact clause_ne_of_last (ind + 1) (ind + 1) _ hdr '\x7d' '\x7b' rfl h1
                  (by decide)
              · have hh : ((("__" ++ "ifNodes" ++ toString (idn + 1)) ++ " = [];")
                    : String).data.head? = some '_' := by
                  repeat first | rfl | apply head?_append_left
                rcases h2 with h2x | h2x
                · exact clause_ne_of_head (ind + 1) _ hdr '_' 'i' hh h2x (by decide)
                    (by decide) (by decide)
                · exact clause_ne_of_head (ind + 1) _ hdr '_' '\x7d' hh h2x (by decide)
                    (by decide) (by decide))]
            rw [hcount0 hdr h1 h2e]
            rw [countLines_eq_zero _ _ (fun l hl => by
              simp only [List.mem_cons, List.not_mem_nil, or_false] at hl
              rcases hl with rfl | rfl
              · exact clause_ne_of_last (ind + 1) (ind + 1) _ hdr '\x7d' '\x7b' rfl h1
                  (by decide)
              · exact clause_ne_of_last (ind + 1) ind _ hdr ';' '\x7b' rfl h1
                  (by decide))]
            simp

/-- A `ChainTail` derivation computes `collectChain` exactly. -/
theorem chainTail_collect (sibs : List TransformNode) (bs : List TransformElementNode)
    (rest : List TransformNode) (ht : ChainTail sibs bs rest) :
    collectChain sibs = (bs, rest) := by
  induction ht with
  | last e rest h1 h2 h3 =>
      have he : collectChain (.element e :: rest) =
          if e.directives.dElse then ([e], rest)
          else if e.directives.dElseIf.isSome then
            (match collectChain rest with
             | (branches, remaining) => (e :: branches, remaining))
          else ([], .element e :: rest) := rfl
      rw [he, if_pos h3]
  | ws n sibs bs rest hw ht ih =>
      cases n with
      | text segs =>
          have he : collectChain (.text segs :: sibs) =
              if isWhitespaceText (.text segs) then collectChain sibs
              else ([], .text segs :: sibs) := rfl
          rw [he, if_pos hw, ih]
      | element e => exact absurd hw (by simp [isWhitespaceText])
  | elseIf e s sibs bs rest h1 h2 h3 ht ih =>
      have he : collectChain (.element e :: sibs) =
          if e.directives.dElse then ([e], sibs)
          else if e.directives.dElseIf.isSome then
            (match collectChain sibs with
             | (branches, remaining) => (e :: branches, remaining))
          else ([], .element e :: sibs) := rfl
      rw [he, if_neg (by rw [h3]; exact Bool.false_ne_true),
        if_pos (by rw [h2]; rfl), ih]

/-- A `ChainTail` collects some else-if branches followed by exactly one
final else branch. -/
theorem chainTail_parts (sibs : List TransformNode) (bs : List TransformElementNode)
    (rest : List TransformNode) (ht : ChainTail sibs bs rest) :
    ∃ (pre : List TransformElementNode) (lastE : TransformElementNode),
      bs = pre ++ [lastE] ∧
      (∀ b ∈ pre, b.directives.dIf = none ∧
        (∃ s, b.directives.dElseIf = some s) ∧ b.directives.dElse = false) ∧
      lastE.directives.dIf = none ∧ lastE.directives.dElseIf = none ∧
      lastE.directives.dElse = true := by
  induction ht with
  | last e rest h1 h2 h3 =>
      exact ⟨[], e, rfl, fun b hb => absurd hb (List.not_mem_nil b), h1, h2, h3⟩
  | ws n sibs bs rest hw ht ih => exact ih
  | elseIf e s sibs bs rest h1 h2 h3 ht ih =>
      obtain ⟨pre, lastE, hbs, hpre, hl1, hl2, hl3⟩ := ih
      refine ⟨e :: pre, lastE, by rw [hbs]; rfl, ?_, hl1, hl2, hl3⟩
      intro b hb
      rcases List.mem_cons.mp hb with rfl | hb
      · exact ⟨h1, ⟨s, h2⟩, h3⟩
      · exact hpre b hb

theorem string_ne_of_head (a b : String) (x y : Char) (hx : a.data.head? = some x)
    (hy : b.data.head? = some y) (hxy : x ≠ y) : a ≠ b := by
  intro h
  rw [h] at hx
  rw [hx] at hy
  exact hxy (Option.some.inj hy)

theorem beq_append_right_cancel (a c d : String) : ((c ++ a) == (d ++ a)) = (c == d) := by
  by_cases hcd : c = d
  · rw [hcd]; simp
  · rw [beq_eq_false_iff_ne.mpr hcd, beq_eq_false_iff_ne.mpr ?_]
    intro h
    apply hcd
    apply String.ext
    apply @List.append_cancel_right _ c.data a.data d.data
    rw [← String.data_append, ← String.data_append, h]

/-- The bare-else header is not an else-if header. -/
theorem else_ne_elseif (s : String) :
    ("\x7d else \x7b" : String) ≠ ("\x7d else if (" ++ s ++ ") \x7b") := by
  intro h
  have hd := congrArg String.data h
  rw [String.data_append, String.data_append, List.append_assoc] at hd
  have h7 := congrArg (fun l => l[7]?) hd
  simp [List.getElem?_append] at h7

/-- The head branch's header for a `tn-if` expression. -/
theorem branchHeader_if (b : TransformElementNode) (c : String)
    (h : b.directives.dIf = some c) : branchHeader b = "if (" ++ c ++ ") \x7b" := by
  unfold branchHeader
  rw [h]

/-- The header of a collected `tn-else-if` branch. -/
theorem branchHeader_elseif (b : TransformElementNode) (s : String)
    (h1 : b.directives.dIf = none) (h2 : b.directives.dElseIf = some s) :
    branchHeader b = "\x7d else if (" ++ s ++ ") \x7b" := by
  unfold branchHeader
  rw [h1, h2]

/-- The header of the final `tn-else` branch. -/
theorem branchHeader_else (b : TransformElementNode)
    (h1 : b.directives.dIf = none) (h2 : b.directives.dElseIf = none) :
    branchHeader b = "\x7d else \x7b" := by
  unfold branchHeader
  rw [h1, h2]

theorem ifHeader_head (c : String) :
    (("if (" ++ c ++ ") \x7b") : String).data.head? = some 'i' := by
  repeat first | rfl | apply head?_append_left

theorem elseifHeader_head (s : String) :
    (("\x7d else if (" ++ s ++ ") \x7b") : String).data.head? = some '\x7d' := by
  repeat first | rfl | apply head?_append_left

theorem ifHeader_last (c : String) :
    (("if (" ++ c ++ ") \x7b") : String).data.getLast? = some '\x7b' :=
  getLast?_append_right _ _ _ rfl

theorem elseifHeader_last (s : String) :
    (("\x7d else if (" ++ s ++ ") \x7b") : String).data.getLast? = some '\x7b' :=
  getLast?_append_right _ _ _ rfl

set_option maxHeartbeats 1000000 in
/-- Claim C4 (universal): for every sibling run headed by a `tn-if` element
whose tail — skipping whitespace-only text — is a sequence of `tn-else-if`
elements closed by a `tn-else` element (`ChainTail`), with
directive-free branch contents, a successful `emitChildren` groups the
whole run into one `emitConditionalChain` call over the collected branches
and resumes after the chain; the chain emission adds exactly one
conditional marker-comment declaration — never one per branch — exactly
one `if (<condition>)` clause header, exactly one `else if (<expr>)`
clause header per `tn-else-if` expression, and exactly one bare `else`
clause header. -/
theorem C4_single_marker_per_chain (fuel : Nat) (ctx : CodegenContext)
    (parentName c0 : String) (e0 : TransformElementNode)
    (sibs rest : List TransformNode) (bs : List TransformElementNode)
    (hpn : ∃ ch, parentName.data.head? = some ch ∧ ch ≠ ' ')
    (h0 : e0.directives.dIf = some c0)
    (hchain : ChainTail sibs bs rest)
    (hpl0 : PlainL e0.children)
    (hplb : ∀ b ∈ bs, PlainL b.children)
    (hok : (emitChildren (fuel + 1) ctx (.element e0 :: sibs) parentName).2 = true) :
    collectChain sibs = (bs, rest) ∧
    (emitConditionalChain fuel ctx (e0 :: bs) parentName).2 = true ∧
    emitChildren (fuel + 1) ctx (.element e0 :: sibs) parentName =
      emitChildren fuel (emitConditionalChain fuel ctx (e0 :: bs) parentName).1 rest
        parentName ∧
    countLines isMarkerDeclLine
        (emitConditionalChain fuel ctx (e0 :: bs) parentName).1.lines =
      countLines isMarkerDeclLine ctx.lines + 1 ∧
    countLines (fun l => l == indentRepeat (ctx.indent + 1) ++ ("if (" ++ c0 ++ ") \x7b"))
        (emitConditionalChain fuel ctx (e0 :: bs) parentName).1.lines =
      countLines (fun l => l == indentRepeat (ctx.indent + 1) ++ ("if (" ++ c0 ++ ") \x7b"))
        ctx.lines + 1 ∧
    (∀ s : String,
      countLines (fun l => l == indentRepeat (ctx.indent + 1) ++
          ("\x7d else if (" ++ s ++ ") \x7b"))
        (emitConditionalChain fuel ctx (e0 :: bs) parentName).1.lines =
      countLines (fun l => l == indentRepeat (ctx.indent + 1) ++
          ("\x7d else if (" ++ s ++ ") \x7b")) ctx.lines +
        (bs.filter (fun b => b.directives.dElseIf == some s)).length) ∧
    countLines (fun l => l == indentRepeat (ctx.indent + 1) ++ "\x7d else \x7b")
        (emitConditionalChain fuel ctx (e0 :: bs) parentName).1.lines =
      countLines (fun l => l == indentRepeat (ctx.indent + 1) ++ "\x7d else \x7b")
        ctx.lines + 1 := by
  have hsome : e0.directives.dIf.isSome = true := by rw [h0]; rfl
  have hA : collectChain sibs = (bs, rest) := chainTail_collect sibs bs rest hchain
  have hplAll : ∀ b ∈ (e0 :: bs), PlainL b.children := by
    intro b hb
    rcases List.mem_cons.mp hb with rfl | hb
    · exact hpl0
    · exact hplb b hb
  have he : emitChildren (fuel + 1) ctx (.element e0 :: sibs) parentName =
      (if e0.directives.dIf.isSome then
        (match collectChain sibs with
         | (branches, remaining) =>
            match emitConditionalChain fuel ctx (e0 :: branches) parentName with
            | (c, true) => emitChildren fuel c remaining parentName
            | (c, false) => (c, false))
       else if e0.directives.dElseIf.isSome || e0.directives.dElse then (ctx, false)
       else
         match emitNode fuel ctx (.element e0) parentName with
         | (c, true) => emitChildren fuel c sibs parentName
         | (c, false) => (c, false)) := rfl
  rw [he, if_pos hsome, hA] at hok
  have hok2 : (match emitConditionalChain fuel ctx (e0 :: bs) parentName with
      | (c, true) => emitChildren fuel c rest parentName
      | (c, false) => (c, false)).2 = true := hok
  have hB : (emitConditionalChain fuel ctx (e0 :: bs) parentName).2 = true := by
    rcases hecc : emitConditionalChain fuel ctx (e0 :: bs) parentName with ⟨c, ok⟩
    rw [hecc] at hok2
    cases ok
    · simp at hok2
    · rfl
  have hC : emitChildren (fuel + 1) ctx (.element e0 :: sibs) parentName =
      emitChildren fuel (emitConditionalChain fuel ctx (e0 :: bs) parentName).1 rest
        parentName := by
    rw [he, if_pos hsome, hA]
    show (match emitConditionalChain fuel ctx (e0 :: bs) parentName with
          | (c, true) => emitChildren fuel c rest parentName
          | (c, false) => (c, false)) = _
    rcases hecc : emitConditionalChain fuel ctx (e0 :: bs) parentName with ⟨c, ok⟩
    rw [hecc] at hB
    cases ok
    · simp at hB
    · rfl
  obtain ⟨hind, added, hlines, hmark, hcount⟩ :=
    emitConditionalChain_spec fuel ctx (e0 :: bs) parentName hpn hplAll hB
  obtain ⟨pre, lastE, hbs, hpre, hl1, hl2, hl3⟩ := chainTail_parts sibs bs rest hchain
  refine ⟨hA, hB, hC, ?_, ?_, ?_, ?_⟩
  · rw [hlines, countLines_append, hmark]
  · rw [hlines, countLines_append,
      hcount ("if (" ++ c0 ++ ") \x7b") (ifHeader_last c0) (Or.inl (ifHeader_head c0))]
    have hfilter : ((e0 :: bs).filter
        (fun b => branchHeader b == ("if (" ++ c0 ++ ") \x7b"))).length = 1 := by
      rw [filter_cons_length]
      rw [show (branchHeader e0 == ("if (" ++ c0 ++ ") \x7b")) = true from by
        rw [branchHeader_if e0 c0 h0]; exact beq_self_eq_true _]
      have hnil : bs.filter
          (fun b => branchHeader b == ("if (" ++ c0 ++ ") \x7b")) = [] := by
        apply List.filter_eq_nil_iff.mpr
        intro b hb
        rw [hbs] at hb
        intro hx
        rcases List.mem_append.mp hb with hb | hb
        · obtain ⟨hbif, ⟨sb, hbei⟩, hbel⟩ := hpre b hb
          rw [branchHeader_elseif b sb hbif hbei] at hx
          exact string_ne_of_head _ _ '\x7d' 'i' (elseifHeader_head sb)
            (ifHeader_head c0) (by decide) (beq_iff_eq.mp hx)
        · rw [List.mem_singleton] at hb
          subst hb
          rw [branchHeader_else b hl1 hl2] at hx
          exact string_ne_of_head "\x7d else \x7b" _ '\x7d' 'i' rfl (ifHeader_head c0)
            (by decide) (beq_iff_eq.mp hx)
      rw [hnil]
      rfl
    rw [hfilter]
  · intro s
    rw [hlines, countLines_append,
      hcount ("\x7d else if (" ++ s ++ ") \x7b") (elseifHeader_last s)
        (Or.inr (elseifHeader_head s))]
    have hfilter : ((e0 :: bs).filter (fun b => branchHeader b ==
        ("\x7d else if (" ++ s ++ ") \x7b"))).length =
        (bs.filter (fun b => b.directives.dElseIf == some s)).length := by
      rw [filter_cons_length]
      rw [show (branchHeader e0 == ("\x7d else if (" ++ s ++ ") \x7b")) = false from by
        rw [branchHeader_if e0 c0 h0]
        exact beq_eq_false_iff_ne.mpr (string_ne_of_head _ _ 'i' '\x7d'
          (ifHeader_head c0) (elseifHeader_head s) (by decide))]
      have hcongr : ∀ x ∈ bs, (branchHeader x == ("\x7d else if (" ++ s ++ ") \x7b")) =
          (x.directives.dElseIf == some s) := by
        intro x hx
        rw [hbs] at hx
        rcases List.mem_append.mp hx with hx | hx
        · obtain ⟨hbif, ⟨sb, hbei⟩, hbel⟩ := hpre x hx
          rw [branchHeader_elseif x sb hbif hbei, hbei]
          rw [show ((some sb == some s) : Bool) = (sb == s) from rfl]
          rw [show ("\x7d else if (" ++ sb ++ ") \x7b") =
            (("\x7d else if (" ++ sb) ++ ") \x7b") from rfl]
          rw [show ("\x7d else if (" ++ s ++ ") \x7b") =
            (("\x7d else if (" ++ s) ++ ") \x7b") from rfl]
          rw [beq_append_right_cancel, beq_append_left_cancel]
        · rw [List.mem_singleton] at hx
          subst hx
          rw [branchHeader_else x hl1 hl2, hl2]
          rw [show ((none : Option String) == some s) = false from rfl]
          exact beq_eq_false_iff_ne.mpr (else_ne_elseif s)
      rw [List.filter_congr hcongr]
      simp
    rw [hfilter]
  · rw [hlines, countLines_append,
      hcount "\x7d else \x7b" rfl (Or.inr rfl)]
    have hfilter : ((e0 :: bs).filter
        (fun b => branchHeader b == ("\x7d else \x7b" : String))).length = 1 := by
      rw [filter_cons_length]
      rw [show (branchHeader e0 == ("\x7d else \x7b" : String)) = false from by
        rw [branchHeader_if e0 c0 h0]
        exact beq_eq_false_iff_ne.mpr (string_ne_of_head _ _ 'i' '\x7d'
          (ifHeader_head c0) rfl (by decide))]
      rw [hbs, List.filter_append]
      have hprenil : pre.filter
          (fun b => branchHeader b == ("\x7d else \x7b" : String)) = [] := by
        apply List.filter_eq_nil_iff.mpr
        intro b hb
        obtain ⟨hbif, ⟨sb, hbei⟩, hbel⟩ := hpre b hb
        intro hx
        rw [branchHeader_elseif b sb hbif hbei] at hx
        exact (else_ne_elseif sb) (beq_iff_eq.mp hx).symm
      have hlastE : (branchHeader lastE == ("\x7d else \x7b" : String)) = true := by
        rw [branchHeader_else lastE hl1 hl2]
        exact beq_self_eq_true _
      rw [hprenil]
      simp [List.filter_singleton, hlastE]
    rw [hfilter]

/-- Concrete instance of the universal C4 theorem: a four-branch chain with
two `tn-else-if` branches and whitespace-only text between the siblings
produces exactly one marker declaration, one `if (n() > 10)` clause, one
`else if` clause per else-if expression and one bare `else` clause. -/
theorem C4_single_marker_per_chain_witness :
    collectChain c4Sibs = (c4Branches, []) ∧
    (emitConditionalChain 19 emptyCtx (c4Head :: c4Branches) "__root").2 = true ∧
    countLines isMarkerDeclLine
      (emitConditionalChain 19 emptyCtx (c4Head :: c4Branches) "__root").1.lines = 1 ∧
    countLines (fun l => l == indentRepeat 1 ++ ("if (" ++ "n() > 10" ++ ") \x7b"))
      (emitConditionalChain 19 emptyCtx (c4Head :: c4Branches) "__root").1.lines = 1 ∧
    countLines (fun l => l == indentRepeat 1 ++ ("\x7d else if (" ++ "n() > 5" ++ ") \x7b"))
      (emitConditionalChain 19 emptyCtx (c4Head :: c4Branches) "__root").1.lines = 1 ∧
    countLines (fun l => l == indentRepeat 1 ++ ("\x7d else if (" ++ "n() > 3" ++ ") \x7b"))
      (emitConditionalChain 19 emptyCtx (c4Head :: c4Branches) "__root").1.lines = 1 ∧
    countLines (fun l => l == indentRepeat 1 ++ "\x7d else \x7b")
      (emitConditionalChain 19 emptyCtx (c4Head :: c4Branches) "__root").1.lines = 1 := by
  have hplHead : PlainL c4Head.children :=
    PlainL.cons _ _ (PlainN.text _) PlainL.nil
  have hpl1 : PlainL c4ElseIf1.children :=
    PlainL.cons _ _ (PlainN.text _) PlainL.nil
  have hpl2 : PlainL c4ElseIf2.children :=
    PlainL.cons _ _ (PlainN.text _) PlainL.nil
  have hpl3 : PlainL c4Else.children :=
    PlainL.cons _ _ (PlainN.text _) PlainL.nil
  have hchain : ChainTail c4Sibs c4Branches [] := by
    refine ChainTail.ws c4Ws _ _ _ (by decide) ?_
    refine ChainTail.elseIf c4ElseIf1 "n() > 5" _ _ _ rfl rfl rfl ?_
    refine ChainTail.ws c4Ws _ _ _ (by decide) ?_
    refine ChainTail.elseIf c4ElseIf2 "n() > 3" _ _ _ rfl rfl rfl ?_
    refine ChainTail.ws c4Ws _ _ _ (by decide) ?_
    exact ChainTail.last c4Else [] rfl rfl rfl
  have hplb : ∀ b ∈ c4Branches, PlainL b.children := by
    intro b hb
    rcases List.mem_cons.mp hb with rfl | hb
    · exact hpl1
    rcases List.mem_cons.mp hb with rfl | hb
    · exact hpl2
    rcases List.mem_cons.mp hb with rfl | hb
    · exact hpl3
    exact absurd hb (List.not_mem_nil b)
  have h := C4_single_marker_per_chain 19 emptyCtx "__root" "n() > 10" c4Head c4Sibs []
    c4Branches ⟨'_', rfl, by decide⟩ rfl hchain hplHead hplb rfl
  obtain ⟨hA, hB, hC, hm, hif, heif, hel⟩ := h
  exact ⟨hA, hB, hm, hif, heif "n() > 5", heif "n() > 3", hel⟩

theorem pushLine_lines (ctx : CodegenContext) (l : String) :
    (pushLine ctx l).lines = ctx.lines ++ [indentRepeat ctx.indent ++ l] := by
  cases ctx
  rfl

theorem pushLine_indent (ctx : CodegenContext) (l : String) :
    (pushLine ctx l).indent = ctx.indent := by
  cases ctx
  rfl

theorem addDelegated_lines (ctx : CodegenContext) (n : String) :
    (addDelegated ctx n).lines = ctx.lines := by
  cases ctx
  rfl

theorem addDelegated_indent (ctx : CodegenContext) (n : String) :
    (addDelegated ctx n).indent = ctx.indent := by
  cases ctx
  rfl

/-- Exact output of the delegated-event loop: for every event binding, two
lines — the table initializer and the assignment of `toEventHandler` of
the binding expression under the lowercased event name. -/
theorem emitEvents_lines (el : String) (evs : List NamedExpr) (ctx : CodegenContext) :
    (emitEvents el ctx evs).lines =
      ctx.lines ++ (evs.map (fun ev =>
        [indentRepeat ctx.indent ++ (el ++ ".__tnDelegatedHandlers ??= \x7b\x7d;"),
         indentRepeat ctx.indent ++ (el ++ ".__tnDelegatedHandlers[" ++
           jsonString (lowerStr ev.name) ++ "] = " ++ toEventHandler ev.expression ++
           ";")])).flatten := by
  induction evs generalizing ctx with
  | nil => simp [emitEvents]
  | cons ev rest ih =>
      rw [emitEvents, ih]
      simp [pushLine_lines, pushLine_indent, addDelegated_lines, addDelegated_indent]

/-- Claim C10: the generated handler expression follows exactly the
claimed wrapping rule (`eventHandlerSpec`, written from the claim: verbatim
for a bare identifier or anything already starting like a
function/arrow, otherwise wrapped as an `(event) => ...` arrow so that an
inline statement has `event` in scope); the delegated-handler table
entries of plain elements assign exactly `toEventHandler` of the binding
expression; and every event binding of a component becomes an
`on`-capitalized prop entry whose value is `toEventHandler` of the
binding expression. -/
theorem C10_event_handler_rule :
    (∀ expression : String, toEventHandler expression = eventHandlerSpec expression) ∧
    (∀ (el : String) (evs : List NamedExpr) (ctx : CodegenContext),
      (emitEvents el ctx evs).lines =
        ctx.lines ++ (evs.map (fun ev =>
          [indentRepeat ctx.indent ++ (el ++ ".__tnDelegatedHandlers ??= \x7b\x7d;"),
           indentRepeat ctx.indent ++ (el ++ ".__tnDelegatedHandlers[" ++
             jsonString (lowerStr ev.name) ++ "] = " ++ toEventHandler ev.expression ++
             ";")])).flatten) ∧
    (∀ (e : TransformElementNode) (ev : NamedExpr), ev ∈ e.events →
      (jsonString ("on" ++ capitalizeJs ev.name) ++ ": " ++ toEventHandler ev.expression) ∈
        propEntriesOf e) := by
  refine ⟨?_, emitEvents_lines, ?_⟩
  · intro expression
    unfold toEventHandler eventHandlerSpec
    by_cases h1 : (!(trimStr expression).data.isEmpty &&
        (trimStr expression).data.all isWordChar) = true
    · simp [h1]
    · by_cases h2 : (strStarts (trimStr expression) "(" ||
          strStarts (trimStr expression) "function" || arrowHead (trimStr expression)) = true
      · simp [h1, h2]
      · simp [h1, h2]
  · intro e ev hev
    unfold propEntriesOf
    exact List.mem_append_right _ (List.mem_map_of_mem _ hev)

/-- Concrete instance of C10: a statement expression is wrapped with an
`event` parameter, both in a delegated-handler table entry and in a
component's `onClick` prop. -/
theorem C10_event_handler_rule_witness :
    toEventHandler "count.set(count() + 1)" =
      eventHandlerSpec "count.set(count() + 1)" ∧
    toEventHandler "count.set(count() + 1)" =
      "(event) => \x7b count.set(count() + 1); \x7d" ∧
    (emitEvents "__node1" emptyCtx [⟨"click", "count.set(count() + 1)"⟩]).lines =
      ["__node1.__tnDelegatedHandlers ??= \x7b\x7d;",
       "__node1.__tnDelegatedHandlers[\"click\"] = (event) => \x7b count.set(count() + 1); \x7d;"] ∧
    ("\"onClick\": (event) => \x7b count.set(count() + 1); \x7d") ∈
      propEntriesOf c10Component := by
  refine ⟨C10_event_handler_rule.1 "count.set(count() + 1)", by decide, ?_, ?_⟩
  · rw [C10_event_handler_rule.2.1 "__node1" [⟨"click", "count.set(count() + 1)"⟩] emptyCtx]
    decide
  · have h := C10_event_handler_rule.2.2 c10Component ⟨"click", "count.set(count() + 1)"⟩
      (List.mem_singleton_self _)
    have he : ("\"onClick\": (event) => \x7b count.set(count() + 1); \x7d" : String) =
        jsonString ("on" ++ capitalizeJs "click") ++ ": " ++
          toEventHandler "count.set(count() + 1)" := by decide
    rw [he]
    exact h

/-- The classification loop distributes over list append. -/
theorem transformAttrsLoop_append (l1 l2 : List RawAttribute) (dirs : DirectiveMap)
    (attrs : List NamedValue) (binds evs : List NamedExpr) :
    transformAttrsLoop dirs attrs binds evs (l1 ++ l2) =
      (match transformAttrsLoop dirs attrs binds evs l1 with
       | .ok r => transformAttrsLoop r.1 r.2.1 r.2.2.1 r.2.2.2 l2
       | .error m => .error m) := by
  induction l1 generalizing dirs attrs binds evs with
  | nil => simp [transformAttrsLoop]
  | cons a l1 ih =>
      rw [List.cons_append, transformAttrsLoop, transformAttrsLoop]
      split_ifs <;>
        first
          | apply ih
          | rfl
          | (cases hp : parseForDirective (a.value.getD "") <;> simp only [hp] <;>
              first | apply ih | rfl)

/-- Attributes other than `tn-else-if` leave the recorded `elseIf`
directive unchanged. -/
theorem transformAttrsLoop_dElseIf (l : List RawAttribute) (dirs : DirectiveMap)
    (attrs : List NamedValue) (binds evs : List NamedExpr)
    (out : DirectiveMap × List NamedValue × List NamedExpr × List NamedExpr)
    (hnm : "tn-else-if" ∉ l.map RawAttribute.name)
    (h : transformAttrsLoop dirs attrs binds evs l = .ok out) :
    out.1.dElseIf = dirs.dElseIf := by
  induction l generalizing dirs attrs binds evs with
  | nil =>
      rw [transformAttrsLoop] at h
      cases h
      rfl
  | cons a l ih =>
      have hna : a.name ≠ "tn-else-if" := by
        intro hc
        exact hnm (by rw [List.map_cons, hc]; exact List.mem_cons_self _ _)
      have hnl : "tn-else-if" ∉ l.map RawAttribute.name := by
        intro hc
        exact hnm (by rw [List.map_cons]; exact List.mem_cons_of_mem _ hc)
      rw [transformAttrsLoop] at h
      split_ifs at h
      all_goals
        first
          | (have hh := ih _ _ _ _ hnl h
             exact hh)
          | exact absurd (beq_iff_eq.mp (by assumption)) hna
          | (split at h
             · exact Except.noConfusion h
             · have hh := ih _ _ _ _ hnl h
               exact hh)

/-- Attributes other than `tn-else` leave the recorded `else` marker
unchanged. -/
theorem transformAttrsLoop_dElse (l : List RawAttribute) (dirs : DirectiveMap)
    (attrs : List NamedValue) (binds evs : List NamedExpr)
    (out : DirectiveMap × List NamedValue × List NamedExpr × List NamedExpr)
    (hnm : "tn-else" ∉ l.map RawAttribute.name)
    (h : transformAttrsLoop dirs attrs binds evs l = .ok out) :
    out.1.dElse = dirs.dElse := by
  induction l generalizing dirs attrs binds evs with
  | nil =>
      rw [transformAttrsLoop] at h
      cases h
      rfl
  | cons a l ih =>
      have hna : a.name ≠ "tn-else" := by
        intro hc
        exact hnm (by rw [List.map_cons, hc]; exact List.mem_cons_self _ _)
      have hnl : "tn-else" ∉ l.map RawAttribute.name := by
        intro hc
        exact hnm (by rw [List.map_cons]; exact List.mem_cons_of_mem _ hc)
      rw [transformAttrsLoop] at h
      split_ifs at h
      all_goals
        first
          | (have hh := ih _ _ _ _ hnl h
             exact hh)
          | exact absurd (beq_iff_eq.mp (by assumption)) hna
          | (split at h
             · exact Except.noConfusion h
             · have hh := ih _ _ _ _ hnl h
               exact hh)

/-- No `tn-else-if` or `tn-else` attribute ever reaches the static
attribute list. -/
theorem transformAttrsLoop_attrs (l : List RawAttribute) (dirs : DirectiveMap)
    (attrs : List NamedValue) (binds evs : List NamedExpr)
    (out : DirectiveMap × List NamedValue × List NamedExpr × List NamedExpr)
    (h : transformAttrsLoop dirs attrs binds evs l = .ok out)
    (hacc : ∀ x ∈ attrs, x.name ≠ "tn-else-if" ∧ x.name ≠ "tn-else") :
    ∀ x ∈ out.2.1, x.name ≠ "tn-else-if" ∧ x.name ≠ "tn-else" := by
  induction l generalizing dirs attrs binds evs with
  | nil =>
      rw [transformAttrsLoop] at h
      cases h
      exact hacc
  | cons a l ih =>
      rw [transformAttrsLoop] at h
      split_ifs at h
      all_goals
        first
          | (have hh := ih _ _ _ _ h hacc
             exact hh)
          | (split at h
             · exact Except.noConfusion h
             · have hh := ih _ _ _ _ h hacc
               exact hh)
          | (refine ih _ _ _ _ h ?_
             intro x hx
             rcases List.mem_append.mp hx with hx1 | hx1
             · exact hacc x hx1
             · rw [List.mem_singleton] at hx1
               subst hx1
               refine ⟨fun hc => ?_, fun hc => ?_⟩
               · have hc2 : a.name = "tn-else-if" := hc
                 exact absurd (show (a.name == "tn-else-if") = true by
                   rw [hc2]; exact beq_self_eq_true _) (by assumption)
               · have hc2 : a.name = "tn-else" := hc
                 exact absurd (show (a.name == "tn-else") = true by
                   rw [hc2]; exact beq_self_eq_true _) (by assumption))

/-- Claim C5: in the transformer, a `tn-else-if` attribute (whose value,
like every directive expression, must be present) is recorded as the
element's `elseIf` directive and a `tn-else` attribute — with or without a
value — is recorded as the element's `else` marker; neither ever appears
among the element's plain static attributes.  The directive branches are
modelled from the spec (see `transformAttrsLoop`); the surrounding
classification loop is the source's. -/
theorem C5_else_directives :
    (∀ (fuel : Nat) (tag : String) (children : List TemplateNode)
       (pre post : List RawAttribute) (v : Option String) (out : TransformNode),
      "tn-else-if" ∉ post.map RawAttribute.name →
      transformNode (fuel + 1) (.element tag (pre ++ ⟨"tn-else-if", v⟩ :: post) children) =
        .ok out →
      ∃ el : TransformElementNode, out = .element el ∧
        el.directives.dElseIf = some (v.getD "") ∧
        ∀ x ∈ el.attributes, x.name ≠ "tn-else-if" ∧ x.name ≠ "tn-else") ∧
    (∀ (fuel : Nat) (tag : String) (children : List TemplateNode)
       (pre post : List RawAttribute) (v : Option String) (out : TransformNode),
      "tn-else" ∉ post.map RawAttribute.name →
      transformNode (fuel + 1) (.element tag (pre ++ ⟨"tn-else", v⟩ :: post) children) =
        .ok out →
      ∃ el : TransformElementNode, out = .element el ∧
        el.directives.dElse = true ∧
        ∀ x ∈ el.attributes, x.name ≠ "tn-else-if" ∧ x.name ≠ "tn-else") := by
  constructor
  · intro fuel tag children pre post v out hpost hok
    cases heq : transformAttrsLoop ⟨none, none, false, none⟩ [] [] []
        (pre ++ ⟨"tn-else-if", v⟩ :: post) with
    | error m =>
        rw [transformNode, heq] at hok
        exact Except.noConfusion hok
    | ok r =>
        obtain ⟨dirs, attrs, binds, evs⟩ := r
        rw [transformNode, heq] at hok
        cases hch : transformChildren fuel children with
        | error m =>
            rw [hch] at hok
            exact Except.noConfusion hok
        | ok tch =>
            rw [hch] at hok
            dsimp only at hok
            cases hok
            refine ⟨_, rfl, ?_, ?_⟩
            · show dirs.dElseIf = some (v.getD "")
              rw [transformAttrsLoop_append] at heq
              cases hpre : transformAttrsLoop ⟨none, none, false, none⟩ [] [] [] pre with
              | error m =>
                  rw [hpre] at heq
                  exact Except.noConfusion heq
              | ok mid =>
                  rw [hpre] at heq
                  dsimp only at heq
                  rw [transformAttrsLoop] at heq
                  have e1 : ((⟨"tn-else-if", v⟩ : RawAttribute).name == "tn-if") = false := rfl
                  have e2 : ((⟨"tn-else-if", v⟩ : RawAttribute).name == "tn-for") = false := rfl
                  have e3 : ((⟨"tn-else-if", v⟩ : RawAttribute).name == "tn-else-if") = true :=
                    rfl
                  rw [e1, e2, e3] at heq
                  simp only [Bool.false_eq_true, if_false, if_true] at heq
                  by_cases hv : hasVal (⟨"tn-else-if", v⟩ : RawAttribute).value = true
                  · rw [if_pos hv] at heq
                    have hpres := transformAttrsLoop_dElseIf post _ _ _ _ _ hpost heq
                    exact hpres
                  · rw [if_neg hv] at heq
                    exact Except.noConfusion heq
            · show ∀ x ∈ attrs, x.name ≠ "tn-else-if" ∧ x.name ≠ "tn-else"
              exact transformAttrsLoop_attrs _ _ _ _ _ _ heq
                (fun x hx => absurd hx (List.not_mem_nil x))
  · intro fuel tag children pre post v out hpost hok
    cases heq : transformAttrsLoop ⟨none, none, false, none⟩ [] [] []
        (pre ++ ⟨"tn-else", v⟩ :: post) with
    | error m =>
        rw [transformNode, heq] at hok
        exact Except.noConfusion hok
    | ok r =>
        obtain ⟨dirs, attrs, binds, evs⟩ := r
        rw [transformNode, heq] at hok
        cases hch : transformChildren fuel children with
        | error m =>
            rw [hch] at hok
            exact Except.noConfusion hok
        | ok tch =>
            rw [hch] at hok
            dsimp only at hok
            cases hok
            refine ⟨_, rfl, ?_, ?_⟩
            · show dirs.dElse = true
              rw [transformAttrsLoop_append] at heq
              cases hpre : transformAttrsLoop ⟨none, none, false, none⟩ [] [] [] pre with
              | error m =>
                  rw [hpre] at heq
                  exact Except.noConfusion heq
              | ok mid =>
                  rw [hpre] at heq
                  dsimp only at heq
                  rw [transformAttrsLoop] at heq
                  have e1 : ((⟨"tn-else", v⟩ : RawAttribute).name == "tn-if") = false := rfl
                  have e2 : ((⟨"tn-else", v⟩ : RawAttribute).name == "tn-for") = false := rfl
                  have e3 : ((⟨"tn-else", v⟩ : RawAttribute).name == "tn-else-if") = false :=
                    rfl
                  have e4 : ((⟨"tn-else", v⟩ : RawAttribute).name == "tn-else") = true := rfl
                  rw [e1, e2, e3, e4] at heq
                  simp only [Bool.false_eq_true, if_false, if_true] at heq
                  have hpres := transformAttrsLoop_dElse post _ _ _ _ _ hpost heq
                  exact hpres
            · show ∀ x ∈ attrs, x.name ≠ "tn-else-if" ∧ x.name ≠ "tn-else"
              exact transformAttrsLoop_attrs _ _ _ _ _ _ heq
                (fun x hx => absurd hx (List.not_mem_nil x))

/-- Concrete instance of C5: `<p tn-else-if="n() > 5">` transforms into an
element whose directive map records the `elseIf` expression and whose
static attribute list is empty of the directive. -/
theorem C5_else_directives_witness :
    transformNode 2 (.element "p" [⟨"tn-else-if", some "n() > 5"⟩] []) =
      .ok (.element (.mk "p" false [] [] [] ⟨none, some "n() > 5", false, none⟩ [])) ∧
    (∃ el : TransformElementNode,
      (TransformNode.element (.mk "p" false [] [] [] ⟨none, some "n() > 5", false, none⟩ []))
        = .element el ∧
      el.directives.dElseIf = some ((some "n() > 5").getD "") ∧
      ∀ x ∈ el.attributes, x.name ≠ "tn-else-if" ∧ x.name ≠ "tn-else") := by
  refine ⟨rfl, C5_else_directives.1 1 "p" [] [] [] (some "n() > 5") _ ?_ ?_⟩
  · exact List.not_mem_nil _
  · rfl

end Tanni
